import Mathlib

/-!
# Harris corner detector (`src/harris.cpp`): embedding and verified properties

The C++ code works on OpenCV matrices of `float`.  The embedding keeps the control
structure of every function (the same loops, in the same order, with the same index
expressions) and makes three things explicit:

* samples are rational numbers (exact arithmetic instead of `float` rounding), machine
  `int`s are unbounded integers; the one `float` product that is converted to an `int`
  (line 45, the number of points to return) is rounded as binary32 arithmetic does;
* every `at<T>(r,c)` access is bounds-checked and a read of a cell that was never
  written fails, so a function returns `none` exactly when the C++ code would perform
  an out-of-range or uninitialised access; for the writes of the suppression mask, the
  only accesses that can be out of range, the unchecked pointer arithmetic of
  `cv::Mat::at` is modelled as well;
* `std::sort` and the Gaussian weight expression are parameters of the functions that
  use them.
-/

set_option linter.dupNamespace false

namespace Harris

/-! ## Matrices -/

/-- A `cv::Mat` holding one sample per cell.  `data r c = none` marks a cell that has
been allocated but not written yet. -/
structure Mat (α : Type) where
  rows : Int
  cols : Int
  data : Int → Int → Option α

variable {α : Type}

/-- The index `(r,c)` lies inside the matrix. -/
def Mat.inBounds (m : Mat α) (r c : Int) : Prop :=
  0 ≤ r ∧ r < m.rows ∧ 0 ≤ c ∧ c < m.cols

instance (m : Mat α) (r c : Int) : Decidable (m.inBounds r c) := by
  unfold Mat.inBounds; infer_instance

/-- The constructor `Mat(rows, cols, CV_32F)`: fresh storage with unspecified contents.
OpenCV raises an exception for a negative dimension. -/
@[noinline]
def Mat.create (rows cols : Int) : Option (Mat α) :=
  if 0 ≤ rows ∧ 0 ≤ cols then some ⟨rows, cols, fun _ _ => none⟩ else none

/-- The constructor `Mat(rows, cols, CV_32F, Scalar::all(v))`: storage filled with `v`. -/
@[noinline]
def Mat.filled (rows cols : Int) (v : α) : Option (Mat α) :=
  if 0 ≤ rows ∧ 0 ≤ cols then some ⟨rows, cols, fun _ _ => some v⟩ else none

/-- The accessor `m.at<T>(r,c)` used as a value. -/
@[noinline]
def Mat.read (m : Mat α) (r c : Int) : Option α :=
  if m.inBounds r c then m.data r c else none

/-- The accessor `m.at<T>(r,c) = v` used as an assignment target. -/
@[noinline]
def Mat.write (m : Mat α) (r c : Int) (v : α) : Option (Mat α) :=
  if m.inBounds r c then
    some { m with data := fun i j => if i = r ∧ j = c then some v else m.data i j }
  else none

/-- A matrix given by its dimensions and a total cell function (an input buffer). -/
def Mat.ofFn (rows cols : Int) (f : Int → Int → α) : Mat α :=
  ⟨rows, cols, fun r c => some (f r c)⟩

/-- The matrix `m` has dimensions `R × C` and holds `g r c` in every cell. -/
def Mat.Is (m : Mat α) (R C : Int) (g : Int → Int → α) : Prop :=
  m.rows = R ∧ m.cols = C ∧
    ∀ r c, 0 ≤ r → r < R → 0 ≤ c → c < C → m.data r c = some (g r c)

/-! ## Loops -/

/-- Runs `body i` for `n` consecutive values of the counter, starting at `i`. -/
def forLoopN {σ : Type} (body : Int → σ → Option σ) : Nat → Int → σ → Option σ
  | 0, _, s => some s
  | n + 1, i, s => (body i s).bind (forLoopN body n (i + 1))

/-- The loop `for (int i = lo; i < hi; i++) body`. -/
def forLoop {σ : Type} (lo hi : Int) (body : Int → σ → Option σ) (s : σ) : Option σ :=
  forLoopN body (hi - lo).toNat lo s

/-! ## Box-sum smoothing -/

section Pipeline

/-- The function `Harris::ComputeIntegralImg` (lines 210-238). -/
def ComputeIntegralImg (img : Mat ℚ) : Option (Mat ℚ) := do
  let integralMat ← Mat.create img.rows img.cols
  let integralMat ← integralMat.write 0 0 (← img.read 0 0)
  let integralMat ← forLoop 1 img.cols (fun i m => do
    m.write 0 i ((← m.read 0 (i - 1)) + (← img.read 0 i))) integralMat
  let integralMat ← forLoop 1 img.rows (fun j m => do
    m.write j 0 ((← m.read (j - 1) 0) + (← img.read j 0))) integralMat
  forLoop 1 img.cols (fun i m =>
    forLoop 1 img.rows (fun j m => do
      m.write j i ((← img.read j i) + (← m.read (j - 1) i) + (← m.read j (i - 1))
        - (← m.read (j - 1) (i - 1)))) m) integralMat

/-- The function `Harris::MeanFilter` (lines 241-255). -/
def MeanFilter (intImg : Mat ℚ) (range : Int) : Option (Mat ℚ) := do
  let medianFilteredMat ← Mat.create (intImg.rows - range * 2) (intImg.cols - range * 2)
  forLoop range (intImg.rows - range) (fun r m =>
    forLoop range (intImg.cols - range) (fun c m => do
      m.write (r - range) (c - range)
        ((← intImg.read (r + range) (c + range)) + (← intImg.read (r - range) (c - range))
          - (← intImg.read (r + range) (c - range))
          - (← intImg.read (r - range) (c + range)))) m) medianFilteredMat

/-! ## Grayscale conversion, derivatives, Gaussian smoothing, response -/

/-- An 8-bit three-channel image, accessed through `at<cv::Vec3b>(r,c)[k]`. -/
structure Image where
  rows : Int
  cols : Int
  data : Int → Int → Fin 3 → Fin 256

/-- The accessor `img.at<cv::Vec3b>(r,c)[k]`. -/
@[noinline]
def Image.read (img : Image) (r c : Int) (k : Fin 3) : Option Nat :=
  if 0 ≤ r ∧ r < img.rows ∧ 0 ≤ c ∧ c < img.cols then some (img.data r c k).val else none

/-- The function `Harris::ConvertRgbToGrayscale` (lines 90-103). -/
def ConvertRgbToGrayscale (img : Image) : Option (Mat ℚ) := do
  let greyscaleImg ← Mat.create img.rows img.cols
  forLoop 0 img.cols (fun c m =>
    forLoop 0 img.rows (fun r m => do
      m.write r c
        (2126 / 10000 * ((← img.read r c 0) : ℚ)
          + 7152 / 10000 * ((← img.read r c 1) : ℚ)
          + 722 / 10000 * ((← img.read r c 2) : ℚ))) m) greyscaleImg

/-- The struct `Derivatives` (declared in `harris.h`, used in lines 106-207). -/
structure Derivatives (α : Type) where
  Ix : Mat ℚ
  Iy : Mat ℚ
  Ixy : Mat ℚ

/-- The body of the third loop nest of `Harris::ComputeDerivatives` (lines 171-173),
acting on the three matrices `Ix`, `Iy`, `Ixy`. -/
def derivativesAt (sobelHelperV sobelHelperH : Mat ℚ) (r c : Int)
    (s : Mat ℚ × Mat ℚ × Mat ℚ) : Option (Mat ℚ × Mat ℚ × Mat ℚ) := do
  let Ix ← s.1.write r c ((← sobelHelperH.read r c) - (← sobelHelperH.read (r + 2) c))
  let Iy ← s.2.1.write r c (-(← sobelHelperV.read r c) + (← sobelHelperV.read r (c + 2)))
  let Ixy ← s.2.2.write r c ((← Ix.read r c) * (← Iy.read r c))
  pure (Ix, Iy, Ixy)

/-- The two helper matrices of `Harris::ComputeDerivatives` (lines 140-162), as the
pair `(sobelHelperV, sobelHelperH)`. -/
def sobelHelpers (greyscaleImg : Mat ℚ) : Option (Mat ℚ × Mat ℚ) := do
  let sobelHelperV ← Mat.create (greyscaleImg.rows - 2) greyscaleImg.cols
  let sobelHelperV ← forLoop 1 (greyscaleImg.rows - 1) (fun r m =>
    forLoop 0 greyscaleImg.cols (fun c m => do
      let a1 ← greyscaleImg.read (r - 1) c
      let a2 ← greyscaleImg.read r c
      let a3 ← greyscaleImg.read (r + 1) c
      m.write (r - 1) c (a1 + a2 + a2 + a3)) m) sobelHelperV
  let sobelHelperH ← Mat.create greyscaleImg.rows (greyscaleImg.cols - 2)
  let sobelHelperH ← forLoop 0 greyscaleImg.rows (fun r m =>
    forLoop 1 (greyscaleImg.cols - 1) (fun c m => do
      let a1 ← greyscaleImg.read r (c - 1)
      let a2 ← greyscaleImg.read r c
      let a3 ← greyscaleImg.read r (c + 1)
      m.write r (c - 1) (a1 + a2 + a2 + a3)) m) sobelHelperH
  pure (sobelHelperV, sobelHelperH)

/-- The function `Harris::ComputeDerivatives` (lines 138-183).  The returned struct
has `Iy` in its third slot (line 180). -/
def ComputeDerivatives (greyscaleImg : Mat ℚ) : Option (Derivatives ℚ) := do
  let helpers ← sobelHelpers greyscaleImg
  let Ix ← Mat.create (greyscaleImg.rows - 2) (greyscaleImg.cols - 2)
  let Iy ← Mat.create (greyscaleImg.rows - 2) (greyscaleImg.cols - 2)
  let Ixy ← Mat.create (greyscaleImg.rows - 2) (greyscaleImg.cols - 2)
  let s ← forLoop 0 (greyscaleImg.rows - 2) (fun r s =>
    forLoop 0 (greyscaleImg.cols - 2) (derivativesAt helpers.1 helpers.2 r) s) (Ix, Iy, Ixy)
  pure { Ix := s.1, Iy := s.2.1, Ixy := s.2.1 }

/-- The function `Harris::GaussFilter` (lines 257-290).  The value of the expression
`1/sqrt(2*M_PI)*exp(-0.5*x*x)` is the parameter `weight x`. -/
def GaussFilter (weight : Int → ℚ) (img : Mat ℚ) (range : Int) : Option (Mat ℚ) := do
  let gaussHelperV ← Mat.create (img.rows - range * 2) (img.cols - range * 2)
  let gaussHelperV ← forLoop range (img.rows - range) (fun r m =>
    forLoop range (img.cols - range) (fun c m => do
      let res ← forLoop (-range) (range + 1) (fun x res => do
        let w := weight x
        pure (res + w * (← img.read (r - range) (c - range)))) (0 : ℚ)
      m.write (r - range) (c - range) res) m) gaussHelperV
  let gauss ← Mat.create (img.rows - range * 2) (img.cols - range * 2)
  forLoop range (img.rows - range) (fun r m =>
    forLoop range (img.cols - range) (fun c m => do
      let res ← forLoop (-range) (range + 1) (fun x res => do
        let w := weight x
        pure (res + w * (← gaussHelperV.read (r - range) (c - range)))) (0 : ℚ)
      m.write (r - range) (c - range) res) m) gauss

/-- The function `Harris::ApplyGaussToDerivatives` (lines 106-117). -/
def ApplyGaussToDerivatives (weight : Int → ℚ) (dMats : Derivatives ℚ) (filterRange : Int) :
    Option (Derivatives ℚ) :=
  if filterRange = 0 then some dMats
  else do
    let Ix ← GaussFilter weight dMats.Ix filterRange
    let Iy ← GaussFilter weight dMats.Iy filterRange
    let Ixy ← GaussFilter weight dMats.Ixy filterRange
    pure { Ix := Ix, Iy := Iy, Ixy := Ixy }

/-- The function `Harris::ApplyMeanToDerivatives` (lines 120-135). -/
def ApplyMeanToDerivatives (dMats : Derivatives ℚ) (filterRange : Int) :
    Option (Derivatives ℚ) :=
  if filterRange = 0 then some dMats
  else do
    let mIx ← ComputeIntegralImg dMats.Ix
    let mIy ← ComputeIntegralImg dMats.Iy
    let mIxy ← ComputeIntegralImg dMats.Ixy
    let Ix ← MeanFilter mIx filterRange
    let Iy ← MeanFilter mIy filterRange
    let Ixy ← MeanFilter mIxy filterRange
    pure { Ix := Ix, Iy := Iy, Ixy := Ixy }

/-- The function `Harris::ComputeHarrisResponses` (lines 186-207). -/
def ComputeHarrisResponses (k : ℚ) (d : Derivatives ℚ) : Option (Mat ℚ) := do
  let M ← Mat.create d.Iy.rows d.Ix.cols
  forLoop 0 d.Iy.rows (fun r m =>
    forLoop 0 d.Iy.cols (fun c m => do
      let a11 := (← d.Ix.read r c) * (← d.Ix.read r c)
      let a22 := (← d.Iy.read r c) * (← d.Iy.read r c)
      let a21 := (← d.Ix.read r c) * (← d.Iy.read r c)
      let a12 := (← d.Ix.read r c) * (← d.Iy.read r c)
      let det := a11 * a22 - a12 * a21
      let trace := a11 + a22
      m.write r c |det - k * trace * trace|) m) M

/-- The constructor `Harris::Harris` (lines 3-20); the result is the member
`harrisResponses`, the only state of the object.  The parameter `weight` is the one
of `GaussFilter`. -/
def Harris (weight : Int → ℚ) (img : Image) (k : ℚ) (filterRange : Int) (gauss : Bool) :
    Option (Mat ℚ) := do
  let greyscaleImg ← ConvertRgbToGrayscale img
  let derivatives ← ComputeDerivatives greyscaleImg
  let mDerivatives ←
    if gauss then ApplyGaussToDerivatives weight derivatives filterRange
    else ApplyMeanToDerivatives derivatives filterRange
  ComputeHarrisResponses k mDerivatives

/-! ## Selection of maxima -/

/-- The class `cv::Point` with `int` coordinates. -/
structure Point where
  x : Int
  y : Int
deriving DecidableEq, Repr

/-- The struct `PointData` (declared in `harris.h`, used in lines 23-87). -/
structure PointData (α : Type) where
  cornerResponse : ℚ
  point : Point

/-- Modelled from the spec: the comparator `CornerResponse` is declared in `harris.h`,
which is not among the sources; the specification has the candidates sorted by
descending score, so `CornerResponse a b` holds when `a` scores strictly more than `b`. -/
def CornerResponse (a b : PointData ℚ) : Bool :=
  decide (b.cornerResponse < a.cornerResponse)

/-- The contract of `std::sort(first, last, comp)` with `comp = CornerResponse()`: the
result is a rearrangement of the input in which no later element compares before an
earlier one.  How ties are ordered is left to the implementation. -/
def IsStdSort (sort : List (PointData ℚ) → List (PointData ℚ)) : Prop :=
  ∀ l, (sort l).Perm l ∧ (sort l).Pairwise (fun a b => CornerResponse b a = false)

/-- One executable sorting function that meets `IsStdSort` (insertion sort). -/
def insertionStdSort (l : List (PointData ℚ)) : List (PointData ℚ) :=
  l.insertionSort (fun a b => b.cornerResponse ≤ a.cornerResponse)

/-- Conversion of a `float` to `int`: the fractional part is discarded. -/
def truncToInt (x : ℚ) : Int :=
  if 0 ≤ x then ⌊x⌋ else ⌈x⌉

/-- The integer nearest to `x`; a tie goes to the even neighbour. -/
def roundHalfEven (x : ℚ) : Int :=
  if x - ⌊x⌋ < 1 / 2 then ⌊x⌋
  else if 1 / 2 < x - ⌊x⌋ then ⌊x⌋ + 1
  else if ⌊x⌋ % 2 = 0 then ⌊x⌋ else ⌊x⌋ + 1

/-- The spacing of the `float` values (IEEE binary32: 24 significant bits, least
exponent `−126`) around `x`: `2^(e − 23)` for `2^e ≤ |x| < 2^(e+1)`, and `2^(−149)` in
the subnormal range. -/
def floatSpacing (x : ℚ) : ℚ :=
  2 ^ (max (Int.log 2 |x|) (-126) - 23)

/-- The `float` nearest to `x` (round to nearest, ties to even), which is the result of
a conversion to `float` and of a `float` operation whose exact result is `x`.  The
exponent is not bounded above: a magnitude of `2^128` or more stays finite here. -/
def toFloat (x : ℚ) : ℚ :=
  roundHalfEven (x / floatSpacing x) * floatSpacing x

/-- Line 45 of `Harris::GetMaximaPoints`,
`int numberTopPoints = harrisResponses.cols * harrisResponses.rows * percentage;`
the `int` product is converted to `float`, multiplied by the `float` `percentage` in
`float` arithmetic, and the product is truncated to an `int`.  The integers are
unbounded: neither the `int` product nor the truncated value is reduced to 32 bits. -/
def numberTopPoints (rows cols : Int) (percentage : ℚ) : Int :=
  truncToInt (toFloat (toFloat ((cols * rows : Int) : ℚ) * percentage))

/-- Conversion of an `int` to the 64-bit unsigned `size_t`, as happens to the right
operand of `topPoints.size() < numberTopPoints`. -/
def toSizeT (n : Int) : Nat :=
  (n % 2 ^ 64).toNat

/-- Lines 28-39 of `Harris::GetMaximaPoints`: one `PointData` per cell, row by row. -/
def allPoints (harrisResponses : Mat ℚ) : Option (List (PointData ℚ)) :=
  forLoop 0 harrisResponses.rows (fun r points =>
    forLoop 0 harrisResponses.cols (fun c points => do
      let d : PointData ℚ := { cornerResponse := (← harrisResponses.read r c), point := ⟨r, c⟩ }
      pure (points ++ [d])) points) []

/-- The assignment `maximaSuppressionMat.at<int>(x, y) = 1` of line 73.  `cv::Mat::at`
checks its indices by a debug assertion only.  With `checked = true` (assertions on) an
out-of-range write aborts the call.  With `checked = false` the write goes to the
address `data + x·step + y·sizeof(int)`, that is to the element at offset
`x·cols + y` of the row-major buffer: a cell of another row when the offset is inside
the buffer, and memory outside the mask, which leaves the mask as it is, otherwise. -/
@[noinline]
def maskWrite (checked : Bool) (m : Mat ℚ) (x y : Int) (v : ℚ) : Option (Mat ℚ) :=
  if m.inBounds x y then m.write x y v
  else if checked then none
  else if 0 ≤ x * m.cols + y ∧ x * m.cols + y < m.rows * m.cols then
    m.write ((x * m.cols + y) / m.cols) ((x * m.cols + y) % m.cols) v
  else some m

/-- Lines 58-75 of `Harris::GetMaximaPoints`: the two loops that mark the neighbourhood
of an accepted point.  The clamped coordinates `sx`, `sy` are computed and not used. -/
def suppress (checked : Bool) (maximaSuppressionMat : Mat ℚ) (p : Point)
    (suppressionRadius : Int) : Option (Mat ℚ) :=
  let supRows := maximaSuppressionMat.rows
  let supCols := maximaSuppressionMat.cols
  forLoop (-suppressionRadius) (suppressionRadius + 1) (fun r m =>
    forLoop (-suppressionRadius) (suppressionRadius + 1) (fun c m =>
      let sx := p.x + c
      let sy := p.y + r
      let sx := if sx > supRows then supRows else sx
      let sx := if sx < 0 then 0 else sx
      let sy := if sy > supCols then supCols else sy
      let sy := if sy < 0 then 0 else sy
      have _unused : Int × Int := (sx, sy)
      maskWrite checked m (p.x + c) (p.y + r) 1) m) maximaSuppressionMat

/-- Lines 48-84 of `Harris::GetMaximaPoints`: the `while` loop.  The list argument is
`points[i..]`, so the empty list is the exit `i == points.size()`. -/
def selectLoop (checked : Bool) (numberTopPoints filterRange suppressionRadius : Int) :
    List (PointData ℚ) → Mat ℚ → List (PointData ℚ) → Option (List (PointData ℚ))
  | [], _, topPoints => some topPoints
  | d :: rest, maximaSuppressionMat, topPoints =>
    if topPoints.length < toSizeT numberTopPoints then do
      if (← maximaSuppressionMat.read d.point.x d.point.y) = 0 then
        let maximaSuppressionMat ← suppress checked maximaSuppressionMat d.point suppressionRadius
        let d : PointData ℚ :=
          { d with point := ⟨d.point.x + (1 + filterRange), d.point.y + (1 + filterRange)⟩ }
        selectLoop checked numberTopPoints filterRange suppressionRadius rest
          maximaSuppressionMat (topPoints ++ [d])
      else
        selectLoop checked numberTopPoints filterRange suppressionRadius rest
          maximaSuppressionMat topPoints
    else some topPoints

/-- The function `Harris::GetMaximaPoints` (lines 23-87), called on an object whose
member is `harrisResponses`; `percentage` is the value of the `float` argument. -/
def GetMaximaPoints (sort : List (PointData ℚ) → List (PointData ℚ))
    (checked : Bool) (harrisResponses : Mat ℚ) (percentage : ℚ)
    (filterRange suppressionRadius : Int) : Option (List (PointData ℚ)) := do
  let maximaSuppressionMat ← Mat.filled harrisResponses.rows harrisResponses.cols (0 : ℚ)
  let points ← allPoints harrisResponses
  let points := sort points
  let numberTopPoints :=
    numberTopPoints harrisResponses.rows harrisResponses.cols percentage
  selectLoop checked numberTopPoints filterRange suppressionRadius points
    maximaSuppressionMat []

/-! ## Reference quantities used in the statements -/

/-- The sum of `f i j` over the rows `0 ≤ i ≤ r` and the columns `0 ≤ j ≤ c`. -/
def prefixSum (f : Int → Int → ℚ) (r c : Int) : ℚ :=
  ∑ i in Finset.range (r.toNat + 1), ∑ j in Finset.range (c.toNat + 1), f i j

/-- The brute-force sum of `f a b` over the rows `r0 ≤ a < r1` and the columns
`c0 ≤ b < c1`. -/
def windowSum (f : Int → Int → ℚ) (r0 r1 c0 c1 : Nat) : ℚ :=
  ∑ a in Finset.Ico r0 r1, ∑ b in Finset.Ico c0 c1, f a b

/-- The Rec.709 luminance `0.2126·ch0 + 0.7152·ch1 + 0.0722·ch2` of pixel `(r,c)`. -/
def luminance (img : Image) (r c : Int) : ℚ :=
  2126 / 10000 * ((img.data r c 0).val : ℚ)
    + 7152 / 10000 * ((img.data r c 1).val : ℚ)
    + 722 / 10000 * ((img.data r c 2).val : ℚ)

/-- The direct `3 × 3` stencil for `Ix` at the window whose top-left corner is `(r,c)`:
top row minus bottom row, with weights `1, 2, 1`. -/
def sobelStencilX (I : Int → Int → ℚ) (r c : Int) : ℚ :=
  (I r c + 2 * I r (c + 1) + I r (c + 2))
    - (I (r + 2) c + 2 * I (r + 2) (c + 1) + I (r + 2) (c + 2))

/-- The direct `3 × 3` stencil for `Iy` at the window whose top-left corner is `(r,c)`:
right column minus left column, with weights `1, 2, 1`. -/
def sobelStencilY (I : Int → Int → ℚ) (r c : Int) : ℚ :=
  (I r (c + 2) + 2 * I (r + 1) (c + 2) + I (r + 2) (c + 2))
    - (I r c + 2 * I (r + 1) c + I (r + 2) c)

/-- The response `|det − k·trace²|` of one pixel with derivatives `ix`, `iy`, where
`a11 = ix²`, `a22 = iy²`, `a12 = a21 = ix·iy`, `det = a11·a22 − a12·a21` and
`trace = a11 + a22`. -/
def harrisScore (k ix iy : ℚ) : ℚ :=
  |(ix * ix) * (iy * iy) - (ix * iy) * (ix * iy) - k * (ix * ix + iy * iy) ^ 2|

/-- The sum of the weights `weight x` over `−n ≤ x ≤ n`. -/
def weightSum (weight : Int → ℚ) (n : Int) : ℚ :=
  ∑ x in Finset.Icc (-n) n, weight x

/-- The value `MeanFilter` stores at `(i,j)` when run with range `n` on the integral
image of `g`. -/
def boxValue (g : Int → Int → ℚ) (n i j : Int) : ℚ :=
  prefixSum g (i + 2 * n) (j + 2 * n) + prefixSum g i j
    - prefixSum g (i + 2 * n) j - prefixSum g i (j + 2 * n)

/-- The derivative buffer `g` after the smoothing step of the constructor. -/
def smoothed (weight : Int → ℚ) (gauss : Bool) (n : Int) (g : Int → Int → ℚ) :
    Int → Int → ℚ :=
  if n = 0 then g
  else if gauss then fun i j => weightSum weight n * (weightSum weight n * g i j)
  else boxValue g n

/-- The candidate `d` with its coordinates converted back to the original image
coordinate system, as lines 78-79 of `Harris::GetMaximaPoints` do. -/
def remap (filterRange : Int) (d : PointData ℚ) : PointData ℚ :=
  { d with point := ⟨d.point.x + (1 + filterRange), d.point.y + (1 + filterRange)⟩ }

/-- The grid position `q` lies in the square of half-width `radius` around `p`. -/
def inSquare (radius : Int) (p q : Point) : Prop :=
  p.x - radius ≤ q.x ∧ q.x ≤ p.x + radius ∧ p.y - radius ≤ q.y ∧ q.y ≤ p.y + radius

instance (radius : Int) (p q : Point) : Decidable (inSquare radius p q) := by
  unfold inSquare; infer_instance

/-- The neighbourhood loops run for the accepted position `p` on a mask with `cols`
columns write the cell `(i,j)` of the mask: for some `−radius ≤ r, c ≤ radius` the
offset `(p.x + c)·cols + (p.y + r)` of the write of line 73 is the offset
`i·cols + j` of the cell. -/
def writesCell (radius cols : Int) (p : Point) (i j : Int) : Prop :=
  ∃ r c : Int, -radius ≤ r ∧ r ≤ radius ∧ -radius ≤ c ∧ c ≤ radius ∧
    (p.x + c) * cols + (p.y + r) = i * cols + j

/-- The Chebyshev distance of two grid positions. -/
def cheb (p q : Point) : Int :=
  max |p.x - q.x| |p.y - q.y|

end Pipeline

end Harris

namespace Harris

/-! # Verified properties -/

/-! ## Loop rules -/

theorem forLoopN_total {σ : Type} (body : Int → σ → Option σ) (Inv : Int → σ → Prop) :
    ∀ (n : Nat) (i : Int) (s : σ), Inv i s →
      (∀ j t, i ≤ j → j < i + n → Inv j t → ∃ t', body j t = some t' ∧ Inv (j + 1) t') →
      ∃ t, forLoopN body n i s = some t ∧ Inv (i + n) t := by
  intro n
  induction n with
  | zero => intro i s h _; exact ⟨s, rfl, by simpa using h⟩
  | succ n ih =>
    intro i s h hstep
    obtain ⟨t', ht', hinv'⟩ := hstep i s le_rfl (by push_cast; omega) h
    obtain ⟨t, ht, hinv⟩ := ih (i + 1) t' hinv'
      (fun j u h1 h2 hu => hstep j u (by omega) (by push_cast; omega) hu)
    refine ⟨t, ?_, ?_⟩
    · simp [forLoopN, ht', ht]
    · have e : i + ((n + 1 : Nat) : Int) = i + 1 + (n : Int) := by push_cast; ring
      rw [e]; exact hinv

/-- Total-correctness rule for `forLoop`: an invariant that every iteration re-establishes
holds at the end, and the loop does not fail. -/
theorem forLoop_total {σ : Type} (lo hi : Int) (body : Int → σ → Option σ)
    (Inv : Int → σ → Prop) (s : σ) (hle : lo ≤ hi) (h0 : Inv lo s)
    (hstep : ∀ j t, lo ≤ j → j < hi → Inv j t → ∃ t', body j t = some t' ∧ Inv (j + 1) t') :
    ∃ t, forLoop lo hi body s = some t ∧ Inv hi t := by
  have hn : lo + ((hi - lo).toNat : Int) = hi := by
    rw [Int.toNat_of_nonneg (by omega)]; ring
  have := forLoopN_total body Inv (hi - lo).toNat lo s h0
    (fun j t h1 h2 ht => hstep j t h1 (by omega) ht)
  rw [hn] at this
  exact this

theorem forLoopN_returns {σ : Type} (body : Int → σ → Option σ) (Inv : Int → σ → Prop) :
    ∀ (n : Nat) (i : Int) (s t : σ), Inv i s →
      (∀ j u u', i ≤ j → j < i + n → Inv j u → body j u = some u' → Inv (j + 1) u') →
      forLoopN body n i s = some t → Inv (i + n) t := by
  intro n
  induction n with
  | zero =>
    intro i s t h _ ht
    simp [forLoopN] at ht
    subst ht
    simpa using h
  | succ n ih =>
    intro i s t h hstep ht
    simp only [forLoopN] at ht
    cases hb : body i s with
    | none => simp [hb] at ht
    | some u =>
      simp only [hb, Option.some_bind] at ht
      have hu := hstep i s u le_rfl (by push_cast; omega) h hb
      have := ih (i + 1) u t hu
        (fun j v v' h1 h2 hv hv' => hstep j v v' (by omega) (by push_cast; omega) hv hv') ht
      have e : i + ((n + 1 : Nat) : Int) = i + 1 + (n : Int) := by push_cast; ring
      rw [e]; exact this

/-- Partial-correctness rule for `forLoop`: if the loop returns, an invariant preserved
by every successful iteration holds at the end. -/
theorem forLoop_returns {σ : Type} (lo hi : Int) (body : Int → σ → Option σ)
    (Inv : Int → σ → Prop) (s t : σ) (hle : lo ≤ hi) (h0 : Inv lo s)
    (hstep : ∀ j u u', lo ≤ j → j < hi → Inv j u → body j u = some u' → Inv (j + 1) u')
    (ht : forLoop lo hi body s = some t) : Inv hi t := by
  have hn : lo + ((hi - lo).toNat : Int) = hi := by
    rw [Int.toNat_of_nonneg (by omega)]; ring
  have := forLoopN_returns body Inv (hi - lo).toNat lo s t h0
    (fun j u u' h1 h2 hu => hstep j u u' h1 (by omega) hu) ht
  rw [hn] at this
  exact this

theorem forLoop_empty {σ : Type} (lo hi : Int) (body : Int → σ → Option σ) (s : σ)
    (h : hi ≤ lo) : forLoop lo hi body s = some s := by
  have : (hi - lo).toNat = 0 := by omega
  simp [forLoop, this, forLoopN]

/-- Total-correctness rule for two nested `for` loops.  `Inv a b s` is the state before
iteration `(a, b)`. -/
theorem forLoop2_total {σ : Type} (a0 a1 b0 b1 : Int) (body : Int → Int → σ → Option σ)
    (Inv : Int → Int → σ → Prop) (s : σ) (ha : a0 ≤ a1) (hb : b0 ≤ b1)
    (h0 : Inv a0 b0 s)
    (hstep : ∀ a b t, a0 ≤ a → a < a1 → b0 ≤ b → b < b1 → Inv a b t →
      ∃ t', body a b t = some t' ∧ Inv a (b + 1) t')
    (hrow : ∀ a t, a0 ≤ a → a < a1 → Inv a b1 t → Inv (a + 1) b0 t) :
    ∃ t, forLoop a0 a1 (fun a u => forLoop b0 b1 (body a) u) s = some t ∧ Inv a1 b0 t := by
  refine forLoop_total a0 a1 _ (fun a t => Inv a b0 t) s ha h0 ?_
  intro a t h1 h2 hinv
  obtain ⟨t', ht', hinv'⟩ := forLoop_total b0 b1 (body a) (fun b u => Inv a b u) t hb hinv
    (fun b u hb1 hb2 hu => hstep a b u h1 h2 hb1 hb2 hu)
  exact ⟨t', ht', hrow a t' h1 h2 hinv'⟩

/-- Partial-correctness rule for two nested `for` loops. -/
theorem forLoop2_returns {σ : Type} (a0 a1 b0 b1 : Int) (body : Int → Int → σ → Option σ)
    (Inv : Int → Int → σ → Prop) (s t : σ) (ha : a0 ≤ a1) (hb : b0 ≤ b1)
    (h0 : Inv a0 b0 s)
    (hstep : ∀ a b u u', a0 ≤ a → a < a1 → b0 ≤ b → b < b1 → Inv a b u →
      body a b u = some u' → Inv a (b + 1) u')
    (hrow : ∀ a u, a0 ≤ a → a < a1 → Inv a b1 u → Inv (a + 1) b0 u)
    (ht : forLoop a0 a1 (fun a u => forLoop b0 b1 (body a) u) s = some t) :
    Inv a1 b0 t := by
  refine forLoop_returns a0 a1 _ (fun a t => Inv a b0 t) s t ha h0 ?_ ht
  intro a u u' h1 h2 hinv hu
  have := forLoop_returns b0 b1 (body a) (fun b v => Inv a b v) u u' hb hinv
    (fun b v v' hb1 hb2 hv hv' => hstep a b v v' h1 h2 hb1 hb2 hv hv') hu
  exact hrow a u' h1 h2 this

end Harris

namespace Harris

/-! ## Matrix accessors -/

theorem Mat.read_of_inBounds {α : Type} (m : Mat α) (r c : Int) (h : m.inBounds r c) :
    m.read r c = m.data r c := by
  simp [Mat.read, h]

theorem Mat.Is.read {α : Type} {m : Mat α} {R C : Int} {g : Int → Int → α} (h : m.Is R C g)
    (r c : Int) (h1 : 0 ≤ r) (h2 : r < R) (h3 : 0 ≤ c) (h4 : c < C) :
    m.read r c = some (g r c) := by
  obtain ⟨hr, hc, hd⟩ := h
  have : m.inBounds r c := ⟨h1, by omega, h3, by omega⟩
  rw [Mat.read_of_inBounds m r c this, hd r c h1 h2 h3 h4]

theorem Mat.Is.congr {α : Type} {m : Mat α} {R C : Int} {g g' : Int → Int → α}
    (h : m.Is R C g) (hg : ∀ r c, 0 ≤ r → r < R → 0 ≤ c → c < C → g r c = g' r c) :
    m.Is R C g' := by
  obtain ⟨hr, hc, hd⟩ := h
  exact ⟨hr, hc, fun r c h1 h2 h3 h4 => by rw [hd r c h1 h2 h3 h4, hg r c h1 h2 h3 h4]⟩

theorem Mat.ofFn_is {α : Type} (R C : Int) (g : Int → Int → α) : (Mat.ofFn R C g).Is R C g :=
  ⟨rfl, rfl, fun _ _ _ _ _ _ => rfl⟩

theorem Mat.read_some_inBounds {α : Type} {m : Mat α} {r c : Int} {v : α}
    (h : m.read r c = some v) : m.inBounds r c ∧ m.data r c = some v := by
  unfold Mat.read at h
  by_cases hb : m.inBounds r c
  · simp [hb] at h; exact ⟨hb, h⟩
  · simp [hb] at h

theorem Mat.write_some {α : Type} {m m' : Mat α} {r c : Int} {v : α}
    (h : m.write r c v = some m') :
    m.inBounds r c ∧ m'.rows = m.rows ∧ m'.cols = m.cols ∧
      ∀ i j, m'.data i j = if i = r ∧ j = c then some v else m.data i j := by
  unfold Mat.write at h
  by_cases hb : m.inBounds r c
  · simp only [hb, if_true, Option.some.injEq] at h
    subst h
    exact ⟨hb, rfl, rfl, fun _ _ => rfl⟩
  · simp [hb] at h

theorem Mat.write_of_inBounds {α : Type} (m : Mat α) (r c : Int) (v : α) (h : m.inBounds r c) :
    ∃ m', m.write r c v = some m' ∧ m'.rows = m.rows ∧ m'.cols = m.cols ∧
      ∀ i j, m'.data i j = if i = r ∧ j = c then some v else m.data i j := by
  exact ⟨{ m with data := fun i j => if i = r ∧ j = c then some v else m.data i j },
    by simp only [Mat.write, h, if_true], rfl, rfl, fun _ _ => rfl⟩

theorem Mat.create_of_nonneg {α : Type} (R C : Int) (hR : 0 ≤ R) (hC : 0 ≤ C) :
    (Mat.create R C : Option (Mat α)) = some ⟨R, C, fun _ _ => none⟩ := by
  simp [Mat.create, hR, hC]

theorem Mat.create_eq_none {α : Type} (R C : Int) (h : R < 0 ∨ C < 0) :
    (Mat.create R C : Option (Mat α)) = none := by
  have : ¬ (0 ≤ R ∧ 0 ≤ C) := by omega
  simp [Mat.create, this]

theorem Mat.read_eq_some {α : Type} (m : Mat α) (r c : Int) (v : α) (hb : m.inBounds r c)
    (hd : m.data r c = some v) : m.read r c = some v := by
  rw [Mat.read_of_inBounds m r c hb, hd]

/-- Sequencing rule for the `Option` monad: if the first computation returns a value
with property `P`, and the continuation maps such values to results with property `Q`,
the composite returns a result with property `Q`. -/
theorem bind_exists {β γ : Type} (P : β → Prop) (Q : γ → Prop) {x : Option β}
    {f : β → Option γ} (hx : ∃ a, x = some a ∧ P a)
    (hf : ∀ a, P a → ∃ b, f a = some b ∧ Q b) : ∃ b, x.bind f = some b ∧ Q b := by
  obtain ⟨a, rfl, ha⟩ := hx
  simpa using hf a ha

/-! ## Loops that fill a matrix cell by cell -/

/-- Two nested loops whose iteration `(a, b)` stores `v a b` in cell `(ρ a b, κ a b)`:
if distinct iterations write distinct cells, every written cell holds its value at the
end and every other cell is untouched.  The body may rely on the cells written by
earlier iterations and on the untouched cells. -/
theorem fill2 (a0 a1 b0 b1 : Int) (body : Int → Int → Mat ℚ → Option (Mat ℚ)) (m0 : Mat ℚ)
    (ρ κ : Int → Int → Int) (v : Int → Int → ℚ) (ha : a0 ≤ a1) (hb : b0 ≤ b1)
    (hin : ∀ a b, a0 ≤ a → a < a1 → b0 ≤ b → b < b1 → m0.inBounds (ρ a b) (κ a b))
    (hinj : ∀ a b a' b', a0 ≤ a → a < a1 → b0 ≤ b → b < b1 → a0 ≤ a' → a' < a1 →
      b0 ≤ b' → b' < b1 → ρ a b = ρ a' b' → κ a b = κ a' b' → a = a' ∧ b = b')
    (hbody : ∀ a b m, a0 ≤ a → a < a1 → b0 ≤ b → b < b1 →
      m.rows = m0.rows → m.cols = m0.cols →
      (∀ a' b', a0 ≤ a' → a' < a1 → b0 ≤ b' → b' < b1 → (a' < a ∨ (a' = a ∧ b' < b)) →
        m.data (ρ a' b') (κ a' b') = some (v a' b')) →
      (∀ i j, (∀ a' b', a0 ≤ a' → a' < a1 → b0 ≤ b' → b' < b1 →
        ¬ (ρ a' b' = i ∧ κ a' b' = j)) → m.data i j = m0.data i j) →
      body a b m = m.write (ρ a b) (κ a b) (v a b)) :
    ∃ m, forLoop a0 a1 (fun a u => forLoop b0 b1 (body a) u) m0 = some m ∧
      m.rows = m0.rows ∧ m.cols = m0.cols ∧
      (∀ a b, a0 ≤ a → a < a1 → b0 ≤ b → b < b1 → m.data (ρ a b) (κ a b) = some (v a b)) ∧
      (∀ i j, (∀ a' b', a0 ≤ a' → a' < a1 → b0 ≤ b' → b' < b1 →
        ¬ (ρ a' b' = i ∧ κ a' b' = j)) → m.data i j = m0.data i j) := by
  obtain ⟨m, hm, h1, h2, h3, h4⟩ := forLoop2_total a0 a1 b0 b1 body
    (fun a b m => m.rows = m0.rows ∧ m.cols = m0.cols ∧
      (∀ a' b', a0 ≤ a' → a' < a1 → b0 ≤ b' → b' < b1 → (a' < a ∨ (a' = a ∧ b' < b)) →
        m.data (ρ a' b') (κ a' b') = some (v a' b')) ∧
      (∀ i j, (∀ a' b', a0 ≤ a' → a' < a1 → b0 ≤ b' → b' < b1 →
        ¬ (ρ a' b' = i ∧ κ a' b' = j)) → m.data i j = m0.data i j))
    m0 ha hb
    ⟨rfl, rfl, fun a' b' h1 _ h3 _ h => by omega, fun _ _ _ => rfl⟩
    (by
      intro a b m h1 h2 h3 h4 ⟨hr, hc, hdone, hframe⟩
      have hib : m.inBounds (ρ a b) (κ a b) := by
        have := hin a b h1 h2 h3 h4
        unfold Mat.inBounds at this ⊢
        rw [hr, hc]; exact this
      obtain ⟨m', hm', hr', hc', hd'⟩ := Mat.write_of_inBounds m (ρ a b) (κ a b) (v a b) hib
      refine ⟨m', ?_, by rw [hr', hr], by rw [hc', hc], ?_, ?_⟩
      · rw [hbody a b m h1 h2 h3 h4 hr hc hdone hframe, hm']
      · intro a' b' g1 g2 g3 g4 hlt
        rw [hd']
        by_cases hab : a' = a ∧ b' = b
        · obtain ⟨rfl, rfl⟩ := hab
          simp
        · have hne : ¬ (ρ a' b' = ρ a b ∧ κ a' b' = κ a b) := by
            rintro ⟨e1, e2⟩
            exact hab (hinj a' b' a b g1 g2 g3 g4 h1 h2 h3 h4 e1 e2)
          rw [if_neg hne]
          apply hdone a' b' g1 g2 g3 g4
          omega
      · intro i j hij
        rw [hd']
        have hne : ¬ (i = ρ a b ∧ j = κ a b) := by
          rintro ⟨e1, e2⟩
          exact hij a b h1 h2 h3 h4 ⟨e1.symm, e2.symm⟩
        rw [if_neg hne]
        exact hframe i j hij)
    (by
      intro a m h1 h2 ⟨hr, hc, hdone, hframe⟩
      refine ⟨hr, hc, ?_, hframe⟩
      intro a' b' g1 g2 g3 g4 hlt
      apply hdone a' b' g1 g2 g3 g4
      omega)
  refine ⟨m, hm, h1, h2, ?_, h4⟩
  intro a b g1 g2 g3 g4
  exact h3 a b g1 g2 g3 g4 (Or.inl g2)

/-- The common case of `fill2`: the loops run over `[a0, a1) × [b0, b1)`, rows outside,
and iteration `(r, c)` writes cell `(r - a0, c - b0)` of an `R × C` matrix with a value
that does not depend on the matrix. -/
theorem fill_rowMajor (a0 a1 b0 b1 : Int) (body : Int → Int → Mat ℚ → Option (Mat ℚ))
    (m0 : Mat ℚ) (R C : Int) (g : Int → Int → ℚ) (ha : a0 ≤ a1) (hb : b0 ≤ b1)
    (hR : m0.rows = R) (hC : m0.cols = C) (hR' : a1 - a0 = R) (hC' : b1 - b0 = C)
    (hbody : ∀ r c m, a0 ≤ r → r < a1 → b0 ≤ c → c < b1 →
      body r c m = m.write (r - a0) (c - b0) (g (r - a0) (c - b0))) :
    ∃ m, forLoop a0 a1 (fun r u => forLoop b0 b1 (body r) u) m0 = some m ∧ m.Is R C g := by
  obtain ⟨m, hm, h1, h2, h3, _⟩ := fill2 a0 a1 b0 b1 body m0
    (fun r _ => r - a0) (fun _ c => c - b0) (fun r c => g (r - a0) (c - b0)) ha hb
    (by intro a b h1 h2 h3 h4; unfold Mat.inBounds; dsimp only; omega)
    (by intro a b a' b' _ _ _ _ _ _ _ _ e1 e2; dsimp only at e1 e2; omega)
    (by intro a b m h1 h2 h3 h4 _ _ _ _; exact hbody a b m h1 h2 h3 h4)
  refine ⟨m, hm, by omega, by omega, ?_⟩
  intro r c g1 g2 g3 g4
  have := h3 (r + a0) (c + b0) (by omega) (by omega) (by omega) (by omega)
  simpa using this

/-- The variant of `fill_rowMajor` with the column loop outside. -/
theorem fill_colMajor (a0 a1 b0 b1 : Int) (body : Int → Int → Mat ℚ → Option (Mat ℚ))
    (m0 : Mat ℚ) (R C : Int) (g : Int → Int → ℚ) (ha : a0 ≤ a1) (hb : b0 ≤ b1)
    (hR : m0.rows = R) (hC : m0.cols = C) (hR' : a1 - a0 = R) (hC' : b1 - b0 = C)
    (hbody : ∀ c r m, a0 ≤ r → r < a1 → b0 ≤ c → c < b1 →
      body c r m = m.write (r - a0) (c - b0) (g (r - a0) (c - b0))) :
    ∃ m, forLoop b0 b1 (fun c u => forLoop a0 a1 (body c) u) m0 = some m ∧ m.Is R C g := by
  obtain ⟨m, hm, h1, h2, h3, _⟩ := fill2 b0 b1 a0 a1 body m0
    (fun _ r => r - a0) (fun c _ => c - b0) (fun c r => g (r - a0) (c - b0)) hb ha
    (by intro a b h1 h2 h3 h4; unfold Mat.inBounds; dsimp only; omega)
    (by intro a b a' b' _ _ _ _ _ _ _ _ e1 e2; dsimp only at e1 e2; omega)
    (by intro a b m h1 h2 h3 h4 _ _ _ _; exact hbody a b m h3 h4 h1 h2)
  refine ⟨m, hm, by omega, by omega, ?_⟩
  intro r c g1 g2 g3 g4
  have := h3 (c + b0) (r + a0) (by omega) (by omega) (by omega) (by omega)
  simpa using this

end Harris

namespace Harris

theorem MeanFilter_spec (S : Mat ℚ) (R C n : Int) (s : Int → Int → ℚ) (hS : S.Is R C s)
    (hn : 0 ≤ n) (hR : 2 * n ≤ R) (hC : 2 * n ≤ C) :
    ∃ out, MeanFilter S n = some out ∧
      out.Is (R - 2 * n) (C - 2 * n)
        (fun i j => s (i + 2 * n) (j + 2 * n) + s i j - s (i + 2 * n) j - s i (j + 2 * n)) := by
  have hr := hS.1
  have hc := hS.2.1
  unfold MeanFilter
  rw [Mat.create_of_nonneg _ _ (by omega) (by omega)]
  simp only [Option.bind_eq_bind, Option.some_bind]
  apply fill_rowMajor
  · omega
  · omega
  · show S.rows - n * 2 = R - 2 * n
    omega
  · show S.cols - n * 2 = C - 2 * n
    omega
  · omega
  · omega
  · intro r c m h1 h2 h3 h4
    rw [hS.read (r + n) (c + n) (by omega) (by omega) (by omega) (by omega),
      hS.read (r - n) (c - n) (by omega) (by omega) (by omega) (by omega),
      hS.read (r + n) (c - n) (by omega) (by omega) (by omega) (by omega),
      hS.read (r - n) (c + n) (by omega) (by omega) (by omega) (by omega)]
    simp only [Option.some_bind]
    have e1 : r - n + 2 * n = r + n := by ring
    have e2 : c - n + 2 * n = c + n := by ring
    rw [e1, e2]

end Harris

namespace Harris

/-! ## The integral image -/

theorem prefixSum_zero_zero (f : Int → Int → ℚ) : prefixSum f 0 0 = f 0 0 := by
  simp [prefixSum]

theorem prefixSum_succ_row (f : Int → Int → ℚ) (r c : Int) (hr : 1 ≤ r) :
    prefixSum f r c = prefixSum f (r - 1) c + ∑ j in Finset.range (c.toNat + 1), f r j := by
  unfold prefixSum
  have e : r.toNat = (r - 1).toNat + 1 := by omega
  have e' : (((r - 1).toNat + 1 : Nat) : Int) = r := by omega
  rw [e, Finset.sum_range_succ, e']

theorem prefixSum_succ_col (f : Int → Int → ℚ) (r c : Int) (hc : 1 ≤ c) :
    prefixSum f r c = prefixSum f r (c - 1) + ∑ i in Finset.range (r.toNat + 1), f i c := by
  unfold prefixSum
  have e : c.toNat = (c - 1).toNat + 1 := by omega
  have e' : (((c - 1).toNat + 1 : Nat) : Int) = c := by omega
  rw [e]
  simp only [Finset.sum_range_succ _ ((c - 1).toNat + 1), Finset.sum_add_distrib, e']

theorem prefixSum_row_zero (f : Int → Int → ℚ) (c : Int) (hc : 1 ≤ c) :
    prefixSum f 0 c = prefixSum f 0 (c - 1) + f 0 c := by
  rw [prefixSum_succ_col f 0 c hc]
  simp

theorem prefixSum_col_zero (f : Int → Int → ℚ) (r : Int) (hr : 1 ≤ r) :
    prefixSum f r 0 = prefixSum f (r - 1) 0 + f r 0 := by
  rw [prefixSum_succ_row f r 0 hr]
  simp

/-- The recurrence of the summed-area table. -/
theorem prefixSum_rec (f : Int → Int → ℚ) (r c : Int) (hr : 1 ≤ r) (hc : 1 ≤ c) :
    prefixSum f r c =
      f r c + prefixSum f (r - 1) c + prefixSum f r (c - 1) - prefixSum f (r - 1) (c - 1) := by
  have h1 := prefixSum_succ_row f r c hr
  have h2 := prefixSum_succ_row f r (c - 1) hr
  have e : c.toNat = (c - 1).toNat + 1 := by omega
  have e' : (((c - 1).toNat + 1 : Nat) : Int) = c := by omega
  rw [e, Finset.sum_range_succ, e'] at h1
  linarith

theorem ComputeIntegralImg_spec (img : Mat ℚ) (R C : Int) (f : Int → Int → ℚ)
    (hI : img.Is R C f) (hR : 0 < R) (hC : 0 < C) :
    ∃ S, ComputeIntegralImg img = some S ∧ S.Is R C (prefixSum f) := by
  have hr := hI.1
  have hc := hI.2.1
  unfold ComputeIntegralImg
  rw [hr, hc, Mat.create_of_nonneg _ _ (by omega) (by omega),
    hI.read 0 0 (by omega) (by omega) (by omega) (by omega)]
  simp only [Option.bind_eq_bind, Option.some_bind]
  obtain ⟨m1, hm1, hr1, hc1, hd1⟩ := Mat.write_of_inBounds
    (⟨R, C, fun _ _ => none⟩ : Mat ℚ) 0 0 (f 0 0) (by unfold Mat.inBounds; simp; omega)
  rw [hm1]
  simp only [Option.some_bind]
  -- first row
  refine bind_exists (fun m : Mat ℚ => m.rows = R ∧ m.cols = C ∧
      ∀ j, 0 ≤ j → j < C → m.data 0 j = some (prefixSum f 0 j)) _ ?_ ?_
  · refine forLoop_total 1 C _ (fun i (m : Mat ℚ) => m.rows = R ∧ m.cols = C ∧
      ∀ j, 0 ≤ j → j < i → m.data 0 j = some (prefixSum f 0 j)) m1 (by omega) ?_ ?_
    · refine ⟨hr1, hc1, ?_⟩
      intro j h1 h2
      have : j = 0 := by omega
      subst this
      rw [hd1, prefixSum_zero_zero]; simp
    · intro i m h1 h2 ⟨hmr, hmc, hdone⟩
      rw [Mat.read_eq_some m 0 (i - 1) _ (by unfold Mat.inBounds; omega)
          (hdone (i - 1) (by omega) (by omega)),
        hI.read 0 i (by omega) (by omega) (by omega) (by omega)]
      simp only [Option.bind_eq_bind, Option.some_bind]
      obtain ⟨m', hm', hr', hc', hd'⟩ := Mat.write_of_inBounds m 0 i
        (prefixSum f 0 (i - 1) + f 0 i) (by unfold Mat.inBounds; omega)
      refine ⟨m', hm', by omega, by omega, ?_⟩
      intro j g1 g2
      rw [hd']
      by_cases hj : j = i
      · subst hj
        simp [prefixSum_row_zero f j (by omega)]
      · rw [if_neg (by omega)]
        exact hdone j g1 (by omega)
  intro m2 ⟨hr2, hc2, hrow⟩
  -- first column
  refine bind_exists (fun m : Mat ℚ => m.rows = R ∧ m.cols = C ∧
      (∀ j, 0 ≤ j → j < C → m.data 0 j = some (prefixSum f 0 j)) ∧
      ∀ i, 0 ≤ i → i < R → m.data i 0 = some (prefixSum f i 0)) _ ?_ ?_
  · refine forLoop_total 1 R _ (fun j (m : Mat ℚ) => m.rows = R ∧ m.cols = C ∧
      (∀ j, 0 ≤ j → j < C → m.data 0 j = some (prefixSum f 0 j)) ∧
      ∀ i, 0 ≤ i → i < j → m.data i 0 = some (prefixSum f i 0)) m2 (by omega) ?_ ?_
    · refine ⟨hr2, hc2, hrow, ?_⟩
      intro i h1 h2
      have : i = 0 := by omega
      subst this
      exact hrow 0 (by omega) hC
    · intro j m h1 h2 ⟨hmr, hmc, hrow', hdone⟩
      rw [Mat.read_eq_some m (j - 1) 0 _ (by unfold Mat.inBounds; omega)
          (hdone (j - 1) (by omega) (by omega)),
        hI.read j 0 (by omega) (by omega) (by omega) (by omega)]
      simp only [Option.bind_eq_bind, Option.some_bind]
      obtain ⟨m', hm', hr', hc', hd'⟩ := Mat.write_of_inBounds m j 0
        (prefixSum f (j - 1) 0 + f j 0) (by unfold Mat.inBounds; omega)
      refine ⟨m', hm', by omega, by omega, ?_, ?_⟩
      · intro c g1 g2
        rw [hd', if_neg (by omega)]
        exact hrow' c g1 g2
      · intro i g1 g2
        rw [hd']
        by_cases hi : i = j
        · subst hi
          simp [prefixSum_col_zero f i (by omega)]
        · rw [if_neg (by omega)]
          exact hdone i g1 (by omega)
  intro m3 ⟨hr3, hc3, hrow3, hcol3⟩
  -- the remaining cells
  obtain ⟨S, hS, hSr, hSc, hdone, hframe⟩ := fill2 1 C 1 R
    (fun i j (m : Mat ℚ) => do
      m.write j i ((← img.read j i) + (← m.read (j - 1) i) + (← m.read j (i - 1))
        - (← m.read (j - 1) (i - 1)))) m3
    (fun _ j => j) (fun i _ => i) (fun i j => prefixSum f j i) (by omega) (by omega)
    (by intro a b h1 h2 h3 h4; unfold Mat.inBounds; dsimp only; omega)
    (by intro a b a' b' _ _ _ _ _ _ _ _ e1 e2; dsimp only at e1 e2; omega)
    (by
      intro i j m h1 h2 h3 h4 hmr hmc hdone hframe
      have rd : ∀ r c, 0 ≤ r → r < R → 0 ≤ c → c < C → (r < j ∧ c ≤ i ∨ c < i) →
          m.read r c = some (prefixSum f r c) := by
        intro r c g1 g2 g3 g4 hlt
        apply Mat.read_eq_some m r c _ (by unfold Mat.inBounds; omega)
        by_cases hz : 1 ≤ r ∧ 1 ≤ c
        · exact hdone c r (by omega) (by omega) (by omega) (by omega) (by omega)
        · rw [hframe r c (by intro a' b' _ _ _ _; dsimp only; omega)]
          by_cases hr0 : r = 0
          · subst hr0; exact hrow3 c g3 g4
          · have : c = 0 := by omega
            subst this; exact hcol3 r g1 g2
      dsimp only
      rw [hI.read j i (by omega) (by omega) (by omega) (by omega),
        rd (j - 1) i (by omega) (by omega) (by omega) (by omega) (by omega),
        rd j (i - 1) (by omega) (by omega) (by omega) (by omega) (by omega),
        rd (j - 1) (i - 1) (by omega) (by omega) (by omega) (by omega) (by omega)]
      simp only [Option.bind_eq_bind, Option.some_bind]
      rw [prefixSum_rec f j i (by omega) (by omega)])
  refine ⟨S, hS, by omega, by omega, ?_⟩
  intro r c g1 g2 g3 g4
  by_cases hz : 1 ≤ r ∧ 1 ≤ c
  · exact hdone c r (by omega) (by omega) (by omega) (by omega)
  · rw [hframe r c (by intro a' b' _ _ _ _; omega)]
    by_cases hr0 : r = 0
    · subst hr0; exact hrow3 c g3 g4
    · have : c = 0 := by omega
      subst this; exact hcol3 r g1 g2

end Harris

namespace Harris

/-! ## The box-sum filter -/

theorem prefixSum_natCast (f : Int → Int → ℚ) (r c : Nat) :
    prefixSum f r c = ∑ a in Finset.range (r + 1), ∑ b in Finset.range (c + 1), f a b := by
  simp [prefixSum]

/-- Inclusion and exclusion over four prefix sums gives the sum over the rows
`i < a ≤ i + m` and the columns `j < b ≤ j + m`. -/
theorem prefixSum_window (f : Int → Int → ℚ) (i j m : Nat) :
    prefixSum f ((i + m : Nat) : Int) ((j + m : Nat) : Int) + prefixSum f i j
        - prefixSum f ((i + m : Nat) : Int) j - prefixSum f i ((j + m : Nat) : Int)
      = windowSum f (i + 1) (i + m + 1) (j + 1) (j + m + 1) := by
  simp only [prefixSum_natCast, windowSum]
  rw [Finset.sum_Ico_eq_sub _ (by omega : i + 1 ≤ i + m + 1)]
  simp only [Finset.sum_Ico_eq_sub _ (by omega : j + 1 ≤ j + m + 1), Finset.sum_sub_distrib]
  ring

/-- What `MeanFilter` computes from the integral image of an `H × W` buffer `f`. -/
theorem boxFilter_window (img : Mat ℚ) (H W n : Nat) (f : Int → Int → ℚ)
    (hI : img.Is H W f) (hH : 2 * n < H) (hW : 2 * n < W) :
    ∃ S out, ComputeIntegralImg img = some S ∧ MeanFilter S n = some out ∧
      out.rows = (H : Int) - 2 * n ∧ out.cols = (W : Int) - 2 * n ∧
      ∀ i j : Nat, i + 2 * n < H → j + 2 * n < W →
        out.read i j = some (windowSum f (i + 1) (i + 2 * n + 1) (j + 1) (j + 2 * n + 1)) := by
  obtain ⟨S, hS, hSis⟩ := ComputeIntegralImg_spec img H W f hI (by omega) (by omega)
  obtain ⟨out, hout, houtis⟩ := MeanFilter_spec S H W n (prefixSum f) hSis (by omega)
    (by omega) (by omega)
  refine ⟨S, out, hS, hout, houtis.1, houtis.2.1, ?_⟩
  intro i j hi hj
  rw [houtis.read i j (by omega) (by omega) (by omega) (by omega)]
  have := prefixSum_window f i j (2 * n)
  push_cast at this
  rw [← this]

end Harris

namespace Harris

/-! ## Grayscale conversion and derivatives -/

theorem Image.read_channel_of_inBounds (img : Image) (r c : Int) (k : Fin 3) (h1 : 0 ≤ r)
    (h2 : r < img.rows) (h3 : 0 ≤ c) (h4 : c < img.cols) :
    img.read r c k = some (img.data r c k).val := by
  simp [Image.read, h1, h2, h3, h4]

theorem ConvertRgbToGrayscale_spec (img : Image) (hR : 0 ≤ img.rows) (hC : 0 ≤ img.cols) :
    ∃ g, ConvertRgbToGrayscale img = some g ∧ g.Is img.rows img.cols (luminance img) := by
  unfold ConvertRgbToGrayscale
  rw [Mat.create_of_nonneg _ _ hR hC]
  simp only [Option.bind_eq_bind, Option.some_bind]
  apply fill_colMajor
  · exact hR
  · exact hC
  · rfl
  · rfl
  · omega
  · omega
  · intro c r m h1 h2 h3 h4
    rw [Image.read_channel_of_inBounds img r c 0 h1 h2 h3 h4,
      Image.read_channel_of_inBounds img r c 1 h1 h2 h3 h4,
      Image.read_channel_of_inBounds img r c 2 h1 h2 h3 h4]
    simp only [Option.some_bind, sub_zero, luminance]

theorem sobelHelpers_spec (grey : Mat ℚ) (R C : Int) (I : Int → Int → ℚ)
    (hG : grey.Is R C I) (hR : 2 ≤ R) (hC : 2 ≤ C) :
    ∃ p, sobelHelpers grey = some p ∧
      p.1.Is (R - 2) C (fun r c => I r c + I (r + 1) c + I (r + 1) c + I (r + 2) c) ∧
      p.2.Is R (C - 2) (fun r c => I r c + I r (c + 1) + I r (c + 1) + I r (c + 2)) := by
  have hr := hG.1
  have hc := hG.2.1
  unfold sobelHelpers
  rw [hr, hc, Mat.create_of_nonneg _ _ (by omega) (by omega),
    Mat.create_of_nonneg _ _ (by omega) (by omega)]
  simp only [Option.bind_eq_bind, Option.some_bind]
  refine bind_exists (fun V : Mat ℚ =>
    V.Is (R - 2) C (fun r c => I r c + I (r + 1) c + I (r + 1) c + I (r + 2) c)) _ ?_ ?_
  · apply fill_rowMajor
    · omega
    · exact (by omega : (0 : Int) ≤ C)
    · rfl
    · rfl
    · omega
    · omega
    · intro r c m h1 h2 h3 h4
      rw [hG.read (r - 1) c (by omega) (by omega) (by omega) (by omega),
        hG.read r c (by omega) (by omega) (by omega) (by omega),
        hG.read (r + 1) c (by omega) (by omega) (by omega) (by omega)]
      simp only [Option.some_bind, sub_zero]
      have e1 : r - 1 + 1 = r := by ring
      have e2 : r - 1 + 2 = r + 1 := by ring
      rw [e1, e2]
  intro V hV
  refine bind_exists (fun H : Mat ℚ =>
    H.Is R (C - 2) (fun r c => I r c + I r (c + 1) + I r (c + 1) + I r (c + 2))) _ ?_ ?_
  · apply fill_rowMajor
    · exact (by omega : (0 : Int) ≤ R)
    · omega
    · rfl
    · rfl
    · omega
    · omega
    · intro r c m h1 h2 h3 h4
      rw [hG.read r (c - 1) (by omega) (by omega) (by omega) (by omega),
        hG.read r c (by omega) (by omega) (by omega) (by omega),
        hG.read r (c + 1) (by omega) (by omega) (by omega) (by omega)]
      simp only [Option.some_bind, sub_zero]
      have e1 : c - 1 + 1 = c := by ring
      have e2 : c - 1 + 2 = c + 1 := by ring
      rw [e1, e2]
  intro H hH
  exact ⟨(V, H), rfl, hV, hH⟩

end Harris

namespace Harris

theorem derivativesAt_spec (V H : Mat ℚ) (R C : Int) (v h : Int → Int → ℚ)
    (hV : V.Is (R - 2) C v) (hH : H.Is R (C - 2) h) (r c : Int) (s : Mat ℚ × Mat ℚ × Mat ℚ)
    (h1 : 0 ≤ r) (h2 : r < R - 2) (h3 : 0 ≤ c) (h4 : c < C - 2)
    (d1 : s.1.rows = R - 2 ∧ s.1.cols = C - 2) (d2 : s.2.1.rows = R - 2 ∧ s.2.1.cols = C - 2)
    (d3 : s.2.2.rows = R - 2 ∧ s.2.2.cols = C - 2) :
    ∃ t, derivativesAt V H r c s = some t ∧
      (t.1.rows = R - 2 ∧ t.1.cols = C - 2) ∧ (t.2.1.rows = R - 2 ∧ t.2.1.cols = C - 2) ∧
      (t.2.2.rows = R - 2 ∧ t.2.2.cols = C - 2) ∧
      (∀ i j, t.1.data i j
        = if i = r ∧ j = c then some (h r c - h (r + 2) c) else s.1.data i j) ∧
      (∀ i j, t.2.1.data i j
        = if i = r ∧ j = c then some (-(v r c) + v r (c + 2)) else s.2.1.data i j) := by
  unfold derivativesAt
  rw [hH.read r c (by omega) (by omega) (by omega) (by omega),
    hH.read (r + 2) c (by omega) (by omega) (by omega) (by omega),
    hV.read r c (by omega) (by omega) (by omega) (by omega),
    hV.read r (c + 2) (by omega) (by omega) (by omega) (by omega)]
  simp only [Option.bind_eq_bind, Option.some_bind]
  obtain ⟨ix, hix, hixr, hixc, hixd⟩ := Mat.write_of_inBounds s.1 r c (h r c - h (r + 2) c)
    (by unfold Mat.inBounds; omega)
  obtain ⟨iy, hiy, hiyr, hiyc, hiyd⟩ := Mat.write_of_inBounds s.2.1 r c
    (-(v r c) + v r (c + 2)) (by unfold Mat.inBounds; omega)
  rw [hix, hiy]
  simp only [Option.some_bind]
  rw [Mat.read_eq_some ix r c (h r c - h (r + 2) c) (by unfold Mat.inBounds; omega)
      (by rw [hixd]; simp),
    Mat.read_eq_some iy r c (-(v r c) + v r (c + 2)) (by unfold Mat.inBounds; omega)
      (by rw [hiyd]; simp)]
  simp only [Option.some_bind]
  obtain ⟨ixy, hixy, hixyr, hixyc, _⟩ := Mat.write_of_inBounds s.2.2 r c
    ((h r c - h (r + 2) c) * (-(v r c) + v r (c + 2))) (by unfold Mat.inBounds; omega)
  rw [hixy]
  refine ⟨(ix, iy, ixy), rfl, ⟨?_, ?_⟩, ⟨?_, ?_⟩, ⟨?_, ?_⟩, hixd, hiyd⟩ <;> dsimp only <;> omega

theorem ComputeDerivatives_spec (grey : Mat ℚ) (R C : Int) (I : Int → Int → ℚ)
    (hG : grey.Is R C I) (hR : 2 ≤ R) (hC : 2 ≤ C) :
    ∃ d, ComputeDerivatives grey = some d ∧
      d.Ix.Is (R - 2) (C - 2) (sobelStencilX I) ∧
      d.Iy.Is (R - 2) (C - 2) (sobelStencilY I) ∧ d.Ixy = d.Iy := by
  obtain ⟨p, hp, hV, hH⟩ := sobelHelpers_spec grey R C I hG hR hC
  have hr := hG.1
  have hc := hG.2.1
  unfold ComputeDerivatives
  rw [hp, hr, hc, Mat.create_of_nonneg _ _ (by omega) (by omega)]
  simp only [Option.bind_eq_bind, Option.some_bind]
  refine bind_exists (fun s : Mat ℚ × Mat ℚ × Mat ℚ =>
    s.1.Is (R - 2) (C - 2) (sobelStencilX I) ∧ s.2.1.Is (R - 2) (C - 2) (sobelStencilY I))
    _ ?_ ?_
  · obtain ⟨t, ht, e1, e2, e3, hd⟩ := forLoop2_total 0 (R - 2) 0 (C - 2)
      (derivativesAt p.1 p.2)
      (fun a b (s : Mat ℚ × Mat ℚ × Mat ℚ) =>
        (s.1.rows = R - 2 ∧ s.1.cols = C - 2) ∧ (s.2.1.rows = R - 2 ∧ s.2.1.cols = C - 2) ∧
        (s.2.2.rows = R - 2 ∧ s.2.2.cols = C - 2) ∧
        ∀ i j, 0 ≤ i → i < R - 2 → 0 ≤ j → j < C - 2 → (i < a ∨ (i = a ∧ j < b)) →
          s.1.data i j = some (sobelStencilX I i j) ∧
          s.2.1.data i j = some (sobelStencilY I i j))
      (⟨R - 2, C - 2, fun _ _ => none⟩, ⟨R - 2, C - 2, fun _ _ => none⟩,
        ⟨R - 2, C - 2, fun _ _ => none⟩) (by omega) (by omega)
      ⟨⟨rfl, rfl⟩, ⟨rfl, rfl⟩, ⟨rfl, rfl⟩, fun i j g1 _ g3 _ h => by omega⟩
      (by
        intro a b s h1 h2 h3 h4 ⟨d1, d2, d3, hdone⟩
        obtain ⟨t, ht, e1, e2, e3, hx, hy⟩ :=
          derivativesAt_spec p.1 p.2 R C _ _ hV hH a b s h1 h2 h3 h4 d1 d2 d3
        refine ⟨t, ht, e1, e2, e3, ?_⟩
        intro i j g1 g2 g3 g4 hlt
        rw [hx, hy]
        by_cases hij : i = a ∧ j = b
        · obtain ⟨rfl, rfl⟩ := hij
          simp only [and_self, if_true, sobelStencilX, sobelStencilY, Option.some.injEq]
          constructor <;> ring
        · rw [if_neg hij, if_neg hij]
          exact hdone i j g1 g2 g3 g4 (by omega))
      (by
        intro a s h1 h2 ⟨d1, d2, d3, hdone⟩
        refine ⟨d1, d2, d3, ?_⟩
        intro i j g1 g2 g3 g4 hlt
        exact hdone i j g1 g2 g3 g4 (by omega))
    refine ⟨t, ht, ⟨e1.1, e1.2, ?_⟩, ⟨e2.1, e2.2, ?_⟩⟩
    · intro i j g1 g2 g3 g4
      exact (hd i j g1 g2 g3 g4 (Or.inl g2)).1
    · intro i j g1 g2 g3 g4
      exact (hd i j g1 g2 g3 g4 (Or.inl g2)).2
  intro s ⟨hx, hy⟩
  exact ⟨_, rfl, hx, hy, rfl⟩

end Harris

namespace Harris

/-! ## Response and Gaussian smoothing -/

theorem ComputeHarrisResponses_spec (k : ℚ) (d : Derivatives ℚ) (R C : Int)
    (gx gy : Int → Int → ℚ) (hx : d.Ix.Is R C gx) (hy : d.Iy.Is R C gy)
    (hR : 0 ≤ R) (hC : 0 ≤ C) :
    ∃ M, ComputeHarrisResponses k d = some M ∧
      M.Is R C (fun r c => harrisScore k (gx r c) (gy r c)) := by
  unfold ComputeHarrisResponses
  rw [hy.1, hx.2.1, hy.2.1, Mat.create_of_nonneg _ _ hR hC]
  simp only [Option.bind_eq_bind, Option.some_bind]
  apply fill_rowMajor
  · exact hR
  · exact hC
  · rfl
  · rfl
  · omega
  · omega
  · intro r c m h1 h2 h3 h4
    rw [hx.read r c h1 h2 h3 h4, hy.read r c h1 h2 h3 h4]
    simp only [Option.some_bind, sub_zero, harrisScore]
    congr 2
    ring

theorem Ico_int_succ (a x : Int) (h : a ≤ x) :
    Finset.Ico a (x + 1) = insert x (Finset.Ico a x) := by
  ext t
  simp only [Finset.mem_Ico, Finset.mem_insert]
  omega

/-- The accumulation loop of `GaussFilter` on a fixed sample `s`: the result is the sum
of the weights times `s`. -/
theorem gaussAccumulate (weight : Int → ℚ) (n : Int) (s : ℚ) (hn : 0 ≤ n) :
    forLoop (-n) (n + 1) (fun x res => some (res + weight x * s)) (0 : ℚ)
      = some (weightSum weight n * s) := by
  obtain ⟨t, ht, hinv⟩ := forLoop_total (-n) (n + 1)
    (fun x res => some (res + weight x * s))
    (fun x res => res = (∑ y in Finset.Ico (-n) x, weight y) * s) (0 : ℚ) (by omega)
    (by simp)
    (by
      intro x res h1 h2 hres
      refine ⟨_, rfl, ?_⟩
      show res + weight x * s = (∑ y in Finset.Ico (-n) (x + 1), weight y) * s
      rw [Ico_int_succ (-n) x h1, Finset.sum_insert (by simp), hres]
      ring)
  rw [ht, hinv]
  have : Finset.Ico (-n) (n + 1) = Finset.Icc (-n) n := by
    ext t
    simp only [Finset.mem_Ico, Finset.mem_Icc]
    omega
  rw [this, weightSum]

theorem GaussFilter_spec (weight : Int → ℚ) (img : Mat ℚ) (R C n : Int) (f : Int → Int → ℚ)
    (hI : img.Is R C f) (hn : 0 ≤ n) (hR : 2 * n ≤ R) (hC : 2 * n ≤ C) :
    ∃ out, GaussFilter weight img n = some out ∧
      out.Is (R - 2 * n) (C - 2 * n)
        (fun i j => weightSum weight n * (weightSum weight n * f i j)) := by
  have hr := hI.1
  have hc := hI.2.1
  unfold GaussFilter
  rw [hr, hc, Mat.create_of_nonneg _ _ (by omega) (by omega)]
  simp only [Option.bind_eq_bind, Option.some_bind]
  refine bind_exists (fun V : Mat ℚ =>
    V.Is (R - 2 * n) (C - 2 * n) (fun i j => weightSum weight n * f i j)) _ ?_ ?_
  · apply fill_rowMajor
    · omega
    · omega
    · show R - n * 2 = R - 2 * n
      omega
    · show C - n * 2 = C - 2 * n
      omega
    · omega
    · omega
    · intro r c m h1 h2 h3 h4
      simp only [hI.read (r - n) (c - n) (by omega) (by omega) (by omega) (by omega),
        Option.some_bind, Option.pure_def, gaussAccumulate weight n _ hn]
  intro V hV
  apply fill_rowMajor
  · omega
  · omega
  · show R - n * 2 = R - 2 * n
    omega
  · show C - n * 2 = C - 2 * n
    omega
  · omega
  · omega
  · intro r c m h1 h2 h3 h4
    simp only [hV.read (r - n) (c - n) (by omega) (by omega) (by omega) (by omega),
      Option.some_bind, Option.pure_def, gaussAccumulate weight n _ hn]

end Harris

namespace Harris

/-! ## The smoothing step and the constructor -/

theorem ApplyMeanToDerivatives_spec (weight : Int → ℚ) (d : Derivatives ℚ) (R C n : Int)
    (gx gy gxy : Int → Int → ℚ) (hx : d.Ix.Is R C gx) (hy : d.Iy.Is R C gy)
    (hxy : d.Ixy.Is R C gxy) (hn : 0 ≤ n) (hR : 2 * n ≤ R) (hC : 2 * n ≤ C) :
    ∃ md, ApplyMeanToDerivatives d n = some md ∧
      md.Ix.Is (R - 2 * n) (C - 2 * n) (smoothed weight false n gx) ∧
      md.Iy.Is (R - 2 * n) (C - 2 * n) (smoothed weight false n gy) ∧
      md.Ixy.Is (R - 2 * n) (C - 2 * n) (smoothed weight false n gxy) := by
  unfold ApplyMeanToDerivatives
  by_cases h0 : n = 0
  · subst h0
    simp only [if_true, smoothed]
    refine ⟨d, rfl, ?_, ?_, ?_⟩ <;> simpa
  · rw [if_neg h0]
    obtain ⟨sx, hsx, hsxis⟩ := ComputeIntegralImg_spec d.Ix R C gx hx (by omega) (by omega)
    obtain ⟨sy, hsy, hsyis⟩ := ComputeIntegralImg_spec d.Iy R C gy hy (by omega) (by omega)
    obtain ⟨sxy, hsxy, hsxyis⟩ :=
      ComputeIntegralImg_spec d.Ixy R C gxy hxy (by omega) (by omega)
    obtain ⟨ox, hox, hoxis⟩ := MeanFilter_spec sx R C n _ hsxis hn hR hC
    obtain ⟨oy, hoy, hoyis⟩ := MeanFilter_spec sy R C n _ hsyis hn hR hC
    obtain ⟨oxy, hoxy, hoxyis⟩ := MeanFilter_spec sxy R C n _ hsxyis hn hR hC
    simp only [hsx, hsy, hsxy, hox, hoy, hoxy, Option.bind_eq_bind, Option.some_bind,
      Option.pure_def]
    refine ⟨_, rfl, ?_, ?_, ?_⟩
    · simpa only [smoothed, if_neg h0, Bool.false_eq_true, if_false] using hoxis
    · simpa only [smoothed, if_neg h0, Bool.false_eq_true, if_false] using hoyis
    · simpa only [smoothed, if_neg h0, Bool.false_eq_true, if_false] using hoxyis

theorem ApplyGaussToDerivatives_spec (weight : Int → ℚ) (d : Derivatives ℚ) (R C n : Int)
    (gx gy gxy : Int → Int → ℚ) (hx : d.Ix.Is R C gx) (hy : d.Iy.Is R C gy)
    (hxy : d.Ixy.Is R C gxy) (hn : 0 ≤ n) (hR : 2 * n ≤ R) (hC : 2 * n ≤ C) :
    ∃ md, ApplyGaussToDerivatives weight d n = some md ∧
      md.Ix.Is (R - 2 * n) (C - 2 * n) (smoothed weight true n gx) ∧
      md.Iy.Is (R - 2 * n) (C - 2 * n) (smoothed weight true n gy) ∧
      md.Ixy.Is (R - 2 * n) (C - 2 * n) (smoothed weight true n gxy) := by
  unfold ApplyGaussToDerivatives
  by_cases h0 : n = 0
  · subst h0
    simp only [if_true, smoothed]
    refine ⟨d, rfl, ?_, ?_, ?_⟩ <;> simpa
  · rw [if_neg h0]
    obtain ⟨ox, hox, hoxis⟩ := GaussFilter_spec weight d.Ix R C n gx hx hn hR hC
    obtain ⟨oy, hoy, hoyis⟩ := GaussFilter_spec weight d.Iy R C n gy hy hn hR hC
    obtain ⟨oxy, hoxy, hoxyis⟩ := GaussFilter_spec weight d.Ixy R C n gxy hxy hn hR hC
    simp only [hox, hoy, hoxy, Option.bind_eq_bind, Option.some_bind, Option.pure_def]
    refine ⟨_, rfl, ?_, ?_, ?_⟩
    · simpa only [smoothed, if_neg h0, if_true] using hoxis
    · simpa only [smoothed, if_neg h0, if_true] using hoyis
    · simpa only [smoothed, if_neg h0, if_true] using hoxyis

/-- The stages (2) to (4) of the constructor on a grayscale buffer that is large enough
for the filter range: every stage returns, and the buffers hold the values of the
reference quantities. -/
theorem stages_spec (weight : Int → ℚ) (grey : Mat ℚ) (R C : Int) (I : Int → Int → ℚ)
    (hG : grey.Is R C I) (k : ℚ) (n : Int) (gauss : Bool)
    (hn : 0 ≤ n) (hR : 0 ≤ R - 2 - 2 * n) (hC : 0 ≤ C - 2 - 2 * n) :
    ∃ d md M, ComputeDerivatives grey = some d ∧
      (if gauss then ApplyGaussToDerivatives weight d n else ApplyMeanToDerivatives d n)
        = some md ∧
      ComputeHarrisResponses k md = some M ∧
      d.Ix.Is (R - 2) (C - 2) (sobelStencilX I) ∧
      d.Iy.Is (R - 2) (C - 2) (sobelStencilY I) ∧
      d.Ixy = d.Iy ∧
      md.Ix.Is (R - 2 - 2 * n) (C - 2 - 2 * n) (smoothed weight gauss n (sobelStencilX I)) ∧
      md.Iy.Is (R - 2 - 2 * n) (C - 2 - 2 * n) (smoothed weight gauss n (sobelStencilY I)) ∧
      md.Ixy.Is (R - 2 - 2 * n) (C - 2 - 2 * n) (smoothed weight gauss n (sobelStencilY I)) ∧
      M.Is (R - 2 - 2 * n) (C - 2 - 2 * n)
        (fun r c => harrisScore k
          (smoothed weight gauss n (sobelStencilX I) r c)
          (smoothed weight gauss n (sobelStencilY I) r c)) := by
  obtain ⟨d, hd, hdx, hdy, hdxy⟩ := ComputeDerivatives_spec grey R C _ hG
    (by omega) (by omega)
  have hdxy' : d.Ixy.Is (R - 2) (C - 2) (sobelStencilY I) := by
    rw [hdxy]; exact hdy
  have hsm : ∃ md,
      (if gauss then ApplyGaussToDerivatives weight d n else ApplyMeanToDerivatives d n)
        = some md ∧
      md.Ix.Is (R - 2 - 2 * n) (C - 2 - 2 * n) (smoothed weight gauss n (sobelStencilX I)) ∧
      md.Iy.Is (R - 2 - 2 * n) (C - 2 - 2 * n) (smoothed weight gauss n (sobelStencilY I)) ∧
      md.Ixy.Is (R - 2 - 2 * n) (C - 2 - 2 * n)
        (smoothed weight gauss n (sobelStencilY I)) := by
    cases gauss with
    | true =>
      simpa using ApplyGaussToDerivatives_spec weight d _ _ n _ _ _ hdx hdy hdxy' hn
        (by omega) (by omega)
    | false =>
      simpa using ApplyMeanToDerivatives_spec weight d _ _ n _ _ _ hdx hdy hdxy' hn
        (by omega) (by omega)
  obtain ⟨md, hmd, hmx, hmy, hmxy⟩ := hsm
  obtain ⟨M, hM, hMis⟩ := ComputeHarrisResponses_spec k md _ _ _ _ hmx hmy hR hC
  exact ⟨d, md, M, hd, hmd, hM, hdx, hdy, hdxy, hmx, hmy, hmxy, hMis⟩

/-- The constructor is the grayscale conversion followed by the stages (2) to (4). -/
theorem Harris_eq_of_stages (weight : Int → ℚ) (img : Image) (k : ℚ) (n : Int)
    (gauss : Bool) (grey : Mat ℚ) (d md : Derivatives ℚ)
    (hgrey : ConvertRgbToGrayscale img = some grey) (hd : ComputeDerivatives grey = some d)
    (hmd : (if gauss then ApplyGaussToDerivatives weight d n
      else ApplyMeanToDerivatives d n) = some md) :
    Harris weight img k n gauss = ComputeHarrisResponses k md := by
  unfold Harris
  simp only [hgrey, hd, Option.bind_eq_bind, Option.some_bind]
  cases gauss
  · simp only [Bool.false_eq_true, if_false] at hmd ⊢
    rw [hmd]
    rfl
  · simp only [if_true] at hmd ⊢
    rw [hmd]
    rfl

/-- The constructor on an image that is large enough for the filter range returns the
response buffer of the reference quantities. -/
theorem Harris_spec (weight : Int → ℚ) (img : Image) (k : ℚ) (n : Int) (gauss : Bool)
    (hn : 0 ≤ n) (hR : 0 ≤ img.rows - 2 - 2 * n) (hC : 0 ≤ img.cols - 2 - 2 * n) :
    ∃ M, Harris weight img k n gauss = some M ∧
      M.Is (img.rows - 2 - 2 * n) (img.cols - 2 - 2 * n)
        (fun r c => harrisScore k
          (smoothed weight gauss n (sobelStencilX (luminance img)) r c)
          (smoothed weight gauss n (sobelStencilY (luminance img)) r c)) := by
  obtain ⟨grey, hgrey, hgis⟩ := ConvertRgbToGrayscale_spec img (by omega) (by omega)
  obtain ⟨d, md, M, hd, hmd, hM, _, _, _, _, _, _, hMis⟩ :=
    stages_spec weight grey _ _ _ hgis k n gauss hn hR hC
  refine ⟨M, ?_, hMis⟩
  rw [Harris_eq_of_stages weight img k n gauss grey d md hgrey hd hmd, hM]

end Harris

namespace Harris

/-! ## Failure of the constructor on images that are too small -/

theorem bind_none_of {β γ : Type} (x : Option β) (f : β → Option γ)
    (h : ∀ a, x = some a → f a = none) : x.bind f = none := by
  cases x with
  | none => rfl
  | some a => simpa using h a rfl

theorem ConvertRgbToGrayscale_none (img : Image) (h : img.rows < 0 ∨ img.cols < 0) :
    (ConvertRgbToGrayscale img) = none := by
  unfold ConvertRgbToGrayscale
  rw [Mat.create_eq_none _ _ h]
  rfl

theorem ComputeDerivatives_none (grey : Mat ℚ) (h : grey.rows < 2 ∨ grey.cols < 2) :
    ComputeDerivatives grey = none := by
  have hs : sobelHelpers grey = none := by
    unfold sobelHelpers
    by_cases h1 : grey.rows - 2 < 0 ∨ grey.cols < 0
    · rw [Mat.create_eq_none _ _ h1]
      rfl
    · have h2 : grey.rows < 0 ∨ grey.cols - 2 < 0 := by omega
      rw [Mat.create_eq_none _ _ h2]
      simp only [Option.bind_eq_bind]
      apply bind_none_of
      intro V _
      apply bind_none_of
      intro W _
      rfl
  unfold ComputeDerivatives
  rw [hs]
  rfl

theorem GaussFilter_none (weight : Int → ℚ) (img : Mat ℚ) (n : Int)
    (h : img.rows - 2 * n < 0 ∨ img.cols - 2 * n < 0) : GaussFilter weight img n = none := by
  unfold GaussFilter
  rw [Mat.create_eq_none _ _ (by omega)]
  rfl

theorem MeanFilter_none (S : Mat ℚ) (n : Int)
    (h : S.rows - 2 * n < 0 ∨ S.cols - 2 * n < 0) : MeanFilter S n = none := by
  unfold MeanFilter
  rw [Mat.create_eq_none _ _ (by omega)]
  rfl

theorem ComputeIntegralImg_dims (img S : Mat ℚ) (R C : Int) (f : Int → Int → ℚ)
    (hI : img.Is R C f) (hS : ComputeIntegralImg img = some S) : S.rows = R ∧ S.cols = C := by
  by_cases h : 0 < R ∧ 0 < C
  · obtain ⟨S', hS', his⟩ := ComputeIntegralImg_spec img R C f hI h.1 h.2
    rw [hS] at hS'
    cases hS'
    exact ⟨his.1, his.2.1⟩
  · exfalso
    have hread : img.read 0 0 = none := by
      unfold Mat.read
      have : ¬ img.inBounds 0 0 := by
        unfold Mat.inBounds
        rw [hI.1, hI.2.1]
        omega
      simp [this]
    unfold ComputeIntegralImg at hS
    rw [hread] at hS
    simp only [Option.bind_eq_bind] at hS
    cases hc : (Mat.create img.rows img.cols : Option (Mat ℚ)) with
    | none => rw [hc] at hS; simp at hS
    | some m => rw [hc] at hS; simp at hS

theorem ApplyMeanToDerivatives_none (d : Derivatives ℚ) (R C n : Int) (gx : Int → Int → ℚ)
    (hx : d.Ix.Is R C gx) (hn : n ≠ 0) (h : R - 2 * n < 0 ∨ C - 2 * n < 0) :
    ApplyMeanToDerivatives d n = none := by
  unfold ApplyMeanToDerivatives
  rw [if_neg hn]
  simp only [Option.bind_eq_bind]
  apply bind_none_of
  intro sx hsx
  obtain ⟨e1, e2⟩ := ComputeIntegralImg_dims d.Ix sx R C gx hx hsx
  apply bind_none_of
  intro sy _
  apply bind_none_of
  intro sxy _
  rw [MeanFilter_none sx n (by omega)]
  rfl

theorem ApplyGaussToDerivatives_none (weight : Int → ℚ) (d : Derivatives ℚ) (R C n : Int)
    (gx : Int → Int → ℚ) (hx : d.Ix.Is R C gx) (hn : n ≠ 0)
    (h : R - 2 * n < 0 ∨ C - 2 * n < 0) : ApplyGaussToDerivatives weight d n = none := by
  unfold ApplyGaussToDerivatives
  rw [if_neg hn, GaussFilter_none weight d.Ix n (by rw [hx.1, hx.2.1]; exact h)]
  rfl

theorem Harris_none (weight : Int → ℚ) (img : Image) (k : ℚ) (n : Int) (gauss : Bool)
    (hn : 0 ≤ n) (h : img.rows - 2 - 2 * n < 0 ∨ img.cols - 2 - 2 * n < 0) :
    Harris weight img k n gauss = none := by
  unfold Harris
  simp only [Option.bind_eq_bind]
  apply bind_none_of
  intro grey hgrey
  have hneg : ¬ (img.rows < 0 ∨ img.cols < 0) := by
    intro h'
    rw [ConvertRgbToGrayscale_none img h'] at hgrey
    cases hgrey
  obtain ⟨g', hg', hgis⟩ := ConvertRgbToGrayscale_spec img (by omega) (by omega)
  rw [hgrey] at hg'
  cases hg'
  apply bind_none_of
  intro d hd
  have hbig : ¬ (img.rows < 2 ∨ img.cols < 2) := by
    intro h'
    rw [ComputeDerivatives_none grey (by rw [hgis.1, hgis.2.1]; exact h')] at hd
    cases hd
  obtain ⟨d', hd', hdx, _, _⟩ := ComputeDerivatives_spec grey img.rows img.cols _ hgis
    (by omega) (by omega)
  rw [hd] at hd'
  cases hd'
  have hn0 : n ≠ 0 := by omega
  cases gauss
  · simp only [Bool.false_eq_true, if_false]
    rw [ApplyMeanToDerivatives_none d _ _ n _ hdx hn0 (by omega)]
    rfl
  · simp only [if_true]
    rw [ApplyGaussToDerivatives_none weight d _ _ n _ hdx hn0 (by omega)]
    rfl

end Harris

namespace Harris

/-! ## Facts about the reference quantities -/

theorem sobelStencilX_const (v : ℚ) (r c : Int) : sobelStencilX (fun _ _ => v) r c = 0 := by
  simp [sobelStencilX]

theorem sobelStencilY_const (v : ℚ) (r c : Int) : sobelStencilY (fun _ _ => v) r c = 0 := by
  simp [sobelStencilY]

theorem smoothed_zero (weight : Int → ℚ) (gauss : Bool) (n r c : Int) :
    smoothed weight gauss n (fun _ _ => 0) r c = 0 := by
  unfold smoothed
  split_ifs <;> simp [boxValue, prefixSum]

/-- The determinant term vanishes, so the score is `|k|` times the squared sum of the
squared derivatives. -/
theorem harrisScore_eq (k ix iy : ℚ) :
    harrisScore k ix iy = |k| * (ix * ix + iy * iy) ^ 2 := by
  unfold harrisScore
  have h : (ix * ix) * (iy * iy) - (ix * iy) * (ix * iy) - k * (ix * ix + iy * iy) ^ 2
      = -(k * (ix * ix + iy * iy) ^ 2) := by ring
  rw [h, abs_neg, abs_mul, abs_of_nonneg (sq_nonneg (ix * ix + iy * iy))]

theorem harrisScore_nonneg (k ix iy : ℚ) : 0 ≤ harrisScore k ix iy := by
  unfold harrisScore
  exact abs_nonneg _

theorem harrisScore_zero (k : ℚ) : harrisScore k 0 0 = 0 := by
  simp [harrisScore]

end Harris

namespace Harris

/-! ## Selection of maxima: enumeration and suppression -/

theorem allPoints_spec (H : Mat ℚ) (R C : Int) (g : Int → Int → ℚ) (hH : H.Is R C g)
    (hR : 0 ≤ R) (hC : 0 ≤ C) :
    ∃ pts, allPoints H = some pts ∧
      (∀ d : PointData ℚ, d ∈ pts ↔
        ∃ r c, 0 ≤ r ∧ r < R ∧ 0 ≤ c ∧ c < C ∧ d = ⟨g r c, ⟨r, c⟩⟩) ∧
      (pts.map (fun d => d.point)).Nodup ∧ (pts.length : Int) = R * C := by
  unfold allPoints
  rw [hH.1, hH.2.1]
  obtain ⟨pts, hpts, hmem, hnd, hlen⟩ := forLoop2_total 0 R 0 C
    (fun r c (points : List (PointData ℚ)) => do
      let d : PointData ℚ := { cornerResponse := (← H.read r c), point := ⟨r, c⟩ }
      pure (points ++ [d]))
    (fun a b (pts : List (PointData ℚ)) =>
      (∀ d : PointData ℚ, d ∈ pts ↔
        ∃ r c, 0 ≤ r ∧ r < R ∧ 0 ≤ c ∧ c < C ∧ (r < a ∨ (r = a ∧ c < b)) ∧
          d = ⟨g r c, ⟨r, c⟩⟩) ∧
      (pts.map (fun d => d.point)).Nodup ∧ (pts.length : Int) = a * C + b)
    [] hR hC
    (by
      refine ⟨?_, by simp, by simp⟩
      intro d
      simp only [List.not_mem_nil, false_iff, not_exists, not_and]
      intro r c h1 h2 h3 h4 h5
      omega)
    (by
      intro a b pts h1 h2 h3 h4 ⟨hmem, hnd, hlen⟩
      dsimp only
      rw [hH.read a b h1 h2 h3 h4]
      simp only [Option.bind_eq_bind, Option.some_bind, Option.pure_def]
      refine ⟨_, rfl, ?_, ?_, ?_⟩
      · intro d
        rw [List.mem_append, List.mem_singleton, hmem d]
        constructor
        · rintro (⟨r, c, g1, g2, g3, g4, g5, rfl⟩ | rfl)
          · exact ⟨r, c, g1, g2, g3, g4, by omega, rfl⟩
          · exact ⟨a, b, h1, h2, h3, h4, by omega, rfl⟩
        · rintro ⟨r, c, g1, g2, g3, g4, g5, rfl⟩
          by_cases hab : r = a ∧ c = b
          · obtain ⟨rfl, rfl⟩ := hab
            exact Or.inr rfl
          · exact Or.inl ⟨r, c, g1, g2, g3, g4, by omega, rfl⟩
      · rw [List.map_append, List.nodup_append]
        refine ⟨hnd, by simp, ?_⟩
        intro p hp hp'
        simp only [List.map_cons, List.map_nil, List.mem_singleton] at hp'
        rw [List.mem_map] at hp
        obtain ⟨d, hd, rfl⟩ := hp
        obtain ⟨r, c, g1, g2, g3, g4, g5, rfl⟩ := (hmem d).1 hd
        simp only [Point.mk.injEq] at hp'
        omega
      · rw [List.length_append]
        simp only [List.length_cons, List.length_nil]
        push_cast
        omega)
    (by
      intro a pts h1 h2 ⟨hmem, hnd, hlen⟩
      refine ⟨?_, hnd, by rw [hlen]; ring⟩
      intro d
      rw [hmem d]
      constructor
      · rintro ⟨r, c, g1, g2, g3, g4, g5, rfl⟩
        exact ⟨r, c, g1, g2, g3, g4, by omega, rfl⟩
      · rintro ⟨r, c, g1, g2, g3, g4, g5, rfl⟩
        exact ⟨r, c, g1, g2, g3, g4, by omega, rfl⟩)
  refine ⟨pts, hpts, ?_, hnd, by rw [hlen]; ring⟩
  intro d
  rw [hmem d]
  constructor
  · rintro ⟨r, c, g1, g2, g3, g4, g5, rfl⟩
    exact ⟨r, c, g1, g2, g3, g4, rfl⟩
  · rintro ⟨r, c, g1, g2, g3, g4, rfl⟩
    exact ⟨r, c, g1, g2, g3, g4, by omega, rfl⟩

end Harris

namespace Harris

/-- The offset `i·C + j` of a cell of an `R × C` buffer lies inside the buffer. -/
theorem offset_range (R C i j : Int) (h1 : 0 ≤ i) (h2 : i < R) (h3 : 0 ≤ j) (h4 : j < C) :
    0 ≤ i * C + j ∧ i * C + j < R * C := by
  constructor
  · nlinarith
  · nlinarith

/-- Two cells with the same offset are the same cell. -/
theorem offset_inj (C i j x y : Int) (h3 : 0 ≤ j) (h4 : j < C) (g3 : 0 ≤ y) (g4 : y < C)
    (h : x * C + y = i * C + j) : i = x ∧ j = y := by
  have hC : 0 < C := by omega
  have e1 : (x * C + y) / C = x := by
    rw [Int.add_comm, Int.add_mul_ediv_right _ _ (by omega), Int.ediv_eq_zero_of_lt g3 g4]
    omega
  have e2 : (i * C + j) / C = i := by
    rw [Int.add_comm, Int.add_mul_ediv_right _ _ (by omega), Int.ediv_eq_zero_of_lt h3 h4]
    omega
  have hi : i = x := by rw [← e1, ← e2, h]
  subst hi
  exact ⟨rfl, by omega⟩

/-- The cell at offset `o` of a buffer with `C` columns. -/
theorem offset_cell (C o i j : Int) (h3 : 0 ≤ j) (h4 : j < C) :
    (i = o / C ∧ j = o % C) ↔ o = i * C + j := by
  constructor
  · rintro ⟨rfl, rfl⟩
    have := Int.ediv_add_emod o C
    nlinarith [Int.ediv_add_emod o C]
  · rintro rfl
    constructor
    · rw [Int.add_comm, Int.add_mul_ediv_right _ _ (by omega), Int.ediv_eq_zero_of_lt h3 h4]
      omega
    · rw [Int.add_comm, Int.add_mul_emod_self, Int.emod_eq_of_lt h3 h4]

/-- An unchecked mask write sets the cell at offset `x·C + y`, if there is one, and
changes no other cell. -/
theorem maskWrite_unchecked (m : Mat ℚ) (R C : Int) (μ : Int → Int → ℚ) (x y : Int)
    (hm : m.Is R C μ) (hR : 0 ≤ R) :
    ∃ m', maskWrite false m x y 1 = some m' ∧
      m'.Is R C (fun i j => if x * C + y = i * C + j then 1 else μ i j) := by
  unfold maskWrite
  by_cases hb : m.inBounds x y
  · rw [if_pos hb]
    obtain ⟨m', hm', hr', hc', hd'⟩ := Mat.write_of_inBounds m x y 1 hb
    refine ⟨m', hm', by rw [hr', hm.1], by rw [hc', hm.2.1], ?_⟩
    intro i j h1 h2 h3 h4
    rw [hd']
    dsimp only
    unfold Mat.inBounds at hb
    rw [hm.1, hm.2.1] at hb
    have hiff : (i = x ∧ j = y) ↔ x * C + y = i * C + j := by
      constructor
      · rintro ⟨rfl, rfl⟩; rfl
      · intro h; exact offset_inj C i j x y h3 h4 hb.2.2.1 hb.2.2.2 h
    by_cases hij : i = x ∧ j = y
    · rw [if_pos hij, if_pos (hiff.1 hij)]
    · rw [if_neg hij, if_neg (fun h => hij (hiff.2 h))]
      exact hm.2.2 i j h1 h2 h3 h4
  · rw [if_neg hb]
    simp only [Bool.false_eq_true, if_false]
    rw [hm.1, hm.2.1]
    by_cases ho : 0 ≤ x * C + y ∧ x * C + y < R * C
    · rw [if_pos ho]
      have hC : 0 < C := by
        by_contra hC
        have : R * C ≤ 0 := by nlinarith
        omega
      have hq0 : 0 ≤ (x * C + y) / C := Int.ediv_nonneg ho.1 (by omega)
      have hqR : (x * C + y) / C < R := by
        rw [Int.ediv_lt_iff_lt_mul hC]
        exact ho.2
      have hr0 : 0 ≤ (x * C + y) % C := Int.emod_nonneg _ (by omega)
      have hrC : (x * C + y) % C < C := Int.emod_lt_of_pos _ hC
      have hb' : m.inBounds ((x * C + y) / C) ((x * C + y) % C) := by
        unfold Mat.inBounds
        rw [hm.1, hm.2.1]
        exact ⟨hq0, hqR, hr0, hrC⟩
      obtain ⟨m', hm', hr', hc', hd'⟩ := Mat.write_of_inBounds m _ _ 1 hb'
      refine ⟨m', hm', by rw [hr', hm.1], by rw [hc', hm.2.1], ?_⟩
      intro i j h1 h2 h3 h4
      rw [hd']
      dsimp only
      have hiff := offset_cell C (x * C + y) i j h3 h4
      by_cases hij : i = (x * C + y) / C ∧ j = (x * C + y) % C
      · rw [if_pos hij, if_pos (hiff.1 hij)]
      · rw [if_neg hij, if_neg (fun h => hij (hiff.2 h))]
        exact hm.2.2 i j h1 h2 h3 h4
    · rw [if_neg ho]
      refine ⟨m, rfl, hm.1, hm.2.1, ?_⟩
      intro i j h1 h2 h3 h4
      have hne : ¬ (x * C + y = i * C + j) := by
        intro h
        apply ho
        rw [h]
        exact offset_range R C i j h1 h2 h3 h4
      dsimp only
      rw [if_neg hne]
      exact hm.2.2 i j h1 h2 h3 h4

/-- A position in the square around `p` is written by the neighbourhood loops. -/
theorem writesCell_of_inSquare (rad C : Int) (p : Point) (i j : Int)
    (h : inSquare rad p ⟨i, j⟩) : writesCell rad C p i j := by
  unfold inSquare at h
  dsimp only at h
  exact ⟨j - p.y, i - p.x, by omega, by omega, by omega, by omega, by
    have e1 : p.x + (i - p.x) = i := by omega
    have e2 : p.y + (j - p.y) = j := by omega
    rw [e1, e2]⟩

/-- With `suppressionRadius = 0` the neighbourhood loops write the cell of `p` only. -/
theorem writesCell_radius_zero (C : Int) (p : Point) (i j : Int)
    (h3 : 0 ≤ j) (h4 : j < C) (g3 : 0 ≤ p.y) (g4 : p.y < C)
    (h : writesCell 0 C p i j) : i = p.x ∧ j = p.y := by
  obtain ⟨r, c, hr1, hr2, hc1, hc2, he⟩ := h
  have hr : r = 0 := by omega
  have hc : c = 0 := by omega
  subst hr hc
  simp only [add_zero] at he
  exact offset_inj C i j p.x p.y h3 h4 g3 g4 he

/-- When the square around `p` lies inside the mask, the neighbourhood loops write the
cells of the square only. -/
theorem inSquare_of_writesCell (rad R C : Int) (p : Point) (i j : Int)
    (h3 : 0 ≤ j) (h4 : j < C)
    (hp : 0 ≤ p.x - rad ∧ p.x + rad < R ∧ 0 ≤ p.y - rad ∧ p.y + rad < C)
    (h : writesCell rad C p i j) : inSquare rad p ⟨i, j⟩ := by
  obtain ⟨r, c, hr1, hr2, hc1, hc2, he⟩ := h
  obtain ⟨e1, e2⟩ := offset_inj C i j (p.x + c) (p.y + r) h3 h4 (by omega) (by omega) he
  unfold inSquare
  dsimp only
  omega

open Classical in
/-- With unchecked writes, `suppress` returns the mask in which the cells written by the
neighbourhood loops are set to `1` and the other cells are unchanged. -/
theorem suppress_unchecked (m : Mat ℚ) (R C : Int) (μ : Int → Int → ℚ) (p : Point)
    (rad : Int) (hm : m.Is R C μ) (hR : 0 ≤ R) :
    ∃ m', suppress false m p rad = some m' ∧
      m'.Is R C (fun i j => if writesCell rad C p i j then 1 else μ i j) := by
  unfold suppress
  by_cases hrad : 0 ≤ rad
  · obtain ⟨m', hm', hinv⟩ := forLoop2_total (-rad) (rad + 1) (-rad) (rad + 1)
      (fun r c (u : Mat ℚ) => maskWrite false u (p.x + c) (p.y + r) 1)
      (fun r c (u : Mat ℚ) => u.Is R C (fun i j =>
        if (∃ r' c' : Int, -rad ≤ r' ∧ r' ≤ rad ∧ -rad ≤ c' ∧ c' ≤ rad ∧
          (r' < r ∨ (r' = r ∧ c' < c)) ∧ (p.x + c') * C + (p.y + r') = i * C + j)
        then 1 else μ i j))
      m (by omega) (by omega)
      (by
        refine hm.congr ?_
        intro i j _ _ _ _
        dsimp only
        rw [if_neg]
        rintro ⟨r', c', g1, g2, g3, g4, g5, _⟩
        omega)
      (by
        intro r c u h1 h2 h3 h4 hu
        obtain ⟨u', hu', his⟩ := maskWrite_unchecked u R C _ (p.x + c) (p.y + r) hu hR
        refine ⟨u', hu', his.congr ?_⟩
        intro i j _ _ _ _
        dsimp only
        by_cases hij : (p.x + c) * C + (p.y + r) = i * C + j
        · rw [if_pos hij, if_pos ⟨r, c, by omega, by omega, by omega, by omega,
            by omega, hij⟩]
        · rw [if_neg hij]
          refine if_congr ?_ rfl rfl
          constructor
          · rintro ⟨r', c', g1, g2, g3, g4, g5, g6⟩
            exact ⟨r', c', g1, g2, g3, g4, by omega, g6⟩
          · rintro ⟨r', c', g1, g2, g3, g4, g5, g6⟩
            refine ⟨r', c', g1, g2, g3, g4, ?_, g6⟩
            by_contra hnot
            have e1 : r' = r := by omega
            have e2 : c' = c := by omega
            subst e1 e2
            exact hij g6)
      (by
        intro r u h1 h2 hu
        refine hu.congr ?_
        intro i j _ _ _ _
        dsimp only
        refine if_congr ?_ rfl rfl
        constructor
        · rintro ⟨r', c', g1, g2, g3, g4, g5, g6⟩
          exact ⟨r', c', g1, g2, g3, g4, by omega, g6⟩
        · rintro ⟨r', c', g1, g2, g3, g4, g5, g6⟩
          exact ⟨r', c', g1, g2, g3, g4, by omega, g6⟩)
    refine ⟨m', hm', hinv.congr ?_⟩
    intro i j _ _ _ _
    dsimp only
    unfold writesCell
    refine if_congr ?_ rfl rfl
    constructor
    · rintro ⟨r', c', g1, g2, g3, g4, g5, g6⟩
      exact ⟨r', c', g1, g2, g3, g4, g6⟩
    · rintro ⟨r', c', g1, g2, g3, g4, g6⟩
      exact ⟨r', c', g1, g2, g3, g4, by omega, g6⟩
  · refine ⟨m, forLoop_empty _ _ _ _ (by omega), hm.congr ?_⟩
    intro i j _ _ _ _
    dsimp only
    rw [if_neg]
    rintro ⟨r', c', g1, g2, g3, g4, _⟩
    omega

theorem forLoopN_transfer {σ : Type} (b1 b2 : Int → σ → Option σ)
    (h : ∀ i s s', b1 i s = some s' → b2 i s = some s') :
    ∀ (n : Nat) (i : Int) (s t : σ), forLoopN b1 n i s = some t →
      forLoopN b2 n i s = some t := by
  intro n
  induction n with
  | zero => intro i s t ht; simpa [forLoopN] using ht
  | succ n ih =>
    intro i s t ht
    simp only [forLoopN] at ht ⊢
    cases hb : b1 i s with
    | none => simp [hb] at ht
    | some u =>
      rw [hb] at ht
      rw [h i s u hb]
      exact ih (i + 1) u t ht

theorem forLoop_transfer {σ : Type} (lo hi : Int) (b1 b2 : Int → σ → Option σ)
    (h : ∀ i s s', b1 i s = some s' → b2 i s = some s') (s t : σ)
    (ht : forLoop lo hi b1 s = some t) : forLoop lo hi b2 s = some t :=
  forLoopN_transfer b1 b2 h _ lo s t ht

theorem maskWrite_transfer (m m' : Mat ℚ) (x y : Int) (v : ℚ)
    (h : maskWrite true m x y v = some m') : maskWrite false m x y v = some m' := by
  unfold maskWrite at h ⊢
  by_cases hb : m.inBounds x y
  · rw [if_pos hb] at h ⊢
    exact h
  · rw [if_neg hb] at h
    simp at h

/-- A run of `suppress` that aborts on out-of-range writes and returns has the result of
the run with unchecked writes. -/
theorem suppress_transfer (m m' : Mat ℚ) (p : Point) (rad : Int)
    (h : suppress true m p rad = some m') : suppress false m p rad = some m' := by
  unfold suppress at h ⊢
  refine forLoop_transfer _ _ _ _ ?_ m m' h
  intro r u u' hu
  refine forLoop_transfer _ _ _ _ ?_ u u' hu
  intro c w w' hw
  exact maskWrite_transfer w w' _ _ _ hw

/-- A run of `suppress` that aborts on out-of-range writes returns only if the whole
square around `p` lies inside the mask. -/
theorem suppress_checked_inBounds (m m' : Mat ℚ) (p : Point) (rad : Int) (hrad : 0 ≤ rad)
    (h : suppress true m p rad = some m') :
    0 ≤ p.x - rad ∧ p.x + rad < m.rows ∧ 0 ≤ p.y - rad ∧ p.y + rad < m.cols := by
  unfold suppress at h
  have hinv := forLoop2_returns (-rad) (rad + 1) (-rad) (rad + 1)
    (fun r c (u : Mat ℚ) => maskWrite true u (p.x + c) (p.y + r) 1)
    (fun r c (u : Mat ℚ) => u.rows = m.rows ∧ u.cols = m.cols ∧
      ∀ r' c', -rad ≤ r' → r' ≤ rad → -rad ≤ c' → c' ≤ rad → (r' < r ∨ (r' = r ∧ c' < c)) →
        0 ≤ p.x + c' ∧ p.x + c' < m.rows ∧ 0 ≤ p.y + r' ∧ p.y + r' < m.cols)
    m m' (by omega) (by omega)
    ⟨rfl, rfl, fun r' c' g1 g2 g3 g4 g5 => by omega⟩
    (by
      intro r c u u' h1 h2 h3 h4 ⟨hr, hc, hdone⟩ hu
      dsimp only at hu
      unfold maskWrite at hu
      by_cases hb : u.inBounds (p.x + c) (p.y + r)
      · rw [if_pos hb] at hu
        obtain ⟨_, hr', hc', _⟩ := Mat.write_some hu
        refine ⟨by rw [hr', hr], by rw [hc', hc], ?_⟩
        intro r' c' g1 g2 g3 g4 g5
        by_cases hrc : r' = r ∧ c' = c
        · obtain ⟨rfl, rfl⟩ := hrc
          unfold Mat.inBounds at hb
          rw [hr, hc] at hb
          exact hb
        · exact hdone r' c' g1 g2 g3 g4 (by omega)
      · rw [if_neg hb] at hu
        simp at hu)
    (by
      intro r u h1 h2 ⟨hr, hc, hdone⟩
      refine ⟨hr, hc, ?_⟩
      intro r' c' g1 g2 g3 g4 g5
      exact hdone r' c' g1 g2 g3 g4 (by omega))
    h
  obtain ⟨_, _, hdone⟩ := hinv
  have a := hdone (-rad) (-rad) (by omega) (by omega) (by omega) (by omega) (by omega)
  have b := hdone rad rad (by omega) (by omega) (by omega) (by omega) (by omega)
  omega

/-- A run of `suppress` that aborts on out-of-range writes returns when the whole
square around `p` lies inside the mask. -/
theorem suppress_checked_total (m : Mat ℚ) (R C : Int) (p : Point) (rad : Int)
    (hr : m.rows = R) (hc : m.cols = C)
    (hp : 0 ≤ rad → 0 ≤ p.x - rad ∧ p.x + rad < R ∧ 0 ≤ p.y - rad ∧ p.y + rad < C) :
    ∃ m', suppress true m p rad = some m' := by
  unfold suppress
  by_cases hrad : 0 ≤ rad
  · obtain ⟨m', hm', _⟩ := forLoop2_total (-rad) (rad + 1) (-rad) (rad + 1)
      (fun r c (u : Mat ℚ) => maskWrite true u (p.x + c) (p.y + r) 1)
      (fun _ _ (u : Mat ℚ) => u.rows = R ∧ u.cols = C)
      m (by omega) (by omega) ⟨hr, hc⟩
      (by
        intro r c u h1 h2 h3 h4 ⟨hur, huc⟩
        have hb : u.inBounds (p.x + c) (p.y + r) := by
          unfold Mat.inBounds
          rw [hur, huc]
          have := hp hrad
          omega
        obtain ⟨u', hu', hr', hc', _⟩ := Mat.write_of_inBounds u _ _ 1 hb
        refine ⟨u', ?_, by rw [hr', hur], by rw [hc', huc]⟩
        dsimp only
        unfold maskWrite
        rw [if_pos hb]
        exact hu')
      (by
        intro r u _ _ hu
        exact hu)
    exact ⟨m', hm'⟩
  · exact ⟨m, forLoop_empty _ _ _ _ (by omega)⟩

end Harris

namespace Harris

/-! ## Selection of maxima: the `while` loop -/

open Classical in
/-- The `while` loop with unchecked mask writes.  It returns `topPoints` followed by the
remapped accepted candidates `acc`, where `acc` is a sublist of the scanned list, no
accepted candidate has its cell written by the neighbourhood loops of an earlier one,
the number of results is capped, every scanned candidate is accepted or suppressed
when the loop does not stop at the cap, and the first scanned candidate, when it is
free, is the first accepted one. -/
theorem selectLoop_unchecked (n fr rad R C : Int) (hR : 0 ≤ R)
    (ρ : PointData ℚ → PointData ℚ → Prop) :
    ∀ (pts : List (PointData ℚ)) (m : Mat ℚ) (μ : Int → Int → ℚ) (top : List (PointData ℚ)),
      m.Is R C μ →
      (∀ d ∈ pts, 0 ≤ d.point.x ∧ d.point.x < R ∧ 0 ≤ d.point.y ∧ d.point.y < C) →
      pts.Pairwise ρ →
      ∃ acc, selectLoop false n fr rad pts m top = some (top ++ acc.map (remap fr)) ∧
        acc.Sublist pts ∧
        top.length + acc.length ≤ max (toSizeT n) top.length ∧
        (∀ a ∈ acc, μ a.point.x a.point.y = 0) ∧
        acc.Pairwise (fun a b => ¬ writesCell rad C a.point b.point.x b.point.y) ∧
        (top.length + acc.length < toSizeT n → ∀ d ∈ pts,
          d ∈ acc ∨ μ d.point.x d.point.y ≠ 0 ∨
            ∃ a ∈ acc, ρ a d ∧ writesCell rad C a.point d.point.x d.point.y) ∧
        (∀ d rest, pts = d :: rest → μ d.point.x d.point.y = 0 →
          top.length < toSizeT n → ∃ acc', acc = d :: acc') ∧
        (∀ d rest, pts = d :: rest → μ d.point.x d.point.y = 0 →
          ∀ a acc', acc = a :: acc' → a = d) ∧
        ((∃ l, selectLoop true n fr rad pts m top = some l) ↔
          (0 ≤ rad → ∀ a ∈ acc, 0 ≤ a.point.x - rad ∧ a.point.x + rad < R ∧
            0 ≤ a.point.y - rad ∧ a.point.y + rad < C)) := by
  intro pts
  induction pts with
  | nil =>
    intro m μ top _ _ _
    refine ⟨[], by simp [selectLoop], List.Sublist.refl _, by simp, by simp, by simp,
      by simp, by simp, by simp, by simp [selectLoop]⟩
  | cons d rest ih =>
    intro m μ top hm hin hρ
    have hd := hin d (List.mem_cons_self _ _)
    have hin' : ∀ x ∈ rest, 0 ≤ x.point.x ∧ x.point.x < R ∧ 0 ≤ x.point.y ∧ x.point.y < C :=
      fun x hx => hin x (List.mem_cons_of_mem _ hx)
    have hρ' : rest.Pairwise ρ := (List.pairwise_cons.1 hρ).2
    have hρd : ∀ x ∈ rest, ρ d x := (List.pairwise_cons.1 hρ).1
    rw [selectLoop, selectLoop]
    by_cases hlt : top.length < toSizeT n
    · rw [if_pos hlt, if_pos hlt, hm.read d.point.x d.point.y hd.1 hd.2.1 hd.2.2.1 hd.2.2.2]
      simp only [Option.bind_eq_bind, Option.some_bind]
      by_cases hfree : μ d.point.x d.point.y = 0
      · rw [if_pos hfree, if_pos hfree]
        obtain ⟨m', hm', hm'is⟩ := suppress_unchecked m R C μ d.point rad hm hR
        rw [hm']
        simp only [Option.some_bind]
        obtain ⟨acc, hacc, hsub, hlen, hzero, hpw, hcov, _, _, hchk⟩ :=
          ih m' _ (top ++ [remap fr d]) hm'is hin' hρ'
        have hsplit : ∀ a ∈ acc,
            ¬ writesCell rad C d.point a.point.x a.point.y ∧ μ a.point.x a.point.y = 0 := by
          intro a ha
          have := hzero a ha
          by_cases hsq : writesCell rad C d.point a.point.x a.point.y
          · rw [if_pos hsq] at this
            norm_num at this
          · rw [if_neg hsq] at this
            exact ⟨hsq, this⟩
        refine ⟨d :: acc, ?_, hsub.cons₂ d, ?_, ?_, ?_, ?_, ?_, ?_, ?_⟩
        · have e : (top ++ [remap fr d]) ++ acc.map (remap fr)
              = top ++ (d :: acc).map (remap fr) := by simp
          rw [← e]
          exact hacc
        · simp only [List.length_append, List.length_cons, List.length_nil] at hlen ⊢
          omega
        · intro a ha
          rcases List.mem_cons.1 ha with rfl | ha
          · exact hfree
          · exact (hsplit a ha).2
        · exact List.pairwise_cons.2 ⟨fun a ha => (hsplit a ha).1, hpw⟩
        · intro hcap x hx
          rcases List.mem_cons.1 hx with rfl | hx
          · exact Or.inl (List.mem_cons_self _ _)
          · have hcap' : (top ++ [remap fr d]).length + acc.length < toSizeT n := by
              simp only [List.length_append, List.length_cons, List.length_nil] at hcap ⊢
              omega
            rcases hcov hcap' x hx with h | h | ⟨a, ha, hax, hsq⟩
            · exact Or.inl (List.mem_cons_of_mem _ h)
            · by_cases hsq : writesCell rad C d.point x.point.x x.point.y
              · exact Or.inr (Or.inr ⟨d, List.mem_cons_self _ _, hρd x hx, hsq⟩)
              · rw [if_neg hsq] at h
                exact Or.inr (Or.inl h)
            · exact Or.inr (Or.inr ⟨a, List.mem_cons_of_mem _ ha, hax, hsq⟩)
        · intro d' rest' hcons _ _
          cases hcons
          exact ⟨acc, rfl⟩
        · intro d' rest' hcons _ a acc' hacc'
          cases hcons
          cases hacc'
          rfl
        · constructor
          · rintro ⟨l, hl⟩ hrad a ha
            cases hs : suppress true m d.point rad with
            | none => rw [hs] at hl; simp at hl
            | some m'' =>
              have hm'' : m'' = m' := by
                have := suppress_transfer m m'' d.point rad hs
                rw [hm'] at this
                exact (Option.some.inj this).symm
              subst hm''
              rw [hs] at hl
              simp only [Option.some_bind] at hl
              rcases List.mem_cons.1 ha with rfl | ha
              · have := suppress_checked_inBounds m m'' a.point rad hrad hs
                rw [hm.1, hm.2.1] at this
                exact this
              · exact hchk.1 ⟨l, hl⟩ hrad a ha
          · intro hall
            obtain ⟨m'', hs⟩ := suppress_checked_total m R C d.point rad hm.1 hm.2.1
              (fun hrad => hall hrad d (List.mem_cons_self _ _))
            have hm'' : m'' = m' := by
              have := suppress_transfer m m'' d.point rad hs
              rw [hm'] at this
              exact (Option.some.inj this).symm
            subst hm''
            rw [hs]
            simp only [Option.some_bind]
            exact hchk.2 (fun hrad a ha => hall hrad a (List.mem_cons_of_mem _ ha))
      · rw [if_neg hfree, if_neg hfree]
        obtain ⟨acc, hacc, hsub, hlen, hzero, hpw, hcov, _, _, hchk⟩ :=
          ih m μ top hm hin' hρ'
        refine ⟨acc, hacc, hsub.cons d, hlen, hzero, hpw, ?_, ?_, ?_, hchk⟩
        · intro hcap x hx
          rcases List.mem_cons.1 hx with rfl | hx
          · exact Or.inr (Or.inl hfree)
          · exact hcov hcap x hx
        · intro d' rest' hcons hf _
          cases hcons
          exact absurd hf hfree
        · intro d' rest' hcons hf
          cases hcons
          exact absurd hf hfree
    · rw [if_neg hlt, if_neg hlt]
      refine ⟨[], by simp, List.nil_sublist _, by simp, by simp, by simp, ?_, ?_, by simp,
        by simp⟩
      · intro hcap
        simp only [List.length_nil, add_zero] at hcap
        omega
      · intro d' rest' _ _ h
        exact absurd h hlt

/-- A run of the `while` loop that aborts on out-of-range mask writes and returns has
the result of the run with unchecked writes. -/
theorem selectLoop_transfer (n fr rad : Int) :
    ∀ (pts : List (PointData ℚ)) (m : Mat ℚ) (top l : List (PointData ℚ)),
      selectLoop true n fr rad pts m top = some l →
      selectLoop false n fr rad pts m top = some l := by
  intro pts
  induction pts with
  | nil => intro m top l h; simpa [selectLoop] using h
  | cons d rest ih =>
    intro m top l h
    rw [selectLoop] at h ⊢
    by_cases hlt : top.length < toSizeT n
    · rw [if_pos hlt] at h ⊢
      cases hr : m.read d.point.x d.point.y with
      | none => rw [hr] at h; simp at h
      | some v =>
        rw [hr] at h
        simp only [Option.bind_eq_bind, Option.some_bind] at h ⊢
        by_cases hv : v = 0
        · rw [if_pos hv] at h ⊢
          cases hs : suppress true m d.point rad with
          | none => rw [hs] at h; simp at h
          | some m' =>
            rw [hs] at h
            rw [suppress_transfer m m' d.point rad hs]
            simp only [Option.some_bind] at h ⊢
            exact ih _ _ _ h
        · rw [if_neg hv] at h ⊢
          exact ih _ _ _ h
    · rw [if_neg hlt] at h ⊢
      exact h

end Harris

namespace Harris

/-! ## Selection of maxima: the whole function -/

theorem Mat.filled_of_nonneg (R C : Int) (v : ℚ) (hR : 0 ≤ R) (hC : 0 ≤ C) :
    ∃ m, Mat.filled R C v = some m ∧ m.Is R C (fun _ _ => v) := by
  refine ⟨⟨R, C, fun _ _ => some v⟩, by simp [Mat.filled, hR, hC], rfl, rfl, ?_⟩
  intro _ _ _ _ _ _
  rfl

/-- The function `GetMaximaPoints` with unchecked mask writes, on a response buffer
holding `g`: it returns the remapped accepted candidates `acc`, a sublist of the sorted
list of all points.  The run that aborts on out-of-range writes returns exactly when
the square around every accepted candidate lies inside the mask. -/
theorem GetMaximaPoints_unchecked (sort : List (PointData ℚ) → List (PointData ℚ))
    (hs : IsStdSort sort) (H : Mat ℚ) (R C : Int) (g : Int → Int → ℚ) (hH : H.Is R C g)
    (hR : 0 ≤ R) (hC : 0 ≤ C) (pct : ℚ) (fr rad : Int) :
    ∃ pts acc, allPoints H = some pts ∧
      (∀ d : PointData ℚ, d ∈ pts ↔
        ∃ r c, 0 ≤ r ∧ r < R ∧ 0 ≤ c ∧ c < C ∧ d = ⟨g r c, ⟨r, c⟩⟩) ∧
      (pts.map (fun d => d.point)).Nodup ∧ (pts.length : Int) = R * C ∧
      acc.Sublist (sort pts) ∧
      GetMaximaPoints sort false H pct fr rad = some (acc.map (remap fr)) ∧
      acc.length ≤ toSizeT (numberTopPoints R C pct) ∧
      acc.Pairwise (fun a b => ¬ writesCell rad C a.point b.point.x b.point.y) ∧
      (acc.length < toSizeT (numberTopPoints R C pct) →
        ∀ d ∈ sort pts, d ∈ acc ∨
          ∃ a ∈ acc, d.cornerResponse ≤ a.cornerResponse ∧
            writesCell rad C a.point d.point.x d.point.y) ∧
      (∀ d rest, sort pts = d :: rest →
        0 < toSizeT (numberTopPoints R C pct) → ∃ acc', acc = d :: acc') ∧
      (∀ d rest, sort pts = d :: rest → ∀ a acc', acc = a :: acc' → a = d) ∧
      ((∃ l, GetMaximaPoints sort true H pct fr rad = some l) ↔
        (0 ≤ rad → ∀ a ∈ acc, 0 ≤ a.point.x - rad ∧ a.point.x + rad < R ∧
          0 ≤ a.point.y - rad ∧ a.point.y + rad < C)) := by
  obtain ⟨pts, hpts, hmem, hnd, hlen⟩ := allPoints_spec H R C g hH hR hC
  obtain ⟨m, hm, hmis⟩ := Mat.filled_of_nonneg R C 0 hR hC
  obtain ⟨hperm, hsorted⟩ := hs pts
  have hin : ∀ d ∈ sort pts,
      0 ≤ d.point.x ∧ d.point.x < R ∧ 0 ≤ d.point.y ∧ d.point.y < C := by
    intro d hd
    obtain ⟨r, c, h1, h2, h3, h4, rfl⟩ := (hmem d).1 (hperm.mem_iff.1 hd)
    exact ⟨h1, h2, h3, h4⟩
  obtain ⟨acc, hacc, hsub, hcap, _, hpw, hcov, hhead, hfirst, hchk⟩ :=
    selectLoop_unchecked (numberTopPoints R C pct) fr rad R C hR
      (fun a b => CornerResponse b a = false) (sort pts) m (fun _ _ => 0) [] hmis hin hsorted
  have hunf : ∀ checked, GetMaximaPoints sort checked H pct fr rad
      = selectLoop checked (numberTopPoints R C pct) fr rad (sort pts) m [] := by
    intro checked
    unfold GetMaximaPoints
    rw [hH.1, hH.2.1, hm, hpts]
    simp only [Option.bind_eq_bind, Option.some_bind]
  refine ⟨pts, acc, hpts, hmem, hnd, hlen, hsub, ?_, ?_, hpw, ?_, ?_, ?_, ?_⟩
  · rw [hunf, hacc]
    simp
  · simpa using hcap
  · intro hlt d hd
    rcases hcov (by simpa using hlt) d hd with h | h | ⟨a, ha, hρ, hsq⟩
    · exact Or.inl h
    · exact absurd rfl h
    · refine Or.inr ⟨a, ha, ?_, hsq⟩
      simpa [CornerResponse] using hρ
  · intro d rest hcons hpos
    exact hhead d rest hcons rfl (by simpa using hpos)
  · intro d rest hcons a acc' hacc'
    exact hfirst d rest hcons rfl a acc' hacc'
  · rw [hunf]
    exact hchk

/-- A run of `GetMaximaPoints` that aborts on out-of-range mask writes and returns has
the result of the run with unchecked writes. -/
theorem GetMaximaPoints_transfer (sort : List (PointData ℚ) → List (PointData ℚ))
    (H : Mat ℚ) (pct : ℚ) (fr rad : Int) (l : List (PointData ℚ))
    (h : GetMaximaPoints sort true H pct fr rad = some l) :
    GetMaximaPoints sort false H pct fr rad = some l := by
  unfold GetMaximaPoints at h ⊢
  cases hf : (Mat.filled H.rows H.cols (0 : ℚ)) with
  | none => rw [hf] at h; simp at h
  | some m =>
    rw [hf] at h
    cases hp : allPoints H with
    | none => rw [hp] at h; simp at h
    | some pts =>
      rw [hp] at h
      simp only [Option.bind_eq_bind, Option.some_bind] at h ⊢
      exact selectLoop_transfer _ _ _ _ _ _ _ h

/-- Whatever the treatment of out-of-range mask writes, a list returned by
`GetMaximaPoints` is the one returned with unchecked writes. -/
theorem GetMaximaPoints_any (sort : List (PointData ℚ) → List (PointData ℚ))
    (checked : Bool) (H : Mat ℚ) (pct : ℚ) (fr rad : Int) (l : List (PointData ℚ))
    (h : GetMaximaPoints sort checked H pct fr rad = some l) :
    GetMaximaPoints sort false H pct fr rad = some l := by
  cases checked
  · exact h
  · exact GetMaximaPoints_transfer sort H pct fr rad l h

end Harris

namespace Harris

/-! ## Arithmetic of the cap and of the distance -/

theorem toSizeT_le (n : Int) (h : 0 ≤ n) : (toSizeT n : Int) ≤ n := by
  unfold toSizeT
  omega

theorem toSizeT_eq (n : Int) (h : 0 ≤ n) (h' : n < 2 ^ 31) : (toSizeT n : Int) = n := by
  unfold toSizeT
  omega

theorem truncToInt_of_nonneg (x : ℚ) (h : 0 ≤ x) : truncToInt x = ⌊x⌋ := by
  simp [truncToInt, h]

theorem truncToInt_intCast (k : Int) : truncToInt (k : ℚ) = k := by
  unfold truncToInt
  split <;> simp

/-- The exponent of a positive rational is fixed by the two powers of two around it. -/
theorem log_eq_of (x : ℚ) (e : Int) (h1 : (2 : ℚ) ^ e ≤ x) (h2 : x < (2 : ℚ) ^ (e + 1)) :
    Int.log 2 x = e := by
  have hx : 0 < x := lt_of_lt_of_le (by positivity) h1
  have a : e ≤ Int.log 2 x := by
    rw [← Int.zpow_le_iff_le_log (by norm_num) hx]
    exact_mod_cast h1
  have b : Int.log 2 x < e + 1 := by
    rw [← Int.lt_zpow_iff_log_lt (by norm_num) hx]
    exact_mod_cast h2
  omega

theorem floatSpacing_pos (x : ℚ) : 0 < floatSpacing x := by
  unfold floatSpacing
  positivity

theorem floatSpacing_of (x : ℚ) (e : Int) (h1 : (2 : ℚ) ^ e ≤ |x|)
    (h2 : |x| < (2 : ℚ) ^ (e + 1)) : floatSpacing x = 2 ^ (max e (-126) - 23) := by
  unfold floatSpacing
  rw [log_eq_of |x| e h1 h2]

theorem roundHalfEven_intCast (k : Int) : roundHalfEven (k : ℚ) = k := by
  unfold roundHalfEven
  simp

theorem roundHalfEven_nonneg (x : ℚ) (h : 0 ≤ x) : 0 ≤ roundHalfEven x := by
  have hf : 0 ≤ ⌊x⌋ := Int.floor_nonneg.2 h
  unfold roundHalfEven
  split
  · exact hf
  · split
    · omega
    · split <;> omega

/-- A rational strictly within `1/2` of the integer `m` rounds to `m`. -/
theorem roundHalfEven_of_near (x : ℚ) (m : Int) (h1 : (m : ℚ) - 1 / 2 < x)
    (h2 : x < (m : ℚ) + 1 / 2) : roundHalfEven x = m := by
  unfold roundHalfEven
  by_cases hm : (m : ℚ) ≤ x
  · have hf : ⌊x⌋ = m := by
      rw [Int.floor_eq_iff]
      exact ⟨hm, by linarith⟩
    rw [hf, if_pos (by linarith)]
  · have hf : ⌊x⌋ = m - 1 := by
      rw [Int.floor_eq_iff]
      push_cast
      exact ⟨by linarith, by linarith⟩
    rw [hf]
    push_cast
    rw [if_neg (by linarith), if_pos (by linarith)]
    omega

/-- A tie between the even integer `m` and `m + 1` goes to `m`. -/
theorem roundHalfEven_tie_even (x : ℚ) (m : Int) (h : x = (m : ℚ) + 1 / 2)
    (hm : m % 2 = 0) : roundHalfEven x = m := by
  have hf : ⌊x⌋ = m := by
    rw [Int.floor_eq_iff]
    exact ⟨by linarith, by linarith⟩
  unfold roundHalfEven
  rw [hf, if_neg (by linarith), if_neg (by linarith), if_pos hm]

theorem toFloat_nonneg (x : ℚ) (h : 0 ≤ x) : 0 ≤ toFloat x := by
  unfold toFloat
  have hq := floatSpacing_pos x
  have : (0 : ℚ) ≤ (roundHalfEven (x / floatSpacing x) : ℚ) := by
    exact_mod_cast roundHalfEven_nonneg _ (div_nonneg h (le_of_lt hq))
  positivity

theorem toFloat_zero : toFloat 0 = 0 := by
  unfold toFloat
  simp [roundHalfEven]

/-- A rational that is an integer multiple of the spacing around it is a `float`. -/
theorem toFloat_of_multiple (x : ℚ) (k : Int) (h : x = k * floatSpacing x) :
    toFloat x = x := by
  unfold toFloat
  have hq := floatSpacing_pos x
  have e : x / floatSpacing x = k := by
    rw [div_eq_iff (ne_of_gt hq)]
    exact h
  rw [e, roundHalfEven_intCast, ← h]

/-- Evaluation of `toFloat x` from the exponent `e` of `x` and an integer `m` strictly
within `1/2` of the scaled value. -/
theorem toFloat_of_near (x : ℚ) (e m : Int) (h1 : (2 : ℚ) ^ e ≤ |x|)
    (h2 : |x| < (2 : ℚ) ^ (e + 1))
    (h3 : (m : ℚ) - 1 / 2 < x / 2 ^ (max e (-126) - 23))
    (h4 : x / 2 ^ (max e (-126) - 23) < (m : ℚ) + 1 / 2) :
    toFloat x = m * 2 ^ (max e (-126) - 23) := by
  unfold toFloat
  rw [floatSpacing_of x e h1 h2, roundHalfEven_of_near _ m h3 h4]

/-- Evaluation of `toFloat x` at a tie. -/
theorem toFloat_of_tie (x : ℚ) (e m : Int) (h1 : (2 : ℚ) ^ e ≤ |x|)
    (h2 : |x| < (2 : ℚ) ^ (e + 1))
    (h3 : x / 2 ^ (max e (-126) - 23) = (m : ℚ) + 1 / 2) (hm : m % 2 = 0) :
    toFloat x = m * 2 ^ (max e (-126) - 23) := by
  unfold toFloat
  rw [floatSpacing_of x e h1 h2, roundHalfEven_tie_even _ m h3 hm]

/-- Every integer from `0` to `2^24` is a `float`. -/
theorem toFloat_natCast (n : Nat) (h : n ≤ 2 ^ 24) : toFloat (n : ℚ) = n := by
  rcases Nat.eq_zero_or_pos n with rfl | hpos
  · simpa using toFloat_zero
  · have hlog : Int.log 2 |(n : ℚ)| = (Nat.log 2 n : Int) := by
      rw [abs_of_nonneg (by positivity)]
      exact Int.log_natCast 2 n
    have hle : Nat.log 2 n ≤ 24 := by
      have := Nat.pow_log_le_self 2 (Nat.pos_iff_ne_zero.1 hpos)
      by_contra hgt
      have h25 : 2 ^ 25 ≤ 2 ^ Nat.log 2 n := Nat.pow_le_pow_right (by norm_num) (by omega)
      omega
    have hsp : floatSpacing (n : ℚ) = 2 ^ ((Nat.log 2 n : Int) - 23) := by
      unfold floatSpacing
      rw [hlog, max_eq_left (by omega)]
    by_cases h24 : Nat.log 2 n = 24
    · have hn : n = 2 ^ 24 := by
        have := Nat.pow_log_le_self 2 (Nat.pos_iff_ne_zero.1 hpos)
        rw [h24] at this
        omega
      refine toFloat_of_multiple _ (2 ^ 23) ?_
      rw [hsp, h24, hn]
      norm_num
    · refine toFloat_of_multiple _ ((n * 2 ^ (23 - Nat.log 2 n) : Nat) : Int) ?_
      rw [hsp]
      have e : ((Nat.log 2 n : Int) - 23) = -((23 - Nat.log 2 n : Nat) : Int) := by omega
      rw [e, zpow_neg, zpow_natCast]
      push_cast
      field_simp

theorem numberTopPoints_one (rows cols : Nat) (h : rows * cols ≤ 2 ^ 24) :
    numberTopPoints rows cols 1 = rows * cols := by
  unfold numberTopPoints
  have e : (((cols : Int) * (rows : Int) : Int) : ℚ) = ((rows * cols : Nat) : ℚ) := by
    push_cast; ring
  rw [e, toFloat_natCast _ h, mul_one, toFloat_natCast _ h]
  have : ((rows * cols : Nat) : ℚ) = (((rows * cols : Nat) : Int) : ℚ) := by push_cast; rfl
  rw [this, truncToInt_intCast]
  push_cast
  rfl

theorem numberTopPoints_zero (rows cols : Int) : numberTopPoints rows cols 0 = 0 := by
  unfold numberTopPoints
  rw [mul_zero, toFloat_zero]
  simp [truncToInt]

theorem numberTopPoints_nonneg (rows cols : Nat) (pct : ℚ) (h : 0 ≤ pct) :
    0 ≤ numberTopPoints rows cols pct := by
  unfold numberTopPoints
  have h1 : (0 : ℚ) ≤ toFloat ((((cols : Int) * (rows : Int) : Int)) : ℚ) :=
    toFloat_nonneg _ (by positivity)
  have h2 := toFloat_nonneg _ (mul_nonneg h1 h)
  rw [truncToInt_of_nonneg _ h2]
  exact Int.floor_nonneg.2 h2

/-- For a percentage `≥ 0` the number of returned points is bounded by the `int` of
line 45. -/
theorem cap_le (rows cols : Nat) (pct : ℚ) (h : 0 ≤ pct) :
    (toSizeT (numberTopPoints rows cols pct) : Int) ≤ numberTopPoints rows cols pct :=
  toSizeT_le _ (numberTopPoints_nonneg rows cols pct h)

theorem cap_pos (n : Int) (h1 : 1 ≤ n) (h2 : n < 2 ^ 31) : 0 < toSizeT n := by
  have := toSizeT_eq n (by omega) h2
  omega

theorem cap_full (rows cols : Nat) (h : rows * cols ≤ 2 ^ 24) :
    toSizeT (numberTopPoints rows cols 1) = rows * cols := by
  rw [numberTopPoints_one rows cols h]
  have := toSizeT_eq ((rows : Int) * (cols : Int)) (by positivity)
    (by
      have : ((rows * cols : Nat) : Int) ≤ 2 ^ 24 := by exact_mod_cast h
      push_cast at this
      omega)
  exact_mod_cast this

theorem cheb_le_iff (p q : Point) (rad : Int) : cheb p q ≤ rad ↔ inSquare rad p q := by
  unfold cheb inSquare
  rw [max_le_iff, abs_le, abs_le]
  constructor
  · rintro ⟨⟨h1, h2⟩, ⟨h3, h4⟩⟩
    exact ⟨by omega, by omega, by omega, by omega⟩
  · rintro ⟨h1, h2, h3, h4⟩
    exact ⟨⟨by omega, by omega⟩, ⟨by omega, by omega⟩⟩

theorem remap_point (fr : Int) (d : PointData ℚ) :
    (⟨(remap fr d).point.x - (1 + fr), (remap fr d).point.y - (1 + fr)⟩ : Point) = d.point := by
  simp [remap]

theorem remap_cornerResponse (fr : Int) (d : PointData ℚ) :
    (remap fr d).cornerResponse = d.cornerResponse := rfl

end Harris

namespace Harris

/-- Summary of `GetMaximaPoints` on an `rows × cols` response buffer holding `g`.  With
unchecked mask writes the call returns the remapped list `acc` of accepted grid
candidates; `acc` has distinct grid positions, descending scores, at most
`numberTopPoints` elements, no element in the square of an earlier one nor in a cell
written by the neighbourhood loops of an earlier one; if the loop does not stop at the
cap, every grid position is accepted or its cell is written by the neighbourhood loops
of an accepted candidate of at least its score; the first element, if there is one,
carries the maximal score, and there is one if the cap is positive and the buffer is
not empty.  A call that aborts on out-of-range writes returns the same list if it
returns, and it returns exactly when the square around every accepted candidate lies
inside the mask. -/
theorem GetMaximaPoints_result (sort : List (PointData ℚ) → List (PointData ℚ))
    (hs : IsStdSort sort) (H : Mat ℚ) (rows cols : Nat) (g : Int → Int → ℚ)
    (hH : H.Is rows cols g) (pct : ℚ) (fr rad : Int) :
    ∃ acc : List (PointData ℚ),
      GetMaximaPoints sort false H pct fr rad = some (acc.map (remap fr)) ∧
      (∀ checked l, GetMaximaPoints sort checked H pct fr rad = some l →
        l = acc.map (remap fr)) ∧
      (∀ d ∈ acc, ∃ r c : Int, 0 ≤ r ∧ r < rows ∧ 0 ≤ c ∧ c < cols ∧ d = ⟨g r c, ⟨r, c⟩⟩) ∧
      (acc.map (fun d => d.point)).Nodup ∧
      acc.Pairwise (fun a b => b.cornerResponse ≤ a.cornerResponse) ∧
      acc.length ≤ toSizeT (numberTopPoints rows cols pct) ∧
      acc.Pairwise (fun a b => ¬ inSquare rad a.point b.point) ∧
      ((acc.length < toSizeT (numberTopPoints rows cols pct) ∨
          rows * cols ≤ toSizeT (numberTopPoints rows cols pct)) →
        ∀ r c : Int, 0 ≤ r → r < rows → 0 ≤ c → c < cols →
          (⟨g r c, ⟨r, c⟩⟩ : PointData ℚ) ∈ acc ∨
            ∃ a ∈ acc, g r c ≤ a.cornerResponse ∧ writesCell rad cols a.point r c) ∧
      (0 < toSizeT (numberTopPoints rows cols pct) → 0 < rows → 0 < cols →
        ∃ d acc', acc = d :: acc' ∧
          ∀ r c : Int, 0 ≤ r → r < rows → 0 ≤ c → c < cols → g r c ≤ d.cornerResponse) ∧
      ((∀ r c : Int, 0 ≤ r → r < rows → 0 ≤ c → c < cols →
          (⟨g r c, ⟨r, c⟩⟩ : PointData ℚ) ∈ acc) → acc.length = rows * cols) ∧
      (∀ d acc', acc = d :: acc' →
        ∀ r c : Int, 0 ≤ r → r < rows → 0 ≤ c → c < cols → g r c ≤ d.cornerResponse) ∧
      acc.length ≤ rows * cols ∧
      acc.Pairwise (fun a b => ¬ writesCell rad cols a.point b.point.x b.point.y) ∧
      ((∃ l, GetMaximaPoints sort true H pct fr rad = some l) ↔
        (0 ≤ rad → ∀ a ∈ acc, 0 ≤ a.point.x - rad ∧ a.point.x + rad < rows ∧
          0 ≤ a.point.y - rad ∧ a.point.y + rad < cols)) := by
  obtain ⟨pts, acc, _, hmem, hnd, hlen, hsub, hgmp, hcap, hpw, hcov, hhead, hfirst, hchk⟩ :=
    GetMaximaPoints_unchecked sort hs H rows cols g hH (by omega) (by omega) pct fr rad
  obtain ⟨hperm, hsorted⟩ := hs pts
  have hsorted' : (sort pts).Pairwise (fun a b => b.cornerResponse ≤ a.cornerResponse) := by
    refine hsorted.imp ?_
    intro a b hab
    simpa [CornerResponse] using hab
  have hlen' : pts.length = rows * cols := by
    have : (pts.length : Int) = ((rows * cols : Nat) : Int) := by
      rw [hlen]; push_cast; ring
    exact_mod_cast this
  have hmax : ∀ d rest, sort pts = d :: rest →
      ∀ r c : Int, 0 ≤ r → r < rows → 0 ≤ c → c < cols → g r c ≤ d.cornerResponse := by
    intro d rest hsp r c h1 h2 h3 h4
    have hp : (⟨g r c, ⟨r, c⟩⟩ : PointData ℚ) ∈ sort pts :=
      hperm.mem_iff.2 ((hmem _).2 ⟨r, c, h1, h2, h3, h4, rfl⟩)
    rw [hsp] at hp hsorted'
    rcases List.mem_cons.1 hp with h | h
    · rw [← h]
    · exact (List.pairwise_cons.1 hsorted').1 _ h
  refine ⟨acc, hgmp, ?_, ?_, ?_, hsorted'.sublist hsub, hcap, ?_, ?_, ?_, ?_, ?_, ?_, hpw,
    hchk⟩
  · intro checked l hl
    have := GetMaximaPoints_any sort checked H pct fr rad l hl
    rw [hgmp] at this
    exact (Option.some.inj this).symm
  · intro d hd
    exact (hmem d).1 (hperm.mem_iff.1 (hsub.subset hd))
  · exact ((hperm.map _).nodup_iff.2 hnd).sublist (hsub.map _)
  · refine hpw.imp ?_
    intro a b hab hsq
    exact hab (writesCell_of_inSquare rad cols a.point b.point.x b.point.y hsq)
  · intro hall r c h1 h2 h3 h4
    have hp : (⟨g r c, ⟨r, c⟩⟩ : PointData ℚ) ∈ sort pts :=
      hperm.mem_iff.2 ((hmem _).2 ⟨r, c, h1, h2, h3, h4, rfl⟩)
    by_cases hlt : acc.length < toSizeT (numberTopPoints rows cols pct)
    · exact hcov hlt _ hp
    · have hge : (sort pts).length ≤ acc.length := by
        rw [hperm.length_eq, hlen']
        rcases hall with h | h
        · exact absurd h hlt
        · omega
      have := hsub.eq_of_length_le hge
      rw [this]
      exact Or.inl hp
  · intro hpos hr hc
    have h00 : (⟨g 0 0, ⟨0, 0⟩⟩ : PointData ℚ) ∈ sort pts :=
      hperm.mem_iff.2 ((hmem _).2 ⟨0, 0, le_rfl, by omega, le_rfl, by omega, rfl⟩)
    cases hsp : sort pts with
    | nil => rw [hsp] at h00; simp at h00
    | cons d rest =>
      obtain ⟨acc', hacc'⟩ := hhead d rest hsp hpos
      exact ⟨d, acc', hacc', hmax d rest hsp⟩
  · intro hall
    have hnd' : (sort pts).Nodup := List.Nodup.of_map _ ((hperm.map _).nodup_iff.2 hnd)
    have hsubset : sort pts ⊆ acc := by
      intro d hd
      obtain ⟨r, c, h1, h2, h3, h4, rfl⟩ := (hmem d).1 (hperm.mem_iff.1 hd)
      exact hall r c h1 h2 h3 h4
    have h1 : (sort pts).length ≤ acc.length := (List.subperm_of_subset hnd' hsubset).length_le
    have h2 : acc.length ≤ (sort pts).length := hsub.length_le
    rw [← hlen', ← hperm.length_eq]
    omega
  · intro d acc' hacc
    cases hsp : sort pts with
    | nil =>
      rw [hsp, hacc] at hsub
      exact absurd hsub (by simp)
    | cons d' rest =>
      have := hfirst d' rest hsp d acc' hacc
      subst this
      exact hmax d rest hsp
  · rw [← hlen', ← hperm.length_eq]
    exact hsub.length_le

end Harris

namespace Harris

theorem insertionStdSort_isStdSort : IsStdSort insertionStdSort := by
  intro l
  haveI : IsTotal (PointData ℚ) (fun a b => b.cornerResponse ≤ a.cornerResponse) :=
    ⟨fun a b => le_total _ _⟩
  haveI : IsTrans (PointData ℚ) (fun a b => b.cornerResponse ≤ a.cornerResponse) :=
    ⟨fun a b c hab hbc => le_trans hbc hab⟩
  refine ⟨List.perm_insertionSort _ l, ?_⟩
  have h := List.sorted_insertionSort (fun a b : PointData ℚ =>
    b.cornerResponse ≤ a.cornerResponse) l
  refine List.Pairwise.imp ?_ h
  intro a b hab
  simpa [CornerResponse] using hab

/-- With `suppressionRadius = 0` the only mask write of `suppress` is at the accepted
position itself, so it is in range and both treatments of out-of-range writes agree. -/
theorem suppress_radius_zero (m : Mat ℚ) (p : Point) (hb : m.inBounds p.x p.y) :
    suppress true m p 0 = suppress false m p 0 := by
  simp [suppress, forLoop, forLoopN, maskWrite, hb]

theorem selectLoop_radius_zero (n fr R C : Int) (hR : 0 ≤ R) :
    ∀ (pts : List (PointData ℚ)) (m : Mat ℚ) (μ : Int → Int → ℚ) (top : List (PointData ℚ)),
      m.Is R C μ →
      (∀ d ∈ pts, 0 ≤ d.point.x ∧ d.point.x < R ∧ 0 ≤ d.point.y ∧ d.point.y < C) →
      selectLoop true n fr 0 pts m top = selectLoop false n fr 0 pts m top := by
  intro pts
  induction pts with
  | nil => intro m μ top _ _; rfl
  | cons d rest ih =>
    intro m μ top hm hin
    have hd := hin d (List.mem_cons_self _ _)
    have hin' : ∀ x ∈ rest, 0 ≤ x.point.x ∧ x.point.x < R ∧ 0 ≤ x.point.y ∧ x.point.y < C :=
      fun x hx => hin x (List.mem_cons_of_mem _ hx)
    have hb : m.inBounds d.point.x d.point.y := by
      unfold Mat.inBounds
      rw [hm.1, hm.2.1]
      exact hd
    rw [selectLoop, selectLoop]
    by_cases hlt : top.length < toSizeT n
    · rw [if_pos hlt, if_pos hlt, hm.read d.point.x d.point.y hd.1 hd.2.1 hd.2.2.1 hd.2.2.2]
      simp only [Option.bind_eq_bind, Option.some_bind]
      by_cases hfree : μ d.point.x d.point.y = 0
      · rw [if_pos hfree, if_pos hfree, suppress_radius_zero m d.point hb]
        obtain ⟨m', hm', hm'is⟩ := suppress_unchecked m R C μ d.point 0 hm hR
        rw [hm']
        simp only [Option.some_bind]
        exact ih m' _ _ hm'is hin'
      · rw [if_neg hfree, if_neg hfree]
        exact ih m μ top hm hin'
    · rw [if_neg hlt, if_neg hlt]

/-- With `suppressionRadius = 0` no mask write is out of range: the call that aborts on
such writes returns what the call with unchecked writes returns. -/
theorem GetMaximaPoints_radius_zero (sort : List (PointData ℚ) → List (PointData ℚ))
    (hs : IsStdSort sort) (H : Mat ℚ) (rows cols : Nat) (g : Int → Int → ℚ)
    (hH : H.Is rows cols g) (pct : ℚ) (fr : Int) :
    GetMaximaPoints sort true H pct fr 0 = GetMaximaPoints sort false H pct fr 0 := by
  obtain ⟨pts, hpts, hmem, _, _⟩ := allPoints_spec H rows cols g hH (by omega) (by omega)
  obtain ⟨m, hm, hmis⟩ := Mat.filled_of_nonneg (rows : Int) cols 0 (by omega) (by omega)
  obtain ⟨hperm, _⟩ := hs pts
  unfold GetMaximaPoints
  rw [hH.1, hH.2.1, hm, hpts]
  simp only [Option.bind_eq_bind, Option.some_bind]
  refine selectLoop_radius_zero _ fr rows cols (by omega) _ m _ [] hmis ?_
  intro d hd
  obtain ⟨r, c, h1, h2, h3, h4, rfl⟩ := (hmem d).1 (hperm.mem_iff.1 hd)
  exact ⟨h1, h2, h3, h4⟩

/-- When the cap is `0` the `while` loop returns at once. -/
theorem selectLoop_cap_zero (checked : Bool) (n fr rad : Int) (h : toSizeT n = 0)
    (pts : List (PointData ℚ)) (m : Mat ℚ) :
    selectLoop checked n fr rad pts m [] = some [] := by
  cases pts with
  | nil => rfl
  | cons d rest =>
    rw [selectLoop, if_neg (by rw [h]; simp)]

/-- When the `int` of line 45 converts to the `size_t` zero, the call returns the empty
list. -/
theorem GetMaximaPoints_cap_zero (sort : List (PointData ℚ) → List (PointData ℚ))
    (checked : Bool) (H : Mat ℚ) (rows cols : Nat) (g : Int → Int → ℚ)
    (hH : H.Is rows cols g) (pct : ℚ) (fr rad : Int)
    (h : toSizeT (numberTopPoints rows cols pct) = 0) :
    GetMaximaPoints sort checked H pct fr rad = some [] := by
  obtain ⟨pts, hpts, _⟩ := allPoints_spec H rows cols g hH (by omega) (by omega)
  obtain ⟨m, hm, _⟩ := Mat.filled_of_nonneg (rows : Int) cols 0 (by omega) (by omega)
  unfold GetMaximaPoints
  rw [hH.1, hH.2.1, hm, hpts]
  simp only [Option.bind_eq_bind, Option.some_bind]
  exact selectLoop_cap_zero checked _ fr rad h _ m

theorem GetMaximaPoints_percentage_zero (sort : List (PointData ℚ) → List (PointData ℚ))
    (checked : Bool) (H : Mat ℚ) (rows cols : Nat) (g : Int → Int → ℚ)
    (hH : H.Is rows cols g) (fr rad : Int) :
    GetMaximaPoints sort checked H 0 fr rad = some [] :=
  GetMaximaPoints_cap_zero sort checked H rows cols g hH 0 fr rad
    (by rw [numberTopPoints_zero]; rfl)

/-- With `suppressionRadius = 0` every candidate is accepted until the cap is reached:
the returned list has `min(numberTopPoints, rows·cols)` elements, whether out-of-range
mask writes abort the call or not. -/
theorem GetMaximaPoints_radius_zero_length (sort : List (PointData ℚ) → List (PointData ℚ))
    (hs : IsStdSort sort) (H : Mat ℚ) (rows cols : Nat) (g : Int → Int → ℚ)
    (hH : H.Is rows cols g) (pct : ℚ) (fr : Int) :
    ∃ l, (∀ checked, GetMaximaPoints sort checked H pct fr 0 = some l) ∧
      l.length = min (toSizeT (numberTopPoints rows cols pct)) (rows * cols) := by
  obtain ⟨acc, hgmp, _, hgrid, _, _, hcap, _, hcov, _, hfull, _, hlen, _, _⟩ :=
    GetMaximaPoints_result sort hs H rows cols g hH pct fr 0
  refine ⟨acc.map (remap fr), ?_, ?_⟩
  · intro checked
    cases checked
    · exact hgmp
    · rw [GetMaximaPoints_radius_zero sort hs H rows cols g hH pct fr]
      exact hgmp
  · rw [List.length_map]
    by_cases hlt : acc.length < toSizeT (numberTopPoints rows cols pct)
    · have hall : ∀ r c : Int, 0 ≤ r → r < rows → 0 ≤ c → c < cols →
          (⟨g r c, ⟨r, c⟩⟩ : PointData ℚ) ∈ acc := by
        intro r c h1 h2 h3 h4
        rcases hcov (Or.inl hlt) r c h1 h2 h3 h4 with h | ⟨a, ha, _, hw⟩
        · exact h
        · obtain ⟨r', c', _, _, g3, g4, rfl⟩ := hgrid a ha
          obtain ⟨e1, e2⟩ := writesCell_radius_zero cols ⟨r', c'⟩ r c h3 h4 g3 g4 hw
          dsimp only at e1 e2
          subst e1 e2
          exact ha
      have := hfull hall
      omega
    · omega

end Harris

namespace Harris

/-! ## A flat image with one brighter pixel -/

/-- In a `7 × 7` buffer that is `v` everywhere except for the value `h` at `(pr,pc)`,
both stencils vanish at every window that does not contain the pixel `(pr,pc)` or has
it at its centre. -/
theorem spike_stencils_zero (I : Int → Int → ℚ) (v h : ℚ) (pr pc : Int)
    (hl : ∀ a b : Int, 0 ≤ a → a < 7 → 0 ≤ b → b < 7 →
      I a b = if a = pr ∧ b = pc then h else v)
    (r c : Int) (hr0 : 0 ≤ r) (hr1 : r < 5) (hc0 : 0 ≤ c) (hc1 : c < 5)
    (hfar : (pr < r ∨ r + 2 < pr ∨ pc < c ∨ c + 2 < pc) ∨ (pr = r + 1 ∧ pc = c + 1)) :
    sobelStencilX I r c = 0 ∧ sobelStencilY I r c = 0 := by
  have e : ∀ a b : Int, r ≤ a → a ≤ r + 2 → c ≤ b → b ≤ c + 2 → ¬ (a = r + 1 ∧ b = c + 1) →
      I a b = v := by
    intro a b h1 h2 h3 h4 h5
    rw [hl a b (by omega) (by omega) (by omega) (by omega), if_neg (by omega)]
  unfold sobelStencilX sobelStencilY
  rw [e r c (by omega) (by omega) (by omega) (by omega) (by omega),
    e r (c + 1) (by omega) (by omega) (by omega) (by omega) (by omega),
    e r (c + 2) (by omega) (by omega) (by omega) (by omega) (by omega),
    e (r + 2) c (by omega) (by omega) (by omega) (by omega) (by omega),
    e (r + 2) (c + 1) (by omega) (by omega) (by omega) (by omega) (by omega),
    e (r + 2) (c + 2) (by omega) (by omega) (by omega) (by omega) (by omega),
    e (r + 1) c (by omega) (by omega) (by omega) (by omega) (by omega),
    e (r + 1) (c + 2) (by omega) (by omega) (by omega) (by omega) (by omega)]
  constructor <;> ring

/-- In such a buffer with `v < h` some window has a non-zero `Ix`. -/
theorem spike_stencil_nonzero (I : Int → Int → ℚ) (v h : ℚ) (pr pc : Int)
    (hl : ∀ a b : Int, 0 ≤ a → a < 7 → 0 ≤ b → b < 7 →
      I a b = if a = pr ∧ b = pc then h else v)
    (hv : v < h) (hpr0 : 0 ≤ pr) (hpr1 : pr < 7) (hpc0 : 0 ≤ pc) (hpc1 : pc < 7) :
    ∃ r c : Int, 0 ≤ r ∧ r < 5 ∧ 0 ≤ c ∧ c < 5 ∧ sobelStencilX I r c ≠ 0 := by
  have e0 : ∀ a b : Int, 0 ≤ a → a < 7 → 0 ≤ b → b < 7 → ¬ (a = pr ∧ b = pc) → I a b = v := by
    intro a b h1 h2 h3 h4 h5
    rw [hl a b h1 h2 h3 h4, if_neg h5]
  have e1 : I pr pc = h := by
    rw [hl pr pc hpr0 hpr1 hpc0 hpc1, if_pos ⟨rfl, rfl⟩]
  by_cases h1 : pr ≤ 3
  · by_cases h2 : pc ≤ 4
    · refine ⟨pr, pc, hpr0, by omega, hpc0, by omega, ?_⟩
      unfold sobelStencilX
      rw [e1, e0 pr (pc + 1) (by omega) (by omega) (by omega) (by omega) (by omega),
        e0 pr (pc + 2) (by omega) (by omega) (by omega) (by omega) (by omega),
        e0 (pr + 2) pc (by omega) (by omega) (by omega) (by omega) (by omega),
        e0 (pr + 2) (pc + 1) (by omega) (by omega) (by omega) (by omega) (by omega),
        e0 (pr + 2) (pc + 2) (by omega) (by omega) (by omega) (by omega) (by omega)]
      intro hz
      linarith
    · refine ⟨pr, pc - 2, hpr0, by omega, by omega, by omega, ?_⟩
      unfold sobelStencilX
      have e2 : pc - 2 + 2 = pc := by ring
      rw [e2, e1, e0 pr (pc - 2) (by omega) (by omega) (by omega) (by omega) (by omega),
        e0 pr (pc - 2 + 1) (by omega) (by omega) (by omega) (by omega) (by omega),
        e0 (pr + 2) (pc - 2) (by omega) (by omega) (by omega) (by omega) (by omega),
        e0 (pr + 2) (pc - 2 + 1) (by omega) (by omega) (by omega) (by omega) (by omega),
        e0 (pr + 2) pc (by omega) (by omega) (by omega) (by omega) (by omega)]
      intro hz
      linarith
  · by_cases h2 : pc ≤ 4
    · refine ⟨pr - 2, pc, by omega, by omega, hpc0, by omega, ?_⟩
      unfold sobelStencilX
      have e2 : pr - 2 + 2 = pr := by ring
      rw [e2, e1, e0 (pr - 2) pc (by omega) (by omega) (by omega) (by omega) (by omega),
        e0 (pr - 2) (pc + 1) (by omega) (by omega) (by omega) (by omega) (by omega),
        e0 (pr - 2) (pc + 2) (by omega) (by omega) (by omega) (by omega) (by omega),
        e0 pr (pc + 1) (by omega) (by omega) (by omega) (by omega) (by omega),
        e0 pr (pc + 2) (by omega) (by omega) (by omega) (by omega) (by omega)]
      intro hz
      linarith
    · refine ⟨pr - 2, pc - 2, by omega, by omega, by omega, by omega, ?_⟩
      unfold sobelStencilX
      have e2 : pr - 2 + 2 = pr := by ring
      have e3 : pc - 2 + 2 = pc := by ring
      rw [e2, e3, e1, e0 (pr - 2) (pc - 2) (by omega) (by omega) (by omega) (by omega) (by omega),
        e0 (pr - 2) (pc - 2 + 1) (by omega) (by omega) (by omega) (by omega) (by omega),
        e0 (pr - 2) pc (by omega) (by omega) (by omega) (by omega) (by omega),
        e0 pr (pc - 2) (by omega) (by omega) (by omega) (by omega) (by omega),
        e0 pr (pc - 2 + 1) (by omega) (by omega) (by omega) (by omega) (by omega)]
      intro hz
      linarith

theorem harrisScore_pos (k ix iy : ℚ) (hk : k ≠ 0) (hx : ix ≠ 0) : 0 < harrisScore k ix iy := by
  rw [harrisScore_eq]
  have h1 : 0 < |k| := abs_pos.2 hk
  have h2 : 0 < ix * ix + iy * iy := by
    have := mul_self_pos.2 hx
    have := mul_self_nonneg iy
    linarith
  positivity

/-- End to end on a flat `7 × 7` image with one brighter pixel `(pr,pc)`, with
`filterRange = 0`, the box-sum strategy, `percentage = 1` and any `k ≠ 0`: the
constructor returns, a list is returned when mask writes are unchecked, and
the first candidate of every returned list is at Chebyshev distance exactly `1` from
`(pr,pc)`. -/
theorem first_candidate_near_spike (sort : List (PointData ℚ) → List (PointData ℚ))
    (hs : IsStdSort sort) (weight : Int → ℚ) (img : Image) (v h k : ℚ) (pr pc : Int)
    (rad : Int)
    (hrows : img.rows = 7) (hcols : img.cols = 7)
    (hl : ∀ a b : Int, 0 ≤ a → a < 7 → 0 ≤ b → b < 7 →
      luminance img a b = if a = pr ∧ b = pc then h else v)
    (hv : v < h) (hk : k ≠ 0) (hpr0 : 0 ≤ pr) (hpr1 : pr < 7) (hpc0 : 0 ≤ pc) (hpc1 : pc < 7) :
    ∃ M, Harris weight img k 0 false = some M ∧
      (∃ l, GetMaximaPoints sort false M 1 0 rad = some l) ∧
      ∀ checked l, GetMaximaPoints sort checked M 1 0 rad = some l →
        ∃ d rest, l = d :: rest ∧ cheb d.point ⟨pr, pc⟩ = 1 := by
  obtain ⟨M, hM, hMis⟩ := Harris_spec weight img k 0 false le_rfl
    (by rw [hrows]; decide) (by rw [hcols]; decide)
  have hMis' : M.Is ((5 : Nat) : Int) ((5 : Nat) : Int) (fun r c =>
      harrisScore k (sobelStencilX (luminance img) r c) (sobelStencilY (luminance img) r c)) := by
    have := hMis
    rw [hrows, hcols] at this
    simpa [smoothed] using this
  obtain ⟨acc, hgmp, hany, hgrid, _, _, _, _, _, hhead, _⟩ :=
    GetMaximaPoints_result sort hs M 5 5 _ hMis' 1 0 rad
  refine ⟨M, hM, ⟨_, hgmp⟩, ?_⟩
  intro checked l hl'
  rw [hany checked l hl']
  obtain ⟨d, acc', hacc, hmax⟩ := hhead (by rw [cap_full 5 5 (by norm_num)]; decide)
    (by decide) (by decide)
  obtain ⟨r, c, h1, h2, h3, h4, hd⟩ := hgrid d (by rw [hacc]; exact List.mem_cons_self _ _)
  refine ⟨remap 0 d, acc'.map (remap 0), by rw [hacc]; rfl, ?_⟩
  obtain ⟨r0, c0, g1, g2, g3, g4, hne⟩ :=
    spike_stencil_nonzero (luminance img) v h pr pc hl hv hpr0 hpr1 hpc0 hpc1
  have hpos0 := harrisScore_pos k _ (sobelStencilY (luminance img) r0 c0) hk hne
  have hge := hmax r0 c0 g1 (by exact_mod_cast g2) g3 (by exact_mod_cast g4)
  rw [hd] at hge
  dsimp only at hge
  have hpos : 0 < harrisScore k (sobelStencilX (luminance img) r c)
      (sobelStencilY (luminance img) r c) := lt_of_lt_of_le hpos0 hge
  have hnear : ¬ ((pr < r ∨ r + 2 < pr ∨ pc < c ∨ c + 2 < pc) ∨ (pr = r + 1 ∧ pc = c + 1)) := by
    intro hfar
    obtain ⟨ex, ey⟩ := spike_stencils_zero (luminance img) v h pr pc hl r c h1
      (by exact_mod_cast h2) h3 (by exact_mod_cast h4) hfar
    rw [ex, ey, harrisScore_zero] at hpos
    exact lt_irrefl _ hpos
  have hle : cheb (remap 0 d).point ⟨pr, pc⟩ ≤ 1 := by
    rw [cheb_le_iff, hd]
    unfold inSquare remap
    dsimp only
    omega
  have hnz : ¬ cheb (remap 0 d).point ⟨pr, pc⟩ ≤ 0 := by
    rw [cheb_le_iff, hd]
    unfold inSquare remap
    dsimp only
    omega
  omega

end Harris

namespace Harris

/-! ## Line 45 at particular sizes and percentages -/

/-- Line 45 step by step: the conversion of the `int` product, the `float` product and
the truncation. -/
theorem numberTopPoints_eval (rows cols : Int) (pct a b : ℚ) (k : Int)
    (h1 : toFloat ((cols * rows : Int) : ℚ) = a) (h2 : toFloat (a * pct) = b)
    (h3 : truncToInt b = k) : numberTopPoints rows cols pct = k := by
  unfold numberTopPoints
  rw [h1, h2, h3]

/-- The value `3 · 0.25 = 0.75` is a `float` and truncates to `0`. -/
theorem numberTopPoints_three_quarter :
    numberTopPoints ((1 : Nat) : Int) ((3 : Nat) : Int) (1 / 4) = 0 := by
  refine numberTopPoints_eval _ _ _ 3 (3 / 4) 0 ?_ ?_ ?_
  · have := toFloat_natCast 3 (by norm_num)
    norm_num at this ⊢
    exact this
  · have e : (3 : ℚ) * (1 / 4) = 3 / 4 := by norm_num
    rw [e]
    refine toFloat_of_multiple _ (3 * 2 ^ 22) ?_
    rw [floatSpacing_of (3 / 4) (-1) (by norm_num [abs_of_nonneg])
      (by norm_num [abs_of_nonneg])]
    norm_num
  · unfold truncToInt
    rw [if_pos (by norm_num), Int.floor_eq_iff]
    norm_num

/-- The `float` nearest to `0.7` is `11744051 / 2^24`; its `float` product with `10`
is `7`, although the exact product is below `7`. -/
theorem numberTopPoints_ten_seven_tenths :
    numberTopPoints ((1 : Nat) : Int) ((10 : Nat) : Int) (11744051 / 16777216) = 7 := by
  refine numberTopPoints_eval _ _ _ 10 7 7 ?_ ?_ ?_
  · have := toFloat_natCast 10 (by norm_num)
    norm_num at this ⊢
    exact this
  · have e : (10 : ℚ) * (11744051 / 16777216) = 58720255 / 8388608 := by norm_num
    rw [e, toFloat_of_near (58720255 / 8388608) 2 14680064
      (by norm_num [abs_of_nonneg]) (by norm_num [abs_of_nonneg]) (by norm_num)
      (by norm_num)]
    norm_num
  · have := truncToInt_intCast 7
    norm_num at this ⊢
    exact this

/-- The product `4097 · 4097 = 2^24 + 8193` is not a `float`: it lies half-way between
`2^24 + 8192` and `2^24 + 8194` and is rounded to the first. -/
theorem toFloat_4097_squared : toFloat 16785409 = 16785408 := by
  rw [toFloat_of_tie 16785409 24 8392704 (by norm_num [abs_of_nonneg])
    (by norm_num [abs_of_nonneg]) (by norm_num) (by decide)]
  norm_num

theorem toFloat_16785408 : toFloat 16785408 = 16785408 := by
  refine toFloat_of_multiple _ 8392704 ?_
  rw [floatSpacing_of 16785408 24 (by norm_num [abs_of_nonneg])
    (by norm_num [abs_of_nonneg])]
  norm_num

/-- On a `4097 × 4097` buffer with `percentage = 1` line 45 gives `rows·cols − 1`. -/
theorem numberTopPoints_4097_one :
    numberTopPoints ((4097 : Nat) : Int) ((4097 : Nat) : Int) 1 = 16785408 := by
  refine numberTopPoints_eval _ _ _ 16785408 16785408 16785408 ?_ ?_ ?_
  · have := toFloat_4097_squared
    norm_num at this ⊢
    exact this
  · rw [mul_one]
    exact toFloat_16785408
  · have := truncToInt_intCast 16785408
    norm_num at this ⊢
    exact this

/-- On a `4097 × 4097` buffer with the `float` percentage `16769027 / 2^48` the exact
product `rows·cols·percentage` is above `1`, and line 45 gives `0`. -/
theorem numberTopPoints_4097_small :
    numberTopPoints ((4097 : Nat) : Int) ((4097 : Nat) : Int)
      (16769027 / 281474976710656) = 0 := by
  refine numberTopPoints_eval _ _ _ 16785408 (16777215 / 16777216) 0 ?_ ?_ ?_
  · have := toFloat_4097_squared
    norm_num at this ⊢
    exact this
  · have e : (16785408 : ℚ) * (16769027 / 281474976710656)
        = 34359736323 / 34359738368 := by norm_num
    rw [e, toFloat_of_near (34359736323 / 34359738368) (-1) 16777215
      (by norm_num [abs_of_nonneg]) (by norm_num [abs_of_nonneg]) (by norm_num)
      (by norm_num)]
    norm_num
  · unfold truncToInt
    rw [if_pos (by norm_num), Int.floor_eq_iff]
    norm_num

theorem toFloat_one : toFloat 1 = 1 := by
  have := toFloat_natCast 1 (by norm_num)
  norm_num at this
  exact this

theorem numberTopPoints_one_three_halves :
    numberTopPoints 1 1 (3 / 2) = 1 := by
  refine numberTopPoints_eval _ _ _ 1 (3 / 2) 1 ?_ ?_ ?_
  · norm_num
    exact toFloat_one
  · rw [one_mul]
    refine toFloat_of_multiple _ (3 * 2 ^ 22) ?_
    rw [floatSpacing_of (3 / 2) 0 (by norm_num [abs_of_nonneg])
      (by norm_num [abs_of_nonneg])]
    norm_num
  · unfold truncToInt
    rw [if_pos (by norm_num), Int.floor_eq_iff]
    norm_num

theorem numberTopPoints_one_minus_one :
    numberTopPoints 1 1 (-1) = -1 := by
  refine numberTopPoints_eval _ _ _ 1 (-1) (-1) ?_ ?_ ?_
  · norm_num
    exact toFloat_one
  · rw [one_mul]
    refine toFloat_of_multiple _ (-2 ^ 23) ?_
    rw [floatSpacing_of (-1) 0 (by norm_num) (by norm_num)]
    norm_num
  · unfold truncToInt
    rw [if_neg (by norm_num), Int.ceil_eq_iff]
    norm_num

theorem numberTopPoints_one_minus_half :
    numberTopPoints 1 1 (-1 / 2) = 0 := by
  refine numberTopPoints_eval _ _ _ 1 (-1 / 2) 0 ?_ ?_ ?_
  · norm_num
    exact toFloat_one
  · rw [one_mul]
    refine toFloat_of_multiple _ (-2 ^ 23) ?_
    rw [floatSpacing_of (-1 / 2) (-1) (by norm_num [abs_of_neg]) (by norm_num [abs_of_neg])]
    norm_num
  · unfold truncToInt
    rw [if_neg (by norm_num), Int.ceil_eq_iff]
    norm_num

end Harris

namespace Harris

/-! ## Claims about the box-sum smoothing -/

/-- C1: `ComputeIntegralImg` is the two-dimensional prefix sum.  For every non-empty
`R × C` input buffer the call returns a buffer `S` of the same dimensions with
`S[r,c]` the sum of `input[i,j]` over `0 ≤ i ≤ r`, `0 ≤ j ≤ c`; for the all-ones input
`S[r,c] = (r+1)*(c+1)`. -/
theorem C1_integral_image_is_prefix_sum (img : Mat ℚ) (R C : Nat) (f : Int → Int → ℚ)
    (hI : img.Is R C f) (hR : 0 < R) (hC : 0 < C) :
    ∃ S, ComputeIntegralImg img = some S ∧ S.rows = R ∧ S.cols = C ∧
      (∀ r c : Nat, r < R → c < C →
        S.read r c
          = some (∑ i in Finset.range (r + 1), ∑ j in Finset.range (c + 1), f i j)) ∧
      ((∀ i j : Int, f i j = 1) → ∀ r c : Nat, r < R → c < C →
        S.read r c = some (((r : ℚ) + 1) * ((c : ℚ) + 1))) := by
  obtain ⟨S, hS, hSis⟩ := ComputeIntegralImg_spec img R C f hI (by omega) (by omega)
  have key : ∀ r c : Nat, r < R → c < C →
      S.read r c
        = some (∑ i in Finset.range (r + 1), ∑ j in Finset.range (c + 1), f i j) := by
    intro r c hr hc
    rw [hSis.read r c (by omega) (by omega) (by omega) (by omega), prefixSum_natCast]
  refine ⟨S, hS, hSis.1, hSis.2.1, key, ?_⟩
  intro hone r c hr hc
  rw [key r c hr hc]
  simp [hone]
  ring

/-- C1, on the all-ones `2 × 3` buffer: the bottom-right entry of the integral image
is `6`. -/
theorem C1_integral_image_witness :
    ∃ S, ComputeIntegralImg (Mat.ofFn 2 3 (fun _ _ => (1 : ℚ))) = some S ∧
      S.read 1 2 = some 6 := by
  obtain ⟨S, hS, _, _, _, h1⟩ := C1_integral_image_is_prefix_sum
    (Mat.ofFn 2 3 (fun _ _ => (1 : ℚ))) 2 3 (fun _ _ => 1)
    (by simpa using Mat.ofFn_is 2 3 (fun _ _ => (1 : ℚ))) (by decide) (by decide)
  refine ⟨S, hS, ?_⟩
  have := h1 (fun _ _ => rfl) 1 2 (by decide) (by decide)
  norm_num at this
  exact this

/-- C2, evaluated on the all-ones `3 × 3` buffer with `range = 1`: the only output
entry of `MeanFilter` is `4`, whereas the sum over the `3 × 3` window centred at input
position `(1,1)` is `9`. -/
theorem C2_box_filter_on_ones :
    ∃ S out, ComputeIntegralImg (Mat.ofFn 3 3 (fun _ _ => (1 : ℚ))) = some S ∧
      MeanFilter S 1 = some out ∧ out.read 0 0 = some 4 ∧
      windowSum (fun _ _ => (1 : ℚ)) 0 3 0 3 = 9 := by
  obtain ⟨S, out, hS, hout, _, _, h⟩ := boxFilter_window
    (Mat.ofFn 3 3 (fun _ _ => (1 : ℚ))) 3 3 1 (fun _ _ => 1)
    (by simpa using Mat.ofFn_is 3 3 (fun _ _ => (1 : ℚ))) (by decide) (by decide)
  refine ⟨S, out, hS, by simpa using hout, ?_, ?_⟩
  · have := h 0 0 (by decide) (by decide)
    simp only [windowSum] at this
    norm_num at this
    exact this
  · simp only [windowSum]
    norm_num

/-- C17: the window of the box-sum filter as coded.  For an `H × W` input with
`H > 2·range` and `W > 2·range`, entry `(i,j)` of
`MeanFilter(ComputeIntegralImg(input), range)` is the sum of `input[a,b]` over
`i < a ≤ i + 2·range` and `j < b ≤ j + 2·range`; for `range = 0` every entry is `0`. -/
theorem C17_box_filter_window_as_coded (img : Mat ℚ) (H W n : Nat) (f : Int → Int → ℚ)
    (hI : img.Is H W f) (hH : 2 * n < H) (hW : 2 * n < W) :
    ∃ S out, ComputeIntegralImg img = some S ∧ MeanFilter S n = some out ∧
      out.rows = (H : Int) - 2 * n ∧ out.cols = (W : Int) - 2 * n ∧
      (∀ i j : Nat, i + 2 * n < H → j + 2 * n < W →
        out.read i j
          = some (windowSum f (i + 1) (i + 2 * n + 1) (j + 1) (j + 2 * n + 1))) ∧
      (n = 0 → ∀ i j : Nat, i < H → j < W → out.read i j = some 0) := by
  obtain ⟨S, out, hS, hout, hr, hc, h⟩ := boxFilter_window img H W n f hI hH hW
  refine ⟨S, out, hS, hout, hr, hc, h, ?_⟩
  intro hn i j hi hj
  subst hn
  rw [h i j (by omega) (by omega)]
  simp [windowSum]

/-- C17, on the `3 × 3` buffer with entries `10·r + c` and `range = 1`: the output
entry is `11 + 12 + 21 + 22 = 66`, the sum over rows and columns `1..2`. -/
theorem C17_box_filter_window_witness :
    ∃ S out, ComputeIntegralImg (Mat.ofFn 3 3 (fun r c => (10 * r + c : ℚ))) = some S ∧
      MeanFilter S 1 = some out ∧ out.read 0 0 = some 66 := by
  obtain ⟨S, out, hS, hout, _, _, h, _⟩ := C17_box_filter_window_as_coded
    (Mat.ofFn 3 3 (fun r c => (10 * r + c : ℚ))) 3 3 1 (fun r c => (10 * r + c : ℚ))
    (by simpa using Mat.ofFn_is 3 3 (fun r c => (10 * r + c : ℚ))) (by decide) (by decide)
  refine ⟨S, out, hS, by simpa using hout, ?_⟩
  have := h 0 0 (by decide) (by decide)
  simp only [windowSum] at this
  norm_num [Finset.sum_Ico_succ_top] at this
  exact this

end Harris

namespace Harris

/-! ## Claims about the pipeline of the constructor -/

/-- C8: a flat image gives a zero response.  For every grayscale buffer whose samples
all equal one constant `v`, every `k`, every `filterRange ≥ 0` that leaves at least one
row and one column, and both smoothing strategies, the stages `ComputeDerivatives`,
`ApplyMeanToDerivatives` / `ApplyGaussToDerivatives`, `ComputeHarrisResponses` all
return, `Ix` and `Iy` are `0` everywhere and every entry of the response is `0`. -/
theorem C8_flat_image_zero_response (weight : Int → ℚ) (grey : Mat ℚ) (rows cols : Int)
    (v k : ℚ) (filterRange : Int) (gauss : Bool) (hG : grey.Is rows cols (fun _ _ => v))
    (hn : 0 ≤ filterRange) (hR : 1 ≤ rows - 2 - 2 * filterRange)
    (hC : 1 ≤ cols - 2 - 2 * filterRange) :
    ∃ d md M, ComputeDerivatives grey = some d ∧
      (if gauss then ApplyGaussToDerivatives weight d filterRange
        else ApplyMeanToDerivatives d filterRange) = some md ∧
      ComputeHarrisResponses k md = some M ∧
      (∀ r c, 0 ≤ r → r < rows - 2 → 0 ≤ c → c < cols - 2 →
        d.Ix.read r c = some 0 ∧ d.Iy.read r c = some 0) ∧
      M.rows = rows - 2 - 2 * filterRange ∧ M.cols = cols - 2 - 2 * filterRange ∧
      ∀ r c, 0 ≤ r → r < rows - 2 - 2 * filterRange → 0 ≤ c →
        c < cols - 2 - 2 * filterRange → M.read r c = some 0 := by
  obtain ⟨d, md, M, hd, hmd, hM, hdx, hdy, _, _, _, _, hMis⟩ :=
    stages_spec weight grey rows cols _ hG k filterRange gauss hn (by omega) (by omega)
  have ex : sobelStencilX (fun _ _ => v) = fun _ _ => 0 := by
    funext r c; exact sobelStencilX_const v r c
  have ey : sobelStencilY (fun _ _ => v) = fun _ _ => 0 := by
    funext r c; exact sobelStencilY_const v r c
  rw [ex, ey] at hMis
  refine ⟨d, md, M, hd, hmd, hM, ?_, hMis.1, hMis.2.1, ?_⟩
  · intro r c h1 h2 h3 h4
    rw [hdx.read r c h1 h2 h3 h4, hdy.read r c h1 h2 h3 h4, sobelStencilX_const,
      sobelStencilY_const]
    exact ⟨rfl, rfl⟩
  · intro r c h1 h2 h3 h4
    rw [hMis.read r c h1 h2 h3 h4, smoothed_zero, harrisScore_zero]

/-- C8, on the flat `5 × 5` buffer of value `7` with `k = 1/20`, `filterRange = 1` and
the box-sum strategy: the single response entry is `0`. -/
theorem C8_flat_image_witness :
    ∃ d md M, ComputeDerivatives (Mat.ofFn 5 5 (fun _ _ => (7 : ℚ))) = some d ∧
      ApplyMeanToDerivatives d 1 = some md ∧
      ComputeHarrisResponses (1 / 20) md = some M ∧ M.read 0 0 = some 0 := by
  obtain ⟨d, md, M, hd, hmd, hM, _, _, _, h⟩ := C8_flat_image_zero_response (fun _ => 1)
    (Mat.ofFn 5 5 (fun _ _ => (7 : ℚ))) 5 5 7 (1 / 20) 1 false (Mat.ofFn_is 5 5 _)
    (by decide) (by decide) (by decide)
  exact ⟨d, md, M, hd, by simpa using hmd, hM, h 0 0 (by decide) (by decide) (by decide)
    (by decide)⟩

/-- C9: the response is non-negative.  For every derivative pair `(Ix, Iy)` of identical
dimensions and every `k`, also a negative one, `ComputeHarrisResponses` returns a
buffer of those dimensions whose entry `(r,c)` is `|det − k·trace²|` (`harrisScore`) of
the two derivatives at `(r,c)`, hence `≥ 0`. -/
theorem C9_response_nonneg (k : ℚ) (d : Derivatives ℚ) (R C : Int) (gx gy : Int → Int → ℚ)
    (hx : d.Ix.Is R C gx) (hy : d.Iy.Is R C gy) (hR : 0 ≤ R) (hC : 0 ≤ C) :
    ∃ M, ComputeHarrisResponses k d = some M ∧ M.rows = R ∧ M.cols = C ∧
      ∀ r c, 0 ≤ r → r < R → 0 ≤ c → c < C →
        ∃ v, M.read r c = some v ∧ v = harrisScore k (gx r c) (gy r c) ∧ 0 ≤ v := by
  obtain ⟨M, hM, hMis⟩ := ComputeHarrisResponses_spec k d R C gx gy hx hy hR hC
  refine ⟨M, hM, hMis.1, hMis.2.1, ?_⟩
  intro r c h1 h2 h3 h4
  exact ⟨_, hMis.read r c h1 h2 h3 h4, rfl, harrisScore_nonneg _ _ _⟩

/-- C9, for `Ix = 1`, `Iy = 2` and `k = −1`: the response is `25`. -/
theorem C9_response_nonneg_witness :
    ∃ M, ComputeHarrisResponses (-1)
        ⟨Mat.ofFn 1 1 (fun _ _ => 1), Mat.ofFn 1 1 (fun _ _ => 2), Mat.ofFn 1 1 (fun _ _ => 2)⟩
        = some M ∧ M.read 0 0 = some 25 := by
  obtain ⟨M, hM, _, _, h⟩ := C9_response_nonneg (-1)
    ⟨Mat.ofFn 1 1 (fun _ _ => 1), Mat.ofFn 1 1 (fun _ _ => 2), Mat.ofFn 1 1 (fun _ _ => 2)⟩
    1 1 (fun _ _ => 1) (fun _ _ => 2) (Mat.ofFn_is 1 1 _) (Mat.ofFn_is 1 1 _)
    (by decide) (by decide)
  obtain ⟨v, hv, hv', _⟩ := h 0 0 (by decide) (by decide) (by decide) (by decide)
  refine ⟨M, hM, ?_⟩
  rw [hv, hv']
  norm_num [harrisScore]

/-- C10: dimensions of the response buffer.  For every `rows × cols` image and every
`filterRange ≥ 0` that leaves at least one row and one column, with either smoothing
strategy the constructor returns a response buffer with exactly
`rows − 2 − 2·filterRange` rows and `cols − 2 − 2·filterRange` columns, and the three
smoothed derivative buffers have the same dimensions. -/
theorem C10_response_dimensions (weight : Int → ℚ) (img : Image) (k : ℚ)
    (filterRange : Int) (gauss : Bool) (hn : 0 ≤ filterRange)
    (hR : 1 ≤ img.rows - 2 - 2 * filterRange) (hC : 1 ≤ img.cols - 2 - 2 * filterRange) :
    ∃ grey d md M, ConvertRgbToGrayscale img = some grey ∧
      ComputeDerivatives grey = some d ∧
      (if gauss then ApplyGaussToDerivatives weight d filterRange
        else ApplyMeanToDerivatives d filterRange) = some md ∧
      ComputeHarrisResponses k md = some M ∧
      Harris weight img k filterRange gauss = some M ∧
      M.rows = img.rows - 2 - 2 * filterRange ∧ M.cols = img.cols - 2 - 2 * filterRange ∧
      (md.Ix.rows = M.rows ∧ md.Ix.cols = M.cols) ∧
      (md.Iy.rows = M.rows ∧ md.Iy.cols = M.cols) ∧
      (md.Ixy.rows = M.rows ∧ md.Ixy.cols = M.cols) := by
  obtain ⟨grey, hgrey, hgis⟩ := ConvertRgbToGrayscale_spec img (by omega) (by omega)
  obtain ⟨d, md, M, hd, hmd, hM, _, _, _, hx, hy, hxy, hMis⟩ :=
    stages_spec weight grey _ _ _ hgis k filterRange gauss hn (by omega) (by omega)
  refine ⟨grey, d, md, M, hgrey, hd, hmd, hM, ?_, hMis.1, hMis.2.1,
    ⟨by rw [hx.1, hMis.1], by rw [hx.2.1, hMis.2.1]⟩,
    ⟨by rw [hy.1, hMis.1], by rw [hy.2.1, hMis.2.1]⟩,
    ⟨by rw [hxy.1, hMis.1], by rw [hxy.2.1, hMis.2.1]⟩⟩
  rw [Harris_eq_of_stages weight img k filterRange gauss grey d md hgrey hd hmd, hM]

/-- C10, for a `7 × 9` image with `filterRange = 1` and the Gaussian strategy: the
response buffer is `3 × 5`. -/
theorem C10_response_dimensions_witness :
    ∃ M, Harris (fun _ => 1) ⟨7, 9, fun _ _ _ => 3⟩ (1 / 20) 1 true = some M ∧
      M.rows = 3 ∧ M.cols = 5 := by
  obtain ⟨_, _, _, M, _, _, _, _, hM, hr, hc, _⟩ := C10_response_dimensions (fun _ => 1)
    ⟨7, 9, fun _ _ _ => 3⟩ (1 / 20) 1 true (by decide) (by decide) (by decide)
  exact ⟨M, hM, by simpa using hr, by simpa using hc⟩

/-- C12, refuted on a `2 × 7` image with `filterRange = 0`: the resulting number of rows
is `2 − 2 − 2·0 = 0`, and the constructor returns an empty `0 × 5` response buffer
instead of failing. -/
theorem C12_no_failure_on_zero_rows :
    (2 : Int) - 2 - 2 * 0 ≤ 0 ∧
      ∃ M, Harris (fun _ => 1) ⟨2, 7, fun _ _ _ => 1⟩ (1 / 20) 0 false = some M ∧
        M.rows = 0 ∧ M.cols = 5 := by
  refine ⟨by decide, ?_⟩
  obtain ⟨M, hM, his⟩ := Harris_spec (fun _ => 1) ⟨2, 7, fun _ _ _ => 1⟩ (1 / 20) 0 false
    (by decide) (by decide) (by decide)
  exact ⟨M, hM, by simpa using his.1, by simpa using his.2.1⟩

/-- C12, amended: the constructor does not validate its input.  For `filterRange ≥ 0`
it fails exactly when `rows − 2 − 2·filterRange < 0` or `cols − 2 − 2·filterRange < 0`
(a matrix of negative size cannot be allocated); when one of the two is exactly `0` it
returns an empty response buffer. -/
theorem C12_fails_iff_negative_dimension (weight : Int → ℚ) (img : Image) (k : ℚ)
    (filterRange : Int) (gauss : Bool) (hn : 0 ≤ filterRange) :
    (Harris weight img k filterRange gauss = none ↔
      img.rows - 2 - 2 * filterRange < 0 ∨ img.cols - 2 - 2 * filterRange < 0) ∧
    ∀ M, Harris weight img k filterRange gauss = some M →
      M.rows = img.rows - 2 - 2 * filterRange ∧ M.cols = img.cols - 2 - 2 * filterRange := by
  by_cases h : img.rows - 2 - 2 * filterRange < 0 ∨ img.cols - 2 - 2 * filterRange < 0
  · have hnone := Harris_none weight img k filterRange gauss hn h
    refine ⟨⟨fun _ => h, fun _ => hnone⟩, ?_⟩
    intro M hM
    rw [hnone] at hM
    cases hM
  · obtain ⟨M, hM, his⟩ := Harris_spec weight img k filterRange gauss hn (by omega) (by omega)
    refine ⟨⟨fun hnone => ?_, fun h' => absurd h' h⟩, ?_⟩
    · rw [hM] at hnone
      cases hnone
    · intro M' hM'
      rw [hM] at hM'
      cases hM'
      exact ⟨his.1, his.2.1⟩

/-- C12, amended, on a `1 × 7` image with `filterRange = 0`: the constructor fails. -/
theorem C12_fails_iff_negative_dimension_witness :
    Harris (fun _ => 1) ⟨1, 7, fun _ _ _ => 1⟩ (1 / 20) 0 false = none :=
  (C12_fails_iff_negative_dimension (fun _ => 1) ⟨1, 7, fun _ _ _ => 1⟩ (1 / 20) 0 false
    (by decide)).1.2 (Or.inl (by decide))

end Harris

namespace Harris

/-- C14: the grayscale conversion is the pointwise Rec.709 map.  For every image,
`ConvertRgbToGrayscale` returns a buffer of the same size whose entry `(r,c)` is
`0.2126·ch0 + 0.7152·ch1 + 0.0722·ch2` of pixel `(r,c)`; in exact arithmetic a pixel
`(255,0,0)` gives `54.213`, `(0,255,0)` gives `182.376`, `(0,0,255)` gives `18.411`,
`(255,255,255)` gives `255`, and a gray pixel `(v,v,v)` gives `v`. -/
theorem C14_grayscale_is_rec709 (img : Image) (hR : 0 ≤ img.rows) (hC : 0 ≤ img.cols) :
    ∃ g, ConvertRgbToGrayscale img = some g ∧ g.rows = img.rows ∧ g.cols = img.cols ∧
      ∀ r c, 0 ≤ r → r < img.rows → 0 ≤ c → c < img.cols →
        g.read r c = some (2126 / 10000 * ((img.data r c 0).val : ℚ)
          + 7152 / 10000 * ((img.data r c 1).val : ℚ)
          + 722 / 10000 * ((img.data r c 2).val : ℚ)) ∧
        (img.data r c 0 = 255 → img.data r c 1 = 0 → img.data r c 2 = 0 →
          g.read r c = some (54213 / 1000)) ∧
        (img.data r c 0 = 0 → img.data r c 1 = 255 → img.data r c 2 = 0 →
          g.read r c = some (182376 / 1000)) ∧
        (img.data r c 0 = 0 → img.data r c 1 = 0 → img.data r c 2 = 255 →
          g.read r c = some (18411 / 1000)) ∧
        (img.data r c 0 = 255 → img.data r c 1 = 255 → img.data r c 2 = 255 →
          g.read r c = some 255) ∧
        (img.data r c 1 = img.data r c 0 → img.data r c 2 = img.data r c 0 →
          g.read r c = some ((img.data r c 0).val : ℚ)) := by
  obtain ⟨g, hg, his⟩ := ConvertRgbToGrayscale_spec img hR hC
  refine ⟨g, hg, his.1, his.2.1, ?_⟩
  intro r c h1 h2 h3 h4
  have key := his.read r c h1 h2 h3 h4
  unfold luminance at key
  have v255 : ((255 : Fin 256).val : ℚ) = 255 := by
    have : (255 : Fin 256).val = 255 := rfl
    rw [this]
    norm_num
  have v0 : ((0 : Fin 256).val : ℚ) = 0 := by
    have : (0 : Fin 256).val = 0 := rfl
    rw [this]
    norm_num
  refine ⟨key, ?_, ?_, ?_, ?_, ?_⟩
  · intro e0 e1 e2
    rw [key, e0, e1, e2, v255, v0]
    norm_num
  · intro e0 e1 e2
    rw [key, e0, e1, e2, v255, v0]
    norm_num
  · intro e0 e1 e2
    rw [key, e0, e1, e2, v255, v0]
    norm_num
  · intro e0 e1 e2
    rw [key, e0, e1, e2, v255]
    norm_num
  · intro e1 e2
    rw [key, e1, e2]
    congr 1
    ring

/-- C14, on a `1 × 1` image with the pixel `(255,0,0)`: the luminance is `54.213`. -/
theorem C14_grayscale_witness :
    ∃ g, ConvertRgbToGrayscale ⟨1, 1, fun _ _ k => if k = 0 then 255 else 0⟩ = some g ∧
      g.read 0 0 = some (54213 / 1000) := by
  obtain ⟨g, hg, _, _, h⟩ := C14_grayscale_is_rec709
    ⟨1, 1, fun _ _ k => if k = 0 then 255 else 0⟩ (by decide) (by decide)
  exact ⟨g, hg, (h 0 0 (by decide) (by decide) (by decide) (by decide)).2.1
    (by decide) (by decide) (by decide)⟩

/-- C15: the separable derivative computation equals the direct `3 × 3` stencils.  For
every `rows × cols` grayscale buffer `I` with `rows ≥ 3` and `cols ≥ 3`,
`ComputeDerivatives` returns (so no access to the image or to a helper buffer is out of
range) buffers `Ix`, `Iy` of dimension `(rows − 2) × (cols − 2)` with
`Ix[r,c] = (I[r,c] + 2·I[r,c+1] + I[r,c+2]) − (I[r+2,c] + 2·I[r+2,c+1] + I[r+2,c+2])` and
`Iy[r,c] = (I[r,c+2] + 2·I[r+1,c+2] + I[r+2,c+2]) − (I[r,c] + 2·I[r+1,c] + I[r+2,c])`. -/
theorem C15_derivatives_are_sobel_stencils (grey : Mat ℚ) (rows cols : Int)
    (I : Int → Int → ℚ) (hG : grey.Is rows cols I) (hR : 3 ≤ rows) (hC : 3 ≤ cols) :
    ∃ d, ComputeDerivatives grey = some d ∧
      (d.Ix.rows = rows - 2 ∧ d.Ix.cols = cols - 2) ∧
      (d.Iy.rows = rows - 2 ∧ d.Iy.cols = cols - 2) ∧
      ∀ r c, 0 ≤ r → r < rows - 2 → 0 ≤ c → c < cols - 2 →
        d.Ix.read r c = some ((I r c + 2 * I r (c + 1) + I r (c + 2))
          - (I (r + 2) c + 2 * I (r + 2) (c + 1) + I (r + 2) (c + 2))) ∧
        d.Iy.read r c = some ((I r (c + 2) + 2 * I (r + 1) (c + 2) + I (r + 2) (c + 2))
          - (I r c + 2 * I (r + 1) c + I (r + 2) c)) := by
  obtain ⟨d, hd, hx, hy, _⟩ := ComputeDerivatives_spec grey rows cols I hG (by omega)
    (by omega)
  refine ⟨d, hd, ⟨hx.1, hx.2.1⟩, ⟨hy.1, hy.2.1⟩, ?_⟩
  intro r c h1 h2 h3 h4
  exact ⟨hx.read r c h1 h2 h3 h4, hy.read r c h1 h2 h3 h4⟩

/-- C15, on the `3 × 3` buffer with entries `r·r + 3·c`: `Ix = −16` and `Iy = 24`. -/
theorem C15_derivatives_witness :
    ∃ d, ComputeDerivatives (Mat.ofFn 3 3 (fun r c => (r * r + 3 * c : ℚ))) = some d ∧
      d.Ix.read 0 0 = some (-16) ∧ d.Iy.read 0 0 = some 24 := by
  obtain ⟨d, hd, _, _, h⟩ := C15_derivatives_are_sobel_stencils
    (Mat.ofFn 3 3 (fun r c => (r * r + 3 * c : ℚ))) 3 3 (fun r c => (r * r + 3 * c : ℚ))
    (Mat.ofFn_is 3 3 _) (by decide) (by decide)
  obtain ⟨hx, hy⟩ := h 0 0 (by decide) (by decide) (by decide) (by decide)
  refine ⟨d, hd, ?_, ?_⟩
  · rw [hx]; norm_num
  · rw [hy]; norm_num

/-- C16: the determinant term of the response is identically zero.  For every
derivative pair and every `k`, `det = Ix²·Iy² − (Ix·Iy)² = 0`, so entry `(r,c)` of
`ComputeHarrisResponses(k, d)` is `|k|·(Ix[r,c]² + Iy[r,c]²)²`; the response is
therefore monotone in the squared gradient magnitude, and it is `0` everywhere for
`k = 0`. -/
theorem C16_determinant_vanishes (k : ℚ) (d : Derivatives ℚ) (R C : Int)
    (gx gy : Int → Int → ℚ) (hx : d.Ix.Is R C gx) (hy : d.Iy.Is R C gy)
    (hR : 0 ≤ R) (hC : 0 ≤ C) :
    ∃ M, ComputeHarrisResponses k d = some M ∧
      (∀ r c, 0 ≤ r → r < R → 0 ≤ c → c < C →
        (gx r c * gx r c) * (gy r c * gy r c) - (gx r c * gy r c) * (gx r c * gy r c) = 0 ∧
        M.read r c = some (|k| * (gx r c ^ 2 + gy r c ^ 2) ^ 2) ∧
        (k = 0 → M.read r c = some 0)) ∧
      ∀ r c r' c' v v', 0 ≤ r → r < R → 0 ≤ c → c < C → 0 ≤ r' → r' < R → 0 ≤ c' → c' < C →
        gx r c ^ 2 + gy r c ^ 2 ≤ gx r' c' ^ 2 + gy r' c' ^ 2 →
        M.read r c = some v → M.read r' c' = some v' → v ≤ v' := by
  obtain ⟨M, hM, hMis⟩ := ComputeHarrisResponses_spec k d R C gx gy hx hy hR hC
  have key : ∀ r c, 0 ≤ r → r < R → 0 ≤ c → c < C →
      M.read r c = some (|k| * (gx r c ^ 2 + gy r c ^ 2) ^ 2) := by
    intro r c h1 h2 h3 h4
    rw [hMis.read r c h1 h2 h3 h4, harrisScore_eq, pow_two (gx r c), pow_two (gy r c)]
  refine ⟨M, hM, ?_, ?_⟩
  · intro r c h1 h2 h3 h4
    refine ⟨by ring, key r c h1 h2 h3 h4, ?_⟩
    intro hk
    rw [key r c h1 h2 h3 h4, hk]
    simp
  · intro r c r' c' v v' h1 h2 h3 h4 h5 h6 h7 h8 hle hv hv'
    rw [key r c h1 h2 h3 h4] at hv
    rw [key r' c' h5 h6 h7 h8] at hv'
    cases hv
    cases hv'
    have h0 : 0 ≤ gx r c ^ 2 + gy r c ^ 2 := by positivity
    exact mul_le_mul_of_nonneg_left (pow_le_pow_left₀ h0 hle 2) (abs_nonneg k)

/-- C16, for `Ix = 1`, `Iy = 2` and `k = 3`: the response is `3·(1 + 4)² = 75`. -/
theorem C16_determinant_vanishes_witness :
    ∃ M, ComputeHarrisResponses 3
        ⟨Mat.ofFn 1 1 (fun _ _ => 1), Mat.ofFn 1 1 (fun _ _ => 2), Mat.ofFn 1 1 (fun _ _ => 2)⟩
        = some M ∧ M.read 0 0 = some 75 := by
  obtain ⟨M, hM, h, _⟩ := C16_determinant_vanishes 3
    ⟨Mat.ofFn 1 1 (fun _ _ => 1), Mat.ofFn 1 1 (fun _ _ => 2), Mat.ofFn 1 1 (fun _ _ => 2)⟩
    1 1 (fun _ _ => 1) (fun _ _ => 2) (Mat.ofFn_is 1 1 _) (Mat.ofFn_is 1 1 _)
    (by decide) (by decide)
  refine ⟨M, hM, ?_⟩
  rw [(h 0 0 (by decide) (by decide) (by decide) (by decide)).2.1]
  norm_num

/-- C19: the Gaussian strategy is a constant scaling of each sample.  For every `H × W`
input, every `range ≥ 1` with `H > 2·range` and `W > 2·range`, `GaussFilter` returns a
buffer of dimension `(H − 2·range) × (W − 2·range)` whose entry `(i,j)` is
`input[i,j]·(Σ_{x=−range..range} weight(x))²`, where `weight x` is the value of
`1/sqrt(2*M_PI)*exp(-0.5*x*x)`; so the output is the same for two inputs that agree on
their top-left `(H − 2·range) × (W − 2·range)` block. -/
theorem C19_gauss_filter_is_scaling (weight : Int → ℚ) (img : Mat ℚ) (H W range : Int)
    (f : Int → Int → ℚ) (hI : img.Is H W f) (hn : 1 ≤ range) (hH : 2 * range < H)
    (hW : 2 * range < W) :
    ∃ out, GaussFilter weight img range = some out ∧
      out.rows = H - 2 * range ∧ out.cols = W - 2 * range ∧
      (∀ i j, 0 ≤ i → i < H - 2 * range → 0 ≤ j → j < W - 2 * range →
        out.read i j = some (f i j * (∑ x in Finset.Icc (-range) range, weight x) ^ 2)) ∧
      ∀ (other : Mat ℚ) (g : Int → Int → ℚ), other.Is H W g →
        (∀ i j, 0 ≤ i → i < H - 2 * range → 0 ≤ j → j < W - 2 * range → g i j = f i j) →
        ∃ out', GaussFilter weight other range = some out' ∧
          ∀ i j, 0 ≤ i → i < H - 2 * range → 0 ≤ j → j < W - 2 * range →
            out'.read i j = out.read i j := by
  obtain ⟨out, hout, his⟩ := GaussFilter_spec weight img H W range f hI (by omega)
    (by omega) (by omega)
  have key : ∀ i j, 0 ≤ i → i < H - 2 * range → 0 ≤ j → j < W - 2 * range →
      out.read i j = some (f i j * (∑ x in Finset.Icc (-range) range, weight x) ^ 2) := by
    intro i j h1 h2 h3 h4
    rw [his.read i j h1 h2 h3 h4]
    unfold weightSum
    congr 1
    ring
  refine ⟨out, hout, his.1, his.2.1, key, ?_⟩
  intro other g hO hag
  obtain ⟨out', hout', his'⟩ := GaussFilter_spec weight other H W range g hO (by omega)
    (by omega) (by omega)
  refine ⟨out', hout', ?_⟩
  intro i j h1 h2 h3 h4
  rw [his'.read i j h1 h2 h3 h4, his.read i j h1 h2 h3 h4, hag i j h1 h2 h3 h4]

/-- C19, on the `3 × 3` buffer with entries `10·r + c + 1`, `range = 1` and the weights
`1, 2, 1`: the output entry is `input[0,0]·(1 + 2 + 1)² = 16`, although the centre of the
window holds `12`. -/
theorem C19_gauss_filter_witness :
    ∃ out, GaussFilter (fun x => if x = 0 then 2 else 1)
        (Mat.ofFn 3 3 (fun r c => (10 * r + c + 1 : ℚ))) 1 = some out ∧
      out.read 0 0 = some 16 := by
  obtain ⟨out, hout, _, _, h, _⟩ := C19_gauss_filter_is_scaling
    (fun x => if x = 0 then 2 else 1) (Mat.ofFn 3 3 (fun r c => (10 * r + c + 1 : ℚ)))
    3 3 1 (fun r c => (10 * r + c + 1 : ℚ)) (Mat.ofFn_is 3 3 _) (by decide) (by decide)
    (by decide)
  refine ⟨out, hout, ?_⟩
  rw [h 0 0 (by decide) (by decide) (by decide) (by decide)]
  have e : Finset.Icc (-1 : Int) 1 = {-1, 0, 1} := by decide
  rw [e]
  norm_num

/-- C20: the third slot of the derivative triple is the second one.  For every
grayscale buffer with `rows ≥ 3` and `cols ≥ 3`, `ComputeDerivatives` returns a triple
with `d.Ixy = d.Iy`: entry `(r,c)` of the third slot is `Iy[r,c]`, and it is not the
product `Ix[r,c]·Iy[r,c]` wherever the two differ. -/
theorem C20_ixy_is_iy (grey : Mat ℚ) (rows cols : Int) (I : Int → Int → ℚ)
    (hG : grey.Is rows cols I) (hR : 3 ≤ rows) (hC : 3 ≤ cols) :
    ∃ d, ComputeDerivatives grey = some d ∧ d.Ixy = d.Iy ∧
      ∀ r c, 0 ≤ r → r < rows - 2 → 0 ≤ c → c < cols - 2 →
        d.Ix.read r c = some (sobelStencilX I r c) ∧
        d.Iy.read r c = some (sobelStencilY I r c) ∧
        d.Ixy.read r c = some (sobelStencilY I r c) ∧
        (sobelStencilX I r c * sobelStencilY I r c ≠ sobelStencilY I r c →
          d.Ixy.read r c ≠ some (sobelStencilX I r c * sobelStencilY I r c)) := by
  obtain ⟨d, hd, hx, hy, hxy⟩ := ComputeDerivatives_spec grey rows cols I hG (by omega)
    (by omega)
  refine ⟨d, hd, hxy, ?_⟩
  intro r c h1 h2 h3 h4
  have e := hy.read r c h1 h2 h3 h4
  refine ⟨hx.read r c h1 h2 h3 h4, e, by rw [hxy]; exact e, ?_⟩
  intro hne
  rw [hxy, e]
  intro heq
  exact hne (Option.some.inj heq).symm

/-- C20, on the `3 × 3` buffer with entries `r + c`: `Ix = −8`, `Iy = 8`, the product is
`−64`, and the third slot holds `8`. -/
theorem C20_ixy_is_iy_witness :
    ∃ d, ComputeDerivatives (Mat.ofFn 3 3 (fun r c => (r + c : ℚ))) = some d ∧
      d.Ix.read 0 0 = some (-8) ∧ d.Iy.read 0 0 = some 8 ∧ d.Ixy.read 0 0 = some 8 := by
  obtain ⟨d, hd, _, h⟩ := C20_ixy_is_iy (Mat.ofFn 3 3 (fun r c => (r + c : ℚ))) 3 3
    (fun r c => (r + c : ℚ)) (Mat.ofFn_is 3 3 _) (by decide) (by decide)
  obtain ⟨hx, hy, hxy, _⟩ := h 0 0 (by decide) (by decide) (by decide) (by decide)
  refine ⟨d, hd, ?_, ?_, ?_⟩
  · rw [hx]; norm_num [sobelStencilX]
  · rw [hy]; norm_num [sobelStencilY]
  · rw [hxy]; norm_num [sobelStencilY]

end Harris

namespace Harris

/-! ## Claims about the selection of maxima -/

end Harris

namespace Harris

/-- C11, evaluated on the `2 × 2` response buffer with the maximum `5` at grid position
`(0,0)`, `percentage = 1` and `suppressionRadius = 1`: the first mask write of the
neighbourhood loops is at `(0 + (−1), 0 + (−1))`, outside the mask, so the loops and the
whole call abort when the indices of `at` are checked. -/
theorem C11_mask_write_out_of_range :
    maskWrite true (⟨2, 2, fun _ _ => some 0⟩ : Mat ℚ) (0 + -1) (0 + -1) 1 = none ∧
      suppress true (⟨2, 2, fun _ _ => some 0⟩ : Mat ℚ) ⟨0, 0⟩ 1 = none ∧
      GetMaximaPoints insertionStdSort true
        (Mat.ofFn 2 2 (fun r c => if r = 0 ∧ c = 0 then 5 else 1)) 1 0 1 = none := by
  have hcap : numberTopPoints 2 2 1 = 4 := by
    have := numberTopPoints_one 2 2 (by norm_num)
    norm_num at this
    exact this
  refine ⟨?_, ?_, ?_⟩
  · simp [maskWrite, Mat.inBounds]
  · simp [suppress, forLoop, forLoopN, maskWrite, Mat.inBounds]
  · simp only [GetMaximaPoints, Mat.ofFn, hcap]
    simp [Mat.filled, allPoints, forLoop, forLoopN, Mat.read, Mat.write,
      Mat.inBounds, insertionStdSort, selectLoop, toSizeT, suppress, maskWrite]

/-- Every cell of a mask with `2` rows and `3` columns is written by the neighbourhood
loops run for the position `(0,2)` with `suppressionRadius = 1`. -/
theorem writesCell_corner (r c : Int) (h1 : 0 ≤ r) (h2 : r < 2) (h3 : 0 ≤ c) (h4 : c < 3) :
    writesCell 1 3 ⟨0, 2⟩ r c := by
  by_cases hc : c = 0
  · exact ⟨1, r - 1, by omega, by omega, by omega, by omega, by dsimp only; omega⟩
  · exact ⟨c - 2, r, by omega, by omega, by omega, by omega, by dsimp only; omega⟩

/-- On the `3 × 3` response buffer with the maximum `9` at the centre and `1`
elsewhere, with `percentage = 1` and `suppressionRadius = 1`, the call that aborts on
out-of-range mask writes returns the centre alone. -/
theorem centre_alone :
    GetMaximaPoints insertionStdSort true
        (Mat.ofFn 3 3 (fun r c => if r = 1 ∧ c = 1 then 9 else 1)) 1 0 1
      = some [⟨9, ⟨2, 2⟩⟩] := by
  obtain ⟨acc, hgmp, hany, hgrid, _, _, _, _, _, hhead, _, _, _, hpww, hchk⟩ :=
    GetMaximaPoints_result insertionStdSort insertionStdSort_isStdSort
      (Mat.ofFn 3 3 (fun r c => if r = 1 ∧ c = 1 then (9 : ℚ) else 1)) 3 3
      (fun r c => if r = 1 ∧ c = 1 then (9 : ℚ) else 1)
      (by simpa using Mat.ofFn_is 3 3 _) 1 0 1
  obtain ⟨d, acc', hacc, hmax⟩ :=
    hhead (by rw [cap_full 3 3 (by norm_num)]; decide) (by decide) (by decide)
  obtain ⟨r, c, h1, h2, h3, h4, hd⟩ := hgrid d (by rw [hacc]; exact List.mem_cons_self _ _)
  have hrc : r = 1 ∧ c = 1 := by
    by_contra hne
    have := hmax 1 1 (by decide) (by decide) (by decide) (by decide)
    rw [hd] at this
    simp only [if_neg hne] at this
    norm_num at this
  obtain ⟨hr1, hc1⟩ := hrc
  subst hr1 hc1
  have hnil : acc' = [] := by
    cases hacc' : acc' with
    | nil => rfl
    | cons a rest =>
      exfalso
      rw [hacc, hacc'] at hpww hgrid
      obtain ⟨r', c', g1, g2, g3, g4, ha⟩ :=
        hgrid a (List.mem_cons_of_mem _ (List.mem_cons_self _ _))
      have hnot := (List.pairwise_cons.1 hpww).1 a (List.mem_cons_self _ _)
      rw [hd, ha] at hnot
      exact hnot ⟨c' - 1, r' - 1, by omega, by omega, by omega, by omega, by
        dsimp only; omega⟩
  subst hnil
  obtain ⟨l, hl⟩ := hchk.2 (by
    intro _ a ha
    rw [hacc, List.mem_singleton] at ha
    rw [ha, hd]
    decide)
  rw [hl, hany true l hl, hacc, hd]
  simp [remap]

end Harris

namespace Harris

/-! ## The end-to-end claim -/

theorem luminance_gray_spike (a b : Int) :
    luminance ⟨7, 7, fun r c _ => if r = 3 ∧ c = 3 then 200 else 10⟩ a b
      = if a = 3 ∧ b = 3 then 200 else 10 := by
  have v200 : ((200 : Fin 256).val : ℚ) = 200 := by
    have : (200 : Fin 256).val = 200 := rfl
    rw [this]
    norm_num
  have v10 : ((10 : Fin 256).val : ℚ) = 10 := by
    have : (10 : Fin 256).val = 10 := rfl
    rw [this]
    norm_num
  unfold luminance
  dsimp only
  by_cases h : a = 3 ∧ b = 3
  · rw [if_pos h, if_pos h, v200]
    norm_num
  · rw [if_neg h, if_neg h, v10]
    norm_num

end Harris
